import Mathlib

/-! persistent-set-cpp: a path-copying persistent ordered set.

Verification of `persistent_set.h`, in two embeddings of the same functions.

Tree-level embedding (namespace `persistent_set_cpp`):

* A `std::shared_ptr<basic_node>` / `basic_node *` is modelled by the node it points to
  (`basic_node.null` is `nullptr`).  Nodes are never written after construction (the only
  assignments to a child slot are `tmp_fake->left = ...` on a sentinel that no other handle can
  reach yet), so a pointer to a node is determined by the node.  Pointer equality is modelled by
  equality of the nodes pointed to; for two nodes of one snapshot that satisfies the key ordering
  invariant this coincides with identity, since distinct nodes of such a snapshot carry distinct
  keys, and a value node never equals the valueless sentinel.
* Undefined behaviour (dereferencing `nullptr`, `get_value()` on a node that has no value) is
  modelled by `none`.
* `size_t` is modelled by `Nat` with explicit reduction modulo `2 ^ 64`.
* The loops of `find`, `next`, `prev`, `min`, `max` and the recursions of `insert_impl` and
  `erase_impl` descend one child per step, so they are structural recursions on the node; the
  loops of a caller that iterates over a set take a bound on the number of loop tests.

Heap-level embedding (namespace `persistent_set_cpp.heap_model`):

* Nodes are objects in a heap and pointers are addresses, so that two handles can share
  objects and pointer equality is equality of addresses.  It is used for the persistence
  property and, since its loops are bounded by a step count, for termination.  The lemmas
  `insert_sim`, `erase_sim`, `find_sim_mem`, `find_sim_not_mem`, `next_sim`, `prev_sim` and
  `to_list_sim` show that on a heap that represents a well-formed set the heap-level functions
  return, and compute what the tree-level functions compute.
-/

namespace persistent_set_cpp

/-- A node of the tree: `null` is `nullptr`, `base` is a plain `basic_node` (two child slots and
no value: the sentinel), `node` is the derived `struct node` carrying a value. -/
inductive basic_node (α : Type) where
  | null : basic_node α
  | base (left right : basic_node α) : basic_node α
  | node (left right : basic_node α) (value : α) : basic_node α
  deriving DecidableEq, Repr

/-- The set handle: `fake` is the shared pointer to the sentinel, `size_` the stored count. -/
structure persistent_set (α : Type) where
  fake : basic_node α
  size_ : Nat
  deriving DecidableEq, Repr

/-- The iterator: the current node and the sentinel of the snapshot it walks. -/
structure iterator (α : Type) where
  node_ : basic_node α
  root : basic_node α
  deriving DecidableEq, Repr

/-- Number of values of `size_t`. -/
def SIZE_MOD : Nat := 2 ^ 64

section defs

variable {α : Type}

/-- Test `p == nullptr`. -/
def basic_node.is_null : basic_node α → Bool
  | .null => true
  | _ => false

/-- Read `p->left`; `none` when `p` is `nullptr`. -/
def basic_node.left : basic_node α → Option (basic_node α)
  | .null => none
  | .base l _ => some l
  | .node l _ _ => some l

/-- Read `p->right`; `none` when `p` is `nullptr`. -/
def basic_node.right : basic_node α → Option (basic_node α)
  | .null => none
  | .base _ r => some r
  | .node _ r _ => some r

/-- `basic_node::get_value`: `static_cast<node *>(this)->value`; `none` on `nullptr` and on a
node that is not a `node`. -/
def basic_node.get_value : basic_node α → Option α
  | .node _ _ v => some v
  | _ => none

/-- `basic_node::basic_node()`: both child slots empty. -/
def basic_node.mk_fake : basic_node α := .base .null .null

/-- `basic_node::min`: descend left while a left child exists. -/
def basic_node.min : basic_node α → Option (basic_node α)
  | .null => none
  | .base l r => if l.is_null then some (.base l r) else l.min
  | .node l r v => if l.is_null then some (.node l r v) else l.min

/-- `basic_node::max`: descend right while a right child exists. -/
def basic_node.max : basic_node α → Option (basic_node α)
  | .null => none
  | .base l r => if r.is_null then some (.base l r) else r.max
  | .node l r v => if r.is_null then some (.node l r v) else r.max

/-- `persistent_set::persistent_set()`. -/
def persistent_set.empty_set : persistent_set α := ⟨.null, 0⟩

/-- The copy constructor: the sentinel reference and the count are copied. -/
def persistent_set.copy (other : persistent_set α) : persistent_set α :=
  ⟨other.fake, other.size_⟩

/-- `persistent_set::clear`. -/
def persistent_set.clear (_s : persistent_set α) : persistent_set α := ⟨.null, 0⟩

/-- `persistent_set::empty`. -/
def persistent_set.empty (s : persistent_set α) : Bool := s.size_ == 0

/-- `persistent_set::create_fake`. -/
def persistent_set.create_fake (s : persistent_set α) : persistent_set α :=
  if s.fake.is_null then ⟨basic_node.mk_fake, s.size_⟩ else s

/-- `persistent_set::end`: the sentinel itself. -/
def persistent_set.end_ (s : persistent_set α) : iterator α := ⟨s.fake, s.fake⟩

/-- `persistent_set::begin`. -/
def persistent_set.begin (s : persistent_set α) : Option (iterator α) :=
  match s.fake with
  | .null => some s.end_
  | .base l r =>
    if l.is_null then some s.end_ else (basic_node.base l r).min.map (fun m => ⟨m, s.fake⟩)
  | .node l r v =>
    if l.is_null then some s.end_ else (basic_node.node l r v).min.map (fun m => ⟨m, s.fake⟩)

/-- `persistent_set::swap`. -/
def persistent_set.swap (s other : persistent_set α) : persistent_set α × persistent_set α :=
  (⟨other.fake, other.size_⟩, ⟨s.fake, s.size_⟩)

variable [LT α] [DecidableRel (fun a b : α => a < b)]

/-- The loop of `persistent_set::find`, with `current` the loop variable. -/
def find_loop (fake : basic_node α) (value : α) : basic_node α → Option (iterator α)
  | .null => some ⟨fake, fake⟩
  | .base _ _ => none
  | .node l r v =>
    if v < value then find_loop fake value r
    else if value < v then find_loop fake value l
    else some ⟨.node l r v, fake⟩

/-- `persistent_set::find`. -/
def persistent_set.find (s : persistent_set α) (value : α) : Option (iterator α) :=
  if s.fake.is_null then some s.end_
  else s.fake.left.bind (find_loop s.fake value)

/-- `persistent_set::insert_impl`: the first component is the returned pointer, the second the
value left in the reference parameter `result`. -/
def insert_impl (value : α) : basic_node α → Option (basic_node α × basic_node α)
  | .null => some (.node .null .null value, .node .null .null value)
  | .base _ _ => none
  | .node l r v =>
    if v < value then
      (insert_impl value r).map (fun p => (.node l p.1 v, p.2))
    else
      (insert_impl value l).map (fun p => (.node p.1 r v, p.2))

/-- The re-descent loop of `basic_node::next`; `x` is `this->get_value()`. -/
def next_loop (x : α) : basic_node α → basic_node α → Option (basic_node α)
  | .null, _ => none
  | .base _ _, _ => none
  | .node l r v, result =>
    if v < x then next_loop x r result
    else if x < v then next_loop x l (.node l r v)
    else some result

/-- `basic_node::next`. -/
def basic_node.next (self root : basic_node α) : Option (basic_node α) :=
  self.right.bind fun r =>
    if !r.is_null then r.min
    else root.left.bind fun current => self.get_value.bind fun x => next_loop x current root

/-- The re-descent loop of `basic_node::prev`; `x` is `this->get_value()`. -/
def prev_loop (x : α) : basic_node α → basic_node α → Option (basic_node α)
  | .null, _ => none
  | .base _ _, _ => none
  | .node l r v, result =>
    if v < x then prev_loop x r (.node l r v)
    else if x < v then prev_loop x l result
    else some result

/-- `basic_node::prev`. -/
def basic_node.prev (self root : basic_node α) : Option (basic_node α) :=
  self.left.bind fun l =>
    if !l.is_null then l.max
    else root.left.bind fun current => self.get_value.bind fun x => prev_loop x current root

/-- `iterator::operator*`. -/
def iterator.deref (it : iterator α) : Option α := it.node_.get_value

/-- `iterator::operator++`. -/
def iterator.incr (it : iterator α) : Option (iterator α) :=
  (it.node_.next it.root).map fun n => ⟨n, it.root⟩

/-- `iterator::operator--`. -/
def iterator.decr (it : iterator α) : Option (iterator α) :=
  (it.node_.prev it.root).map fun n => ⟨n, it.root⟩

variable [DecidableEq α]

/-- `operator==` on iterators: only the current node is compared. -/
def iterator.eq (lhs rhs : iterator α) : Bool := decide (lhs.node_ = rhs.node_)

/-- `persistent_set::insert`. -/
def persistent_set.insert (s : persistent_set α) (value : α) :
    Option (persistent_set α × iterator α × Bool) :=
  let s1 := s.create_fake
  (s1.find value).bind fun res =>
    if !(res.eq s1.end_) then some (s1, res, false)
    else
      s1.fake.left.bind fun l =>
        (insert_impl value l).bind fun p =>
          let tmp_fake : basic_node α := .base p.1 .null
          some (⟨tmp_fake, (s1.size_ + 1) % SIZE_MOD⟩, ⟨p.2, tmp_fake⟩, true)

/-- `persistent_set::erase_impl`. -/
def erase_impl : basic_node α → basic_node α → Option (basic_node α)
  | .null, _ => none
  | .base l r, del =>
    if basic_node.base l r = del then
      del.right.bind fun dr =>
        if dr.is_null then del.left
        else del.left.bind fun dl =>
          if dl.is_null then some dr
          else r.min.bind fun minimum =>
            (erase_impl r minimum).bind fun r1 =>
              minimum.get_value.map fun mv => .node l r1 mv
    else none
  | .node l r v, del =>
    if basic_node.node l r v = del then
      del.right.bind fun dr =>
        if dr.is_null then del.left
        else del.left.bind fun dl =>
          if dl.is_null then some dr
          else r.min.bind fun minimum =>
            (erase_impl r minimum).bind fun r1 =>
              minimum.get_value.map fun mv => .node l r1 mv
    else del.get_value.bind fun dv =>
      if v < dv then (erase_impl r del).map fun r1 => .node l r1 v
      else (erase_impl l del).map fun l1 => .node l1 r v

/-- `persistent_set::erase`. -/
def persistent_set.erase (s : persistent_set α) (it : iterator α) : Option (persistent_set α) :=
  match s.fake.left with
  | none => some s
  | some l =>
    if l.is_null then some s
    else
      (erase_impl l it.node_).map fun t =>
        ⟨.base t .null, (s.size_ + SIZE_MOD - 1) % SIZE_MOD⟩

/-- The caller's loop `for (it = first; it != last; ++it) out.push_back(*it)`; the first
argument bounds the number of loop tests. -/
def iterate_loop (last : iterator α) : Nat → iterator α → Option (List α)
  | 0, _ => none
  | fuel + 1, it =>
    if it.eq last then some []
    else it.deref.bind fun v => it.incr.bind fun it1 =>
      (iterate_loop last fuel it1).map fun rest => v :: rest

/-- Forward iteration `for (it = s.begin(); it != s.end(); ++it)`. -/
def persistent_set.to_list (s : persistent_set α) (fuel : Nat) : Option (List α) :=
  s.begin.bind fun b => iterate_loop s.end_ fuel b

/-- The loop `for (rit = rbegin(); rit != rend(); ++rit) out.push_back(*rit)` over
`std::reverse_iterator`: `rit != rend()` compares the base iterators, `*rit` decrements a copy of
the base and dereferences it, `++rit` decrements the base. -/
def riterate_loop (first : iterator α) : Nat → iterator α → Option (List α)
  | 0, _ => none
  | fuel + 1, cur =>
    if cur.eq first then some []
    else cur.decr.bind fun tmp => tmp.deref.bind fun v => cur.decr.bind fun cur1 =>
      (riterate_loop first fuel cur1).map fun rest => v :: rest

/-- Reverse iteration from `rbegin()` (base `end()`) to `rend()` (base `begin()`). -/
def persistent_set.to_rlist (s : persistent_set α) (fuel : Nat) : Option (List α) :=
  s.begin.bind fun b => riterate_loop b fuel s.end_

/-- The caller's loop `for (k : ks) s.insert(k);`. -/
def persistent_set.insert_all (s : persistent_set α) : List α → Option (persistent_set α)
  | [] => some s
  | k :: ks => (s.insert k).bind fun r => r.1.insert_all ks

end defs

/-! ## Specification vocabulary -/

section spec

variable {α : Type}

/-- The values stored under a pointer, in in-order (left subtree, node, right subtree). -/
def basic_node.keys : basic_node α → List α
  | .null => []
  | .base l r => l.keys ++ r.keys
  | .node l r v => l.keys ++ v :: r.keys

/-- The value nodes under a pointer, in in-order. -/
def basic_node.nodes : basic_node α → List (basic_node α)
  | .null => []
  | .base l r => l.nodes ++ r.nodes
  | .node l r v => l.nodes ++ basic_node.node l r v :: r.nodes

/-- Number of value nodes reachable from a pointer. -/
def basic_node.count : basic_node α → Nat
  | .null => 0
  | .base l r => l.count + r.count
  | .node l r _ => l.count + 1 + r.count

/-- The key ordering invariant of a tree of value nodes: every value of the left subtree is
strictly less than the node's value, every value of the right subtree strictly greater. -/
def basic_node.ordered [LT α] : basic_node α → Prop
  | .null => True
  | .base _ _ => False
  | .node l r v => l.ordered ∧ r.ordered ∧ (∀ x ∈ l.keys, x < v) ∧ (∀ x ∈ r.keys, v < x)

instance basic_node.ordered_dec [LT α] [DecidableRel (fun a b : α => a < b)] :
    (t : basic_node α) → Decidable t.ordered
  | .null => isTrue trivial
  | .base _ _ => isFalse (fun h => h)
  | .node l r v =>
    have := basic_node.ordered_dec l
    have := basic_node.ordered_dec r
    inferInstanceAs (Decidable (l.ordered ∧ r.ordered ∧ (∀ x ∈ l.keys, x < v) ∧
      (∀ x ∈ r.keys, v < x)))

/-- The tree of a snapshot: the sentinel's left child (`null` when there is no sentinel). -/
def persistent_set.tree (s : persistent_set α) : basic_node α :=
  match s.fake with
  | .null => .null
  | .base l _ => l
  | .node l _ _ => l

/-- The stored values of a set, ascending when the set is well formed. -/
def persistent_set.keys (s : persistent_set α) : List α := s.tree.keys

/-- The number of stored elements of a set. -/
def persistent_set.count (s : persistent_set α) : Nat := s.tree.count

/-- A well-formed set: no sentinel, or a valueless sentinel without right child whose left
child is a tree of value nodes satisfying the key ordering invariant. -/
def persistent_set.wf [LT α] (s : persistent_set α) : Prop :=
  match s.fake with
  | .null => True
  | .base l r => l.ordered ∧ r.is_null = true
  | .node _ _ _ => False

instance persistent_set.wf_dec [LT α] [DecidableRel (fun a b : α => a < b)]
    (s : persistent_set α) : Decidable s.wf := by
  unfold persistent_set.wf
  split <;> infer_instance

end spec

/-- The set holding 1, 3 and 5 with 3 at the root. -/
def set_135 : persistent_set Nat :=
  ⟨.base (.node (.node .null .null 1) (.node .null .null 5) 3) .null, 3⟩

/-- The set obtained from the empty set by `insert(1); insert(2)`. -/
def set_12 : persistent_set Nat :=
  ⟨.base (.node .null (.node .null .null 2) 1) .null, 2⟩

/-! ## Heap-level embedding

The same functions over an explicit heap of node objects, used for the persistence property,
which is about what a mutation through one handle does to the objects another handle reaches.
An address is a `Nat`, `0` is `nullptr`, and the object at address `p + 1` is the `p`-th cell of
the heap.  `std::make_shared` appends a cell.  Objects are not freed: a `shared_ptr` frees an
object only when no handle reaches it any more, so no observation depends on it.  Every loop and
recursion takes a bound on its number of steps, since a heap may contain cycles; `none` is
undefined behaviour or an exhausted bound. -/

namespace heap_model

/-- A `basic_node` object: the two child pointers, and the value when the object is a `node`. -/
structure basic_node (α : Type) where
  left : Nat
  right : Nat
  value : Option α
  deriving DecidableEq, Repr

/-- The heap of node objects. -/
abbrev heap (α : Type) := List (basic_node α)

/-- The set handle: the address of the sentinel and the stored count. -/
structure persistent_set where
  fake : Nat
  size_ : Nat
  deriving DecidableEq, Repr

/-- The iterator: the addresses of the current node and of the sentinel. -/
structure iterator where
  node_ : Nat
  root : Nat
  deriving DecidableEq, Repr

section defs

variable {α : Type}

/-- Dereference a pointer; `none` on `nullptr` and on an address that holds no object. -/
def read (h : heap α) (p : Nat) : Option (basic_node α) :=
  if p = 0 then none else h[p - 1]?

/-- `std::make_shared`: the new object is placed after all existing ones. -/
def alloc (h : heap α) (c : basic_node α) : heap α × Nat :=
  (h ++ [c], h.length + 1)

/-- The assignment `p->left = l`. -/
def write_left (h : heap α) (p l : Nat) : Option (heap α) :=
  (read h p).map fun c => h.set (p - 1) ⟨l, c.right, c.value⟩

/-- `basic_node::get_value` at address `p`. -/
def get_value (h : heap α) (p : Nat) : Option α :=
  (read h p).bind fun c => c.value

/-- `basic_node::min`. -/
def min (h : heap α) : Nat → Nat → Option Nat
  | 0, _ => none
  | fuel + 1, current =>
    (read h current).bind fun c =>
      if c.left ≠ 0 then min h fuel c.left else some current

/-- `basic_node::max`. -/
def max (h : heap α) : Nat → Nat → Option Nat
  | 0, _ => none
  | fuel + 1, current =>
    (read h current).bind fun c =>
      if c.right ≠ 0 then max h fuel c.right else some current

/-- The copy constructor. -/
def persistent_set.copy (other : persistent_set) : persistent_set :=
  ⟨other.fake, other.size_⟩

/-- `persistent_set::end`. -/
def persistent_set.end_ (s : persistent_set) : iterator := ⟨s.fake, s.fake⟩

/-- `persistent_set::begin`. -/
def persistent_set.begin (h : heap α) (s : persistent_set) (fuel : Nat) : Option iterator :=
  if s.fake = 0 then some s.end_
  else (read h s.fake).bind fun c =>
    if c.left = 0 then some s.end_
    else (min h fuel s.fake).map fun m => ⟨m, s.fake⟩

/-- `persistent_set::create_fake`. -/
def persistent_set.create_fake (h : heap α) (s : persistent_set) : heap α × persistent_set :=
  if s.fake = 0 then
    let r := alloc h ⟨0, 0, none⟩
    (r.1, ⟨r.2, s.size_⟩)
  else (h, s)

variable [LT α] [DecidableRel (fun a b : α => a < b)]

/-- The loop of `persistent_set::find`. -/
def find_loop (h : heap α) (fake : Nat) (value : α) : Nat → Nat → Option iterator
  | 0, _ => none
  | fuel + 1, current =>
    if current = 0 then some ⟨fake, fake⟩
    else (read h current).bind fun c => c.value.bind fun v =>
      if v < value then find_loop h fake value fuel c.right
      else if value < v then find_loop h fake value fuel c.left
      else some ⟨current, fake⟩

/-- `persistent_set::find`. -/
def persistent_set.find (h : heap α) (s : persistent_set) (value : α) (fuel : Nat) :
    Option iterator :=
  if s.fake = 0 then some s.end_
  else (read h s.fake).bind fun c => find_loop h s.fake value fuel c.left

/-- `persistent_set::insert_impl`: the heap after the call, the returned pointer and the
value left in `result`. -/
def insert_impl (value : α) : Nat → heap α → Nat → Option (heap α × Nat × Nat)
  | 0, _, _ => none
  | fuel + 1, h, pos =>
    if pos = 0 then
      let r := alloc h ⟨0, 0, some value⟩
      some (r.1, r.2, r.2)
    else (read h pos).bind fun c => c.value.bind fun v =>
      if v < value then
        (insert_impl value fuel h c.right).map fun p =>
          let r := alloc p.1 ⟨c.left, p.2.1, some v⟩
          (r.1, r.2, p.2.2)
      else
        (insert_impl value fuel h c.left).map fun p =>
          let r := alloc p.1 ⟨p.2.1, c.right, some v⟩
          (r.1, r.2, p.2.2)

/-- `persistent_set::insert`: the heap after the call, the handle after the call and the
returned pair. -/
def persistent_set.insert (h : heap α) (s : persistent_set) (value : α) (fuel : Nat) :
    Option (heap α × persistent_set × iterator × Bool) :=
  let cf := s.create_fake h
  let h1 := cf.1
  let s1 := cf.2
  (s1.find h1 value fuel).bind fun res =>
    if res.node_ ≠ s1.end_.node_ then some (h1, s1, res, false)
    else
      let tf := alloc h1 ⟨0, 0, none⟩
      (read tf.1 s1.fake).bind fun c =>
        (insert_impl value fuel tf.1 c.left).bind fun p =>
          (write_left p.1 tf.2 p.2.1).map fun h4 =>
            (h4, ⟨tf.2, (s1.size_ + 1) % SIZE_MOD⟩, ⟨p.2.2, tf.2⟩, true)

/-- `persistent_set::erase_impl`: the heap after the call and the returned pointer. -/
def erase_impl : Nat → heap α → Nat → Nat → Option (heap α × Nat)
  | 0, _, _, _ => none
  | fuel + 1, h, pos, del =>
    if pos = del then
      (read h del).bind fun d =>
        if d.right = 0 then some (h, d.left)
        else if d.left = 0 then some (h, d.right)
        else (min h fuel d.right).bind fun minimum =>
          (erase_impl fuel h d.right minimum).bind fun p =>
            (get_value p.1 minimum).map fun mv =>
              alloc p.1 ⟨d.left, p.2, some mv⟩
    else (read h pos).bind fun c => c.value.bind fun v =>
      (get_value h del).bind fun dv =>
        if v < dv then
          (erase_impl fuel h c.right del).map fun p => alloc p.1 ⟨c.left, p.2, some v⟩
        else
          (erase_impl fuel h c.left del).map fun p => alloc p.1 ⟨p.2, c.right, some v⟩

/-- `persistent_set::erase`. -/
def persistent_set.erase (h : heap α) (s : persistent_set) (it : iterator) (fuel : Nat) :
    Option (heap α × persistent_set) :=
  if s.fake = 0 then some (h, s)
  else (read h s.fake).bind fun c =>
    if c.left = 0 then some (h, s)
    else
      let tf := alloc h ⟨0, 0, none⟩
      (erase_impl fuel tf.1 c.left it.node_).bind fun p =>
        (write_left p.1 tf.2 p.2).map fun h3 =>
          (h3, ⟨tf.2, (s.size_ + SIZE_MOD - 1) % SIZE_MOD⟩)

/-- The re-descent loop of `basic_node::next`. -/
def next_loop (h : heap α) (x : α) : Nat → Nat → Nat → Option Nat
  | 0, _, _ => none
  | fuel + 1, current, result =>
    (read h current).bind fun c => c.value.bind fun v =>
      if v < x then next_loop h x fuel c.right result
      else if x < v then next_loop h x fuel c.left current
      else some result

/-- `basic_node::next`. -/
def next (h : heap α) (self root fuel : Nat) : Option Nat :=
  (read h self).bind fun c =>
    if c.right ≠ 0 then min h fuel c.right
    else (read h root).bind fun r => c.value.bind fun x => next_loop h x fuel r.left root

/-- `iterator::operator++`. -/
def iterator.incr (h : heap α) (it : iterator) (fuel : Nat) : Option iterator :=
  (next h it.node_ it.root fuel).map fun n => ⟨n, it.root⟩

/-- The caller's loop `for (it = first; it != last; ++it) out.push_back(*it)`. -/
def iterate_loop (h : heap α) (last : iterator) : Nat → iterator → Option (List α)
  | 0, _ => none
  | fuel + 1, it =>
    if it.node_ = last.node_ then some []
    else (get_value h it.node_).bind fun v => (it.incr h fuel).bind fun it1 =>
      (iterate_loop h last fuel it1).map fun rest => v :: rest

/-- Forward iteration over a set. -/
def persistent_set.to_list (h : heap α) (s : persistent_set) (fuel : Nat) : Option (List α) :=
  (s.begin h fuel).bind fun b => iterate_loop h s.end_ fuel b

/-- Two set handles `a` and `b` living on one heap. -/
structure world (α : Type) where
  mem : heap α
  a : persistent_set
  b : persistent_set
  deriving DecidableEq, Repr

/-- A mutation of a set: `insert(value)` or `erase(it)`. -/
inductive mutation (α : Type) where
  | insert (value : α) : mutation α
  | erase (it : iterator) : mutation α

/-- The declaration `persistent_set b(a);`. -/
def world.copy_a_to_b (w : world α) : world α := ⟨w.mem, w.a, w.a.copy⟩

/-- Run a mutation on handle `b`. -/
def world.mutate_b (w : world α) (m : mutation α) (fuel : Nat) : Option (world α) :=
  match m with
  | .insert value => (w.b.insert w.mem value fuel).map fun r => ⟨r.1, w.a, r.2.1⟩
  | .erase it => (w.b.erase w.mem it fuel).map fun r => ⟨r.1, w.a, r.2⟩

/-- Run a mutation on handle `a`. -/
def world.mutate_a (w : world α) (m : mutation α) (fuel : Nat) : Option (world α) :=
  match m with
  | .insert value => (w.a.insert w.mem value fuel).map fun r => ⟨r.1, r.2.1, w.b⟩
  | .erase it => (w.a.erase w.mem it fuel).map fun r => ⟨r.1, r.2, w.b⟩

end defs

/-- The heap and handle after `insert(1); insert(2)` on a default-constructed set. -/
def world_12 : world Nat :=
  ⟨[⟨0, 0, none⟩, ⟨3, 0, none⟩, ⟨0, 0, some 1⟩, ⟨6, 0, none⟩, ⟨0, 0, some 2⟩, ⟨0, 5, some 1⟩],
    ⟨4, 2⟩, ⟨0, 0⟩⟩

end heap_model

/-! ## Representation of trees in the heap -/

section repr

variable {α : Type}

/-- Length of the longest chain of nodes below a pointer. -/
def basic_node.depth : basic_node α → Nat
  | .null => 0
  | .base l r => (if l.depth ≤ r.depth then r.depth else l.depth) + 1
  | .node l r _ => (if l.depth ≤ r.depth then r.depth else l.depth) + 1

/-- The objects reachable from address `p` in heap `h` form the tree `t`. -/
def holds (h : heap_model.heap α) : basic_node α → Nat → Prop
  | .null, p => p = 0
  | .base l r, p =>
    ∃ c, heap_model.read h p = some c ∧ c.value = none ∧ holds h l c.left ∧ holds h r c.right
  | .node l r v, p =>
    ∃ c, heap_model.read h p = some c ∧ c.value = some v ∧ holds h l c.left ∧ holds h r c.right

/-- Inside the tree `t` stored at address `p`, the value node `n` is the object at address
`q`. -/
def located (h : heap_model.heap α) : basic_node α → Nat → basic_node α → Nat → Prop
  | .null, _, _, _ => False
  | .base _ _, _, _, _ => False
  | .node l r v, p, n, q =>
    (p = q ∧ n = .node l r v) ∨
      ∃ c, heap_model.read h p = some c ∧ (located h l c.left n q ∨ located h r c.right n q)

/-- The heap handle `s` on heap `h` represents the set `S`. -/
def set_holds (h : heap_model.heap α) (s : heap_model.persistent_set) (S : persistent_set α) :
    Prop :=
  s.size_ = S.size_ ∧ holds h S.fake s.fake

/-- The position `q` of snapshot `s` on heap `h` is the position `n` of the set `S`: both are
the sentinel, or `q` is the address of the value node `n` of the tree. -/
def position (h : heap_model.heap α) (s : heap_model.persistent_set) (S : persistent_set α)
    (n : basic_node α) (q : Nat) : Prop :=
  (n = S.fake ∧ q = s.fake) ∨
    ∃ c, heap_model.read h s.fake = some c ∧ located h S.tree c.left n q

/-- The mutations the persistence property speaks of, for a handle `s` that represents `S`:
any `insert`, and `erase` of the position of a stored key (the position `find` returns). -/
def valid_mutation [LT α] [DecidableRel (fun a b : α => a < b)] (h : heap_model.heap α)
    (s : heap_model.persistent_set) (S : persistent_set α) (fuel : Nat) :
    heap_model.mutation α → Prop
  | .insert _ => True
  | .erase it => ∃ x, x ∈ S.keys ∧ s.find h x fuel = some it

end repr

/-! ## Further definitions: swap, reachable states, removal of the leftmost node -/

section defs2

variable {α : Type}

/-- The free function `swap(lhs, rhs)`: `lhs.swap(rhs)`. -/
def swap (lhs rhs : persistent_set α) : persistent_set α × persistent_set α :=
  lhs.swap rhs

/-- `persistent_set::swap` on heap-level handles; the heap is not touched. -/
def heap_model.persistent_set.swap (s other : heap_model.persistent_set) :
    heap_model.persistent_set × heap_model.persistent_set :=
  (⟨other.fake, other.size_⟩, ⟨s.fake, s.size_⟩)

/-- Specification function: the tree without its leftmost node, whose place is taken by that
node's right child. -/
def basic_node.delete_min : basic_node α → basic_node α
  | .null => .null
  | .base l r => if l.is_null then r else .base l.delete_min r
  | .node l r v => if l.is_null then r else .node l.delete_min r v

/-- The set states a program can reach from the default-constructed set with `insert` (any
key), `erase` (the position of an element stored in the current version), `clear`, copy
construction and `swap` with another reachable set. -/
inductive reachable [LT α] [DecidableRel (fun a b : α => a < b)] [DecidableEq α] :
    persistent_set α → Prop
  | empty : reachable persistent_set.empty_set
  | insert (s s1 : persistent_set α) (k : α) (it : iterator α) (b : Bool) :
      reachable s → s.insert k = some (s1, it, b) → reachable s1
  | erase (s s1 : persistent_set α) (it : iterator α) :
      reachable s → it.node_ ∈ s.tree.nodes → s.erase it = some s1 → reachable s1
  | clear (s : persistent_set α) : reachable s → reachable s.clear
  | copy (s : persistent_set α) : reachable s → reachable s.copy
  | swap_fst (a b : persistent_set α) : reachable a → reachable b → reachable (a.swap b).1
  | swap_snd (a b : persistent_set α) : reachable a → reachable b → reachable (a.swap b).2

end defs2

/-- The leaf holding 1 of `set_135`. -/
def leaf_1 : basic_node Nat := .node .null .null 1

/-- The leaf holding 5 of `set_135`. -/
def leaf_5 : basic_node Nat := .node .null .null 5

/-- The set obtained from the empty set by `insert(1)`. -/
def set_1 : persistent_set Nat := ⟨.base (.node .null .null 1) .null, 1⟩

namespace heap_model

section defs3

variable {α : Type} [LT α] [DecidableRel (fun a b : α => a < b)]

/-- The re-descent loop of `basic_node::prev` on the heap. -/
def prev_loop (h : heap α) (x : α) : Nat → Nat → Nat → Option Nat
  | 0, _, _ => none
  | fuel + 1, current, result =>
    (read h current).bind fun c => c.value.bind fun v =>
      if v < x then prev_loop h x fuel c.right current
      else if x < v then prev_loop h x fuel c.left result
      else some result

/-- `basic_node::prev` on the heap. -/
def prev (h : heap α) (self root fuel : Nat) : Option Nat :=
  (read h self).bind fun c =>
    if c.left ≠ 0 then max h fuel c.left
    else (read h root).bind fun r => c.value.bind fun x => prev_loop h x fuel r.left root

end defs3

end heap_model

/-! ## Lemmas on the tree-level embedding -/

section lemmas

variable {α : Type}

theorem is_null_iff (t : basic_node α) : t.is_null = true ↔ t = .null := by
  cases t <;> simp [basic_node.is_null]

theorem is_null_false_iff (t : basic_node α) : t.is_null = false ↔ t ≠ .null := by
  cases t <;> simp [basic_node.is_null]

theorem keys_eq_nodes (t : basic_node α) : t.keys = t.nodes.filterMap basic_node.get_value := by
  induction t with
  | null => rfl
  | base l r ihl ihr => simp [basic_node.keys, basic_node.nodes, ihl, ihr]
  | node l r v ihl ihr =>
    simp [basic_node.keys, basic_node.nodes, ihl, ihr, basic_node.get_value]

theorem mem_nodes_is_node {t n : basic_node α} (h : n ∈ t.nodes) :
    ∃ l r v, n = .node l r v := by
  induction t with
  | null => simp [basic_node.nodes] at h
  | base l r ihl ihr =>
    simp only [basic_node.nodes, List.mem_append] at h
    rcases h with h | h
    · exact ihl h
    · exact ihr h
  | node l r v ihl ihr =>
    simp only [basic_node.nodes, List.mem_append, List.mem_cons] at h
    rcases h with h | h | h
    · exact ihl h
    · exact ⟨l, r, v, h⟩
    · exact ihr h

theorem mem_keys_of_mem_nodes {t l r : basic_node α} {v : α}
    (h : basic_node.node l r v ∈ t.nodes) : v ∈ t.keys := by
  rw [keys_eq_nodes]
  exact List.mem_filterMap.mpr ⟨_, h, rfl⟩

theorem length_keys (t : basic_node α) : t.keys.length = t.count := by
  induction t with
  | null => rfl
  | base l r ihl ihr => simp [basic_node.keys, basic_node.count, ihl, ihr]
  | node l r v ihl ihr => simp [basic_node.keys, basic_node.count, ihl, ihr]; omega

theorem min_left_null : ∀ (t m : basic_node α), t.min = some m → m.left = some .null := by
  intro t
  induction t with
  | null => intro m h; simp [basic_node.min] at h
  | base l r ihl _ =>
    intro m h
    by_cases h0 : l.is_null = true
    · simp only [basic_node.min, h0, if_true, Option.some.injEq] at h
      subst h
      simp [basic_node.left, (is_null_iff l).mp h0]
    · simp only [basic_node.min, h0] at h
      exact ihl m h
  | node l r v ihl _ =>
    intro m h
    by_cases h0 : l.is_null = true
    · simp only [basic_node.min, h0, if_true, Option.some.injEq] at h
      subst h
      simp [basic_node.left, (is_null_iff l).mp h0]
    · simp only [basic_node.min, h0] at h
      exact ihl m h

theorem create_fake_of_not_null (s : persistent_set α) (h : s.fake ≠ .null) :
    s.create_fake = s := by
  unfold persistent_set.create_fake
  rw [if_neg]
  simpa [is_null_iff] using h

variable [LinearOrder α]

theorem find_loop_mem (fake : basic_node α) (k : α) :
    ∀ t : basic_node α, t.ordered → k ∈ t.keys →
      ∃ l r, find_loop fake k t = some ⟨.node l r k, fake⟩ ∧ basic_node.node l r k ∈ t.nodes := by
  intro t
  induction t with
  | null => intro _ h; simp [basic_node.keys] at h
  | base l r _ _ => intro h; exact absurd h (by simp [basic_node.ordered])
  | node l r v ihl ihr =>
    intro ho hk
    obtain ⟨hl, hr, hlt, hgt⟩ := ho
    simp only [basic_node.keys, List.mem_append, List.mem_cons] at hk
    rcases lt_trichotomy v k with hvk | hvk | hvk
    · have hkr : k ∈ r.keys := by
        rcases hk with hk | hk | hk
        · exact absurd (hlt k hk) (not_lt.mpr hvk.le)
        · exact absurd hk (ne_of_gt hvk)
        · exact hk
      obtain ⟨a, b, h1, h2⟩ := ihr hr hkr
      refine ⟨a, b, ?_, ?_⟩
      · simp [find_loop, hvk, h1]
      · simp [basic_node.nodes, h2]
    · subst hvk
      exact ⟨l, r, by simp [find_loop], by simp [basic_node.nodes]⟩
    · have hkl : k ∈ l.keys := by
        rcases hk with hk | hk | hk
        · exact hk
        · exact absurd hk (ne_of_lt hvk)
        · exact absurd (hgt k hk) (not_lt.mpr hvk.le)
      obtain ⟨a, b, h1, h2⟩ := ihl hl hkl
      refine ⟨a, b, ?_, ?_⟩
      · simp [find_loop, hvk, not_lt.mpr hvk.le, h1]
      · simp [basic_node.nodes, h2]

theorem find_loop_not_mem (fake : basic_node α) (k : α) :
    ∀ t : basic_node α, t.ordered → k ∉ t.keys → find_loop fake k t = some ⟨fake, fake⟩ := by
  intro t
  induction t with
  | null => intro _ _; rfl
  | base l r _ _ => intro h; exact absurd h (by simp [basic_node.ordered])
  | node l r v ihl ihr =>
    intro ho hk
    obtain ⟨hl, hr, -, -⟩ := ho
    simp only [basic_node.keys, List.mem_append, List.mem_cons, not_or] at hk
    obtain ⟨hkl, hkv, hkr⟩ := hk
    rcases lt_trichotomy v k with hvk | hvk | hvk
    · simp [find_loop, hvk, ihr hr hkr]
    · exact absurd hvk.symm hkv
    · simp [find_loop, hvk, not_lt.mpr hvk.le, ihl hl hkl]

end lemmas

section lemmas2

variable {α : Type} [LinearOrder α]

theorem ordered_sorted : ∀ t : basic_node α, t.ordered → t.keys.Sorted (· < ·) := by
  intro t
  induction t with
  | null => intro _; simp [basic_node.keys]
  | base l r _ _ => intro h; exact absurd h (by simp [basic_node.ordered])
  | node l r v ihl ihr =>
    intro ⟨hl, hr, hlt, hgt⟩
    simp only [basic_node.keys, List.Sorted, List.pairwise_append, List.pairwise_cons,
      List.mem_cons]
    refine ⟨ihl hl, ⟨hgt, ihr hr⟩, ?_⟩
    intro a ha b hb
    rcases hb with hb | hb
    · subst hb; exact hlt a ha
    · exact lt_trans (hlt a ha) (hgt b hb)

theorem ordered_nodup (t : basic_node α) (h : t.ordered) : t.keys.Nodup :=
  (ordered_sorted t h).imp (fun h => ne_of_lt h)

theorem insert_impl_spec (k : α) :
    ∀ t : basic_node α, t.ordered → k ∉ t.keys →
      ∃ t1, insert_impl k t = some (t1, .node .null .null k) ∧ t1.ordered ∧
        t1.keys.Perm (k :: t.keys) ∧ t1.count = t.count + 1 ∧
        basic_node.node .null .null k ∈ t1.nodes ∧
        ∀ fake : basic_node α, find_loop fake k t1 = some ⟨.node .null .null k, fake⟩ := by
  intro t
  induction t with
  | null =>
    intro _ _
    exact ⟨.node .null .null k, rfl, by simp [basic_node.ordered, basic_node.keys],
      by simp [basic_node.keys], by simp [basic_node.count], by simp [basic_node.nodes],
      fun fake => by simp [find_loop]⟩
  | base l r _ _ => intro h; exact absurd h (by simp [basic_node.ordered])
  | node l r v ihl ihr =>
    intro ⟨hl, hr, hlt, hgt⟩ hk
    simp only [basic_node.keys, List.mem_append, List.mem_cons, not_or] at hk
    obtain ⟨hkl, hkv, hkr⟩ := hk
    rcases lt_or_gt_of_ne hkv with hvk | hvk
    · -- k < v: rebuild the left child
      obtain ⟨l1, h1, ho, hp, hc, hn, hf⟩ := ihl hl hkl
      refine ⟨.node l1 r v, ?_, ?_, ?_, ?_, ?_, ?_⟩
      · simp [insert_impl, not_lt.mpr hvk.le, h1]
      · refine ⟨ho, hr, ?_, hgt⟩
        intro x hx
        rcases List.mem_cons.mp (hp.mem_iff.mp hx) with hx | hx
        · subst hx; exact hvk
        · exact hlt x hx
      · simp only [basic_node.keys]
        exact (hp.append_right _).trans (by simp)
      · simp [basic_node.count, hc]; omega
      · simp [basic_node.nodes, hn]
      · intro fake; simp [find_loop, hvk, not_lt.mpr hvk.le, hf fake]
    · -- v < k: rebuild the right child
      obtain ⟨r1, h1, ho, hp, hc, hn, hf⟩ := ihr hr hkr
      refine ⟨.node l r1 v, ?_, ?_, ?_, ?_, ?_, ?_⟩
      · simp [insert_impl, hvk, h1]
      · refine ⟨hl, ho, hlt, ?_⟩
        intro x hx
        rcases List.mem_cons.mp (hp.mem_iff.mp hx) with hx | hx
        · subst hx; exact hvk
        · exact hgt x hx
      · simp only [basic_node.keys]
        exact ((hp.cons v).append_left _).trans
          (by simpa using (@List.perm_middle α k (l.keys ++ [v]) r.keys))
      · simp [basic_node.count, hc]; omega
      · simp [basic_node.nodes, hn]
      · intro fake; simp [find_loop, hvk, hf fake]

theorem create_fake_spec (s : persistent_set α) (h : s.wf) :
    ∃ l, s.create_fake = ⟨.base l .null, s.size_⟩ ∧ l = s.tree ∧ l.ordered := by
  obtain ⟨fake, sz⟩ := s
  cases fake with
  | null =>
    exact ⟨.null, by simp [persistent_set.create_fake, basic_node.is_null, basic_node.mk_fake],
      rfl, trivial⟩
  | node l r v => exact absurd h (by simp [persistent_set.wf])
  | base l r =>
    obtain ⟨ho, hr⟩ := h
    rw [is_null_iff] at hr
    subst hr
    exact ⟨l, by simp [persistent_set.create_fake, basic_node.is_null], rfl, ho⟩

/-- Correctness of `find` on a well-formed set. -/
theorem find_correct (s : persistent_set α) (k : α) (h : s.wf) :
    ∃ it, s.find k = some it ∧ it.root = s.fake ∧
      (it.eq s.end_ = false ↔ k ∈ s.keys) ∧
      (k ∈ s.keys → it.node_ ∈ s.tree.nodes ∧
        ∃ v, it.deref = some v ∧ v ∈ s.keys ∧ ¬ v < k ∧ ¬ k < v) ∧
      ((s.fake = .null ∨ s.fake.left = some .null) → it = s.end_) := by
  obtain ⟨fake, sz⟩ := s
  cases fake with
  | null =>
    refine ⟨_, rfl, rfl, ?_, ?_, fun _ => rfl⟩
    · simp [iterator.eq, persistent_set.end_, persistent_set.keys, persistent_set.tree,
        basic_node.keys]
    · simp [persistent_set.keys, persistent_set.tree, basic_node.keys]
  | node l r v => exact absurd h (by simp [persistent_set.wf])
  | base l r =>
    obtain ⟨ho, -⟩ := h
    by_cases hk : k ∈ l.keys
    · obtain ⟨a, b, h1, h2⟩ := find_loop_mem (.base l r) k l ho hk
      refine ⟨_, by simpa [persistent_set.find, basic_node.is_null, basic_node.left] using h1,
        rfl, ?_, ?_, ?_⟩
      · simp [iterator.eq, persistent_set.end_, persistent_set.keys, persistent_set.tree, hk]
      · intro _
        exact ⟨h2, k, rfl, hk, lt_irrefl k, lt_irrefl k⟩
      · rintro (h0 | h0)
        · simp at h0
        · simp only [basic_node.left, Option.some.injEq] at h0
          subst h0
          simp [basic_node.keys] at hk
    · have h1 := find_loop_not_mem (.base l r) k l ho hk
      refine ⟨_, by simpa [persistent_set.find, basic_node.is_null, basic_node.left] using h1,
        rfl, ?_, ?_, fun _ => rfl⟩
      · simp [iterator.eq, persistent_set.end_, persistent_set.keys, persistent_set.tree, hk]
      · intro h0
        exact absurd h0 hk

end lemmas2

section iter
variable {α : Type}

theorem list_split {β : Type} {a b pre post : List β} {x n : β}
    (h : a ++ x :: b = pre ++ n :: post) :
    (∃ post1, a = pre ++ n :: post1 ∧ post = post1 ++ x :: b) ∨
    (pre = a ∧ n = x ∧ post = b) ∨
    (∃ pre1, b = pre1 ++ n :: post ∧ pre = a ++ x :: pre1) := by
  induction a generalizing pre with
  | nil =>
    cases pre with
    | nil =>
      simp only [List.nil_append, List.cons.injEq] at h
      exact Or.inr (Or.inl ⟨rfl, h.1.symm, h.2.symm⟩)
    | cons p pre1 =>
      simp only [List.nil_append, List.cons_append, List.cons.injEq] at h
      exact Or.inr (Or.inr ⟨pre1, h.2, by simp [h.1]⟩)
  | cons c a ih =>
    cases pre with
    | nil =>
      simp only [List.nil_append, List.cons_append, List.cons.injEq] at h
      exact Or.inl ⟨a, by simp [h.1], h.2.symm⟩
    | cons p pre1 =>
      simp only [List.cons_append, List.cons.injEq] at h
      rcases ih h.2 with ⟨post1, h1, h2⟩ | ⟨h1, h2, h3⟩ | ⟨pre2, h1, h2⟩
      · exact Or.inl ⟨post1, by simp [h.1, h1], h2⟩
      · exact Or.inr (Or.inl ⟨by simp [h.1, h1], h2, h3⟩)
      · exact Or.inr (Or.inr ⟨pre2, h1, by simp [h.1, h2]⟩)

theorem nodes_eq_nil_iff [LT α] : ∀ t : basic_node α, t.ordered → (t.nodes = [] ↔ t = .null) := by
  intro t h
  cases t with
  | null => simp [basic_node.nodes]
  | base l r => exact absurd h (by simp [basic_node.ordered])
  | node l r v => simp [basic_node.nodes]

theorem min_eq_head [LT α] : ∀ t : basic_node α, t.ordered → t.min = t.nodes.head? := by
  intro t
  induction t with
  | null => intro _; rfl
  | base l r _ _ => intro h; exact absurd h (by simp [basic_node.ordered])
  | node l r v ihl _ =>
    rintro ⟨hl, -, -, -⟩
    by_cases h0 : l = .null
    · subst h0; simp [basic_node.min, basic_node.is_null, basic_node.nodes]
    · have h1 : l.is_null = false := (is_null_false_iff l).mpr h0
      have h2 : l.nodes ≠ [] := fun h => h0 ((nodes_eq_nil_iff l hl).mp h)
      simp [basic_node.min, h1, ihl hl, basic_node.nodes, List.head?_append_of_ne_nil _ h2]

theorem max_eq_getLast [LT α] : ∀ t : basic_node α, t.ordered → t.max = t.nodes.getLast? := by
  intro t
  induction t with
  | null => intro _; rfl
  | base l r _ _ => intro h; exact absurd h (by simp [basic_node.ordered])
  | node l r v _ ihr =>
    rintro ⟨-, hr, -, -⟩
    by_cases h0 : r = .null
    · subst h0; simp [basic_node.max, basic_node.is_null, basic_node.nodes]
    · have h1 : r.is_null = false := (is_null_false_iff r).mpr h0
      have h2 : r.nodes ≠ [] := fun h => h0 ((nodes_eq_nil_iff r hr).mp h)
      have h3 : (l.nodes ++ basic_node.node l r v :: r.nodes).getLast? = r.nodes.getLast? := by
        rw [← List.singleton_append, ← List.append_assoc]
        exact List.getLast?_append_of_ne_nil _ h2
      simp only [basic_node.max, h1, ihr hr, basic_node.nodes, h3]
      simp

end iter

section iter2
variable {α : Type} [LinearOrder α]

theorem head?_getD_append {β : Type} (a b : List β) (x d : β) :
    (a ++ x :: b).head?.getD d = a.head?.getD x := by
  cases a <;> simp

theorem getLast?_getD_append {β : Type} (a b : List β) (x d : β) :
    (a ++ x :: b).getLast?.getD d = b.getLast?.getD x := by
  induction a with
  | nil =>
    cases b with
    | nil => simp
    | cons y b =>
      rw [List.nil_append, List.getLast?_cons_cons,
        List.getLast?_eq_getLast _ (List.cons_ne_nil y b)]
      rfl
  | cons y a ih =>
    cases h : a ++ x :: b with
    | nil => simp at h
    | cons z c => rw [List.cons_append, h, List.getLast?_cons_cons, ← h, ih]

theorem next_loop_spec : ∀ t : basic_node α, t.ordered →
    ∀ (res : basic_node α) (pre post : List (basic_node α)) (nl : basic_node α) (x : α),
      t.nodes = pre ++ basic_node.node nl .null x :: post →
      next_loop x t res = some (post.head?.getD res) := by
  intro t
  induction t with
  | null => intro _ res pre post nl x h; simp [basic_node.nodes] at h
  | base l r _ _ => intro h; exact absurd h (by simp [basic_node.ordered])
  | node l r v ihl ihr =>
    rintro ⟨hl, hr, hlt, hgt⟩ res pre post nl x h
    rcases list_split h with ⟨post1, h1, h2⟩ | ⟨-, h2, h3⟩ | ⟨pre1, h1, -⟩
    · have hx : x < v := hlt x (mem_keys_of_mem_nodes (t := l) (l := nl) (r := .null) (by rw [h1]; simp))
      rw [next_loop, if_neg (not_lt.mpr hx.le), if_pos hx, ihl hl _ pre post1 nl x h1, h2,
        head?_getD_append]
    · simp only [basic_node.node.injEq] at h2
      obtain ⟨-, h4, h5⟩ := h2
      subst h4 h5
      simp [next_loop, h3, basic_node.nodes]
    · have hx : v < x := hgt x (mem_keys_of_mem_nodes (t := r) (l := nl) (r := .null) (by rw [h1]; simp))
      rw [next_loop, if_pos hx, ihr hr _ pre1 post nl x h1]

theorem prev_loop_spec : ∀ t : basic_node α, t.ordered →
    ∀ (res : basic_node α) (pre post : List (basic_node α)) (nr : basic_node α) (x : α),
      t.nodes = pre ++ basic_node.node .null nr x :: post →
      prev_loop x t res = some (pre.getLast?.getD res) := by
  intro t
  induction t with
  | null => intro _ res pre post nl x h; simp [basic_node.nodes] at h
  | base l r _ _ => intro h; exact absurd h (by simp [basic_node.ordered])
  | node l r v ihl ihr =>
    rintro ⟨hl, hr, hlt, hgt⟩ res pre post nr x h
    rcases list_split h with ⟨post1, h1, -⟩ | ⟨h3, h2, -⟩ | ⟨pre1, h1, h2⟩
    · have hx : x < v := hlt x (mem_keys_of_mem_nodes (t := l) (l := .null) (r := nr) (by rw [h1]; simp))
      rw [prev_loop, if_neg (not_lt.mpr hx.le), if_pos hx, ihl hl _ pre post1 nr x h1]
    · simp only [basic_node.node.injEq] at h2
      obtain ⟨h4, -, h5⟩ := h2
      subst h4 h5
      simp [prev_loop, h3, basic_node.nodes]
    · have hx : v < x := hgt x (mem_keys_of_mem_nodes (t := r) (l := .null) (r := nr) (by rw [h1]; simp))
      rw [prev_loop, if_pos hx, ihr hr _ pre1 post nr x h1, h2, getLast?_getD_append]

theorem right_min_spec : ∀ t : basic_node α, t.ordered →
    ∀ (pre post : List (basic_node α)) (nl nr : basic_node α) (x : α),
      t.nodes = pre ++ basic_node.node nl nr x :: post → nr ≠ .null →
      ∃ m, nr.min = some m ∧ post.head? = some m := by
  intro t
  induction t with
  | null => intro _ pre post nl nr x h; simp [basic_node.nodes] at h
  | base l r _ _ => intro h; exact absurd h (by simp [basic_node.ordered])
  | node l r v ihl ihr =>
    rintro ⟨hl, hr, -, -⟩ pre post nl nr x h hne
    rcases list_split h with ⟨post1, h1, h2⟩ | ⟨-, h2, h3⟩ | ⟨pre1, h1, -⟩
    · obtain ⟨m, hm1, hm2⟩ := ihl hl pre post1 nl nr x h1 hne
      refine ⟨m, hm1, ?_⟩
      cases post1 with
      | nil => simp at hm2
      | cons a as => simpa [h2] using hm2
    · simp only [basic_node.node.injEq] at h2
      obtain ⟨-, h4, -⟩ := h2
      subst h4
      have h5 : nr.nodes ≠ [] := fun h0 => hne ((nodes_eq_nil_iff nr hr).mp h0)
      obtain ⟨a, as, h6⟩ := List.exists_cons_of_ne_nil h5
      exact ⟨a, by simp [min_eq_head nr hr, h6], by simp [h3, h6]⟩
    · exact ihr hr pre1 post nl nr x h1 hne

theorem left_max_spec : ∀ t : basic_node α, t.ordered →
    ∀ (pre post : List (basic_node α)) (nl nr : basic_node α) (x : α),
      t.nodes = pre ++ basic_node.node nl nr x :: post → nl ≠ .null →
      ∃ m, nl.max = some m ∧ pre.getLast? = some m := by
  intro t
  induction t with
  | null => intro _ pre post nl nr x h; simp [basic_node.nodes] at h
  | base l r _ _ => intro h; exact absurd h (by simp [basic_node.ordered])
  | node l r v ihl ihr =>
    rintro ⟨hl, hr, -, -⟩ pre post nl nr x h hne
    rcases list_split h with ⟨post1, h1, -⟩ | ⟨h3, h2, -⟩ | ⟨pre1, h1, h2⟩
    · exact ihl hl pre post1 nl nr x h1 hne
    · simp only [basic_node.node.injEq] at h2
      obtain ⟨h4, -, -⟩ := h2
      subst h4
      have h5 : nl.nodes ≠ [] := fun h0 => hne ((nodes_eq_nil_iff nl hl).mp h0)
      obtain ⟨m, hm⟩ : ∃ m, nl.nodes.getLast? = some m := by
        cases h6 : nl.nodes.getLast? with
        | none => exact absurd (List.getLast?_eq_none_iff.mp h6) h5
        | some m => exact ⟨m, rfl⟩
      exact ⟨m, by rw [max_eq_getLast nl hl, hm], by rw [h3, hm]⟩
    · obtain ⟨m, hm1, hm2⟩ := ihr hr pre1 post nl nr x h1 hne
      refine ⟨m, hm1, ?_⟩
      have h3 : pre1 ≠ [] := by rintro rfl; simp at hm2
      rw [h2, ← List.singleton_append, ← List.append_assoc,
        List.getLast?_append_of_ne_nil _ h3, hm2]

/-- Successor: the node following `n` in in-order, or the sentinel after the last one. -/
theorem next_spec (t rr : basic_node α) (ho : t.ordered) (pre post : List (basic_node α))
    (n : basic_node α) (h : t.nodes = pre ++ n :: post) :
    n.next (.base t rr) = some (post.head?.getD (.base t rr)) := by
  obtain ⟨nl, nr, x, rfl⟩ := mem_nodes_is_node (t := t) (n := n) (by rw [h]; simp)
  by_cases hr : nr = .null
  · subst hr
    simp [basic_node.next, basic_node.right, basic_node.is_null, basic_node.left,
      basic_node.get_value, next_loop_spec t ho _ pre post nl x h]
  · obtain ⟨m, hm1, hm2⟩ := right_min_spec t ho pre post nl nr x h hr
    simp [basic_node.next, basic_node.right, (is_null_false_iff nr).mpr hr, hm1, hm2]

/-- Predecessor: the node preceding `n` in in-order, or the sentinel before the first one. -/
theorem prev_spec (t rr : basic_node α) (ho : t.ordered) (pre post : List (basic_node α))
    (n : basic_node α) (h : t.nodes = pre ++ n :: post) :
    n.prev (.base t rr) = some (pre.getLast?.getD (.base t rr)) := by
  obtain ⟨nl, nr, x, rfl⟩ := mem_nodes_is_node (t := t) (n := n) (by rw [h]; simp)
  by_cases hl : nl = .null
  · subst hl
    simp [basic_node.prev, basic_node.is_null, basic_node.left,
      basic_node.get_value, prev_loop_spec t ho _ pre post nr x h]
  · obtain ⟨m, hm1, hm2⟩ := left_max_spec t ho pre post nl nr x h hl
    simp [basic_node.prev, basic_node.left, (is_null_false_iff nl).mpr hl, hm1, hm2]

end iter2

section iter3
variable {α : Type} [LinearOrder α]

theorem nodes_map_get_value : ∀ t : basic_node α, t.ordered →
    t.nodes.map basic_node.get_value = t.keys.map some := by
  intro t
  induction t with
  | null => intro _; rfl
  | base l r _ _ => intro h; exact absurd h (by simp [basic_node.ordered])
  | node l r v ihl ihr =>
    rintro ⟨hl, hr, -, -⟩
    simp [basic_node.nodes, basic_node.keys, ihl hl, ihr hr, basic_node.get_value]

theorem nodes_nodup (t : basic_node α) (h : t.ordered) : t.nodes.Nodup := by
  have h1 : (t.nodes.map basic_node.get_value).Nodup := by
    rw [nodes_map_get_value t h]
    exact (ordered_nodup t h).map (Option.some_injective α)
  exact List.Nodup.of_map _ h1

theorem length_nodes (t : basic_node α) (h : t.ordered) : t.nodes.length = t.count := by
  have h1 := congrArg List.length (nodes_map_get_value t h)
  simpa [length_keys] using h1

theorem iterate_spec (t rr : basic_node α) (ho : t.ordered) :
    ∀ (post pre : List (basic_node α)), t.nodes = pre ++ post →
      ∀ fuel, post.length < fuel →
        iterate_loop ⟨.base t rr, .base t rr⟩ fuel ⟨post.head?.getD (.base t rr), .base t rr⟩ =
          some (post.filterMap basic_node.get_value) := by
  intro post
  induction post with
  | nil =>
    intro pre _ fuel hf
    cases fuel with
    | zero => simp at hf
    | succ f => simp [iterate_loop, iterator.eq]
  | cons n post ih =>
    intro pre h fuel hf
    cases fuel with
    | zero => simp at hf
    | succ f =>
      obtain ⟨nl, nr, x, rfl⟩ := mem_nodes_is_node (t := t) (n := n) (by rw [h]; simp)
      have h1 := next_spec t rr ho pre post _ h
      have h2 := ih (pre ++ [basic_node.node nl nr x]) (by simp [h]) f
        (by simp only [List.length_cons] at hf; omega)
      simp [iterate_loop, iterator.eq, iterator.deref, iterator.incr, basic_node.get_value, h1,
        h2]

theorem begin_spec (s : persistent_set α) (h : s.wf) :
    s.begin = some ⟨s.tree.nodes.head?.getD s.fake, s.fake⟩ := by
  obtain ⟨fake, sz⟩ := s
  cases fake with
  | null => rfl
  | node l r v => exact absurd h (by simp [persistent_set.wf])
  | base l r =>
    obtain ⟨ho, -⟩ := h
    by_cases h0 : l = .null
    · subst h0; rfl
    · have h1 : l.is_null = false := (is_null_false_iff l).mpr h0
      have h2 : l.nodes ≠ [] := fun h => h0 ((nodes_eq_nil_iff l ho).mp h)
      obtain ⟨a, as, h3⟩ := List.exists_cons_of_ne_nil h2
      simp [persistent_set.begin, persistent_set.tree, h1, basic_node.min, min_eq_head l ho, h3]

theorem to_list_spec (s : persistent_set α) (h : s.wf) (fuel : Nat) (hf : s.count < fuel) :
    s.to_list fuel = some s.keys := by
  rw [persistent_set.to_list, begin_spec s h]
  obtain ⟨fake, sz⟩ := s
  cases fake with
  | null =>
    cases fuel with
    | zero => simp at hf
    | succ f => rfl
  | node l r v => exact absurd h (by simp [persistent_set.wf])
  | base l r =>
    obtain ⟨ho, -⟩ := h
    have h1 := iterate_spec l r ho l.nodes [] rfl fuel
      (by rw [length_nodes l ho]; exact hf)
    simpa [persistent_set.tree, persistent_set.end_, persistent_set.keys, keys_eq_nodes] using h1

end iter3

section iter4
variable {α : Type} [LinearOrder α]

theorem prev_of_sentinel (t rr : basic_node α) (ho : t.ordered) (h : t ≠ .null) :
    (basic_node.base t rr).prev (.base t rr) = some (t.nodes.getLast?.getD (.base t rr)) := by
  have h1 : t.is_null = false := (is_null_false_iff t).mpr h
  have h2 : t.nodes ≠ [] := fun h0 => h ((nodes_eq_nil_iff t ho).mp h0)
  rw [basic_node.prev]
  simp only [basic_node.left, Option.some_bind, h1, Bool.not_false, if_true,
    max_eq_getLast t ho]
  rw [List.getLast?_eq_getLast _ h2]
  rfl

theorem riterate_spec (t rr : basic_node α) (ho : t.ordered) :
    ∀ (pre post : List (basic_node α)), t.nodes = pre ++ post →
      ∀ fuel, pre.length < fuel →
        riterate_loop ⟨t.nodes.head?.getD (.base t rr), .base t rr⟩ fuel
            ⟨post.head?.getD (.base t rr), .base t rr⟩ =
          some (pre.filterMap basic_node.get_value).reverse := by
  intro pre
  induction pre using List.reverseRecOn with
  | nil =>
    intro post h fuel hf
    cases fuel with
    | zero => simp at hf
    | succ f =>
      rw [List.nil_append] at h
      simp [riterate_loop, iterator.eq, h]
  | append_singleton pre m ih =>
    intro post h fuel hf
    cases fuel with
    | zero => simp at hf
    | succ f =>
      have h0 : t.nodes = pre ++ m :: post := by simp [h]
      obtain ⟨ml, mr, x, rfl⟩ := mem_nodes_is_node (t := t) (n := m) (by rw [h0]; simp)
      have hne : t ≠ .null := by
        intro h1; subst h1; simp [basic_node.nodes] at h0
      have hnd := nodes_nodup t ho
      -- the current position is not `begin()`
      have hc : post.head?.getD (.base t rr) ≠ t.nodes.head?.getD (.base t rr) := by
        have hh : ∃ a, t.nodes.head? = some a ∧ a ∈ pre ++ [basic_node.node ml mr x] := by
          rw [h]
          cases pre with
          | nil => exact ⟨_, rfl, by simp⟩
          | cons a as => exact ⟨a, rfl, by simp⟩
        obtain ⟨a, ha1, ha2⟩ := hh
        rw [ha1]
        cases post with
        | nil =>
          obtain ⟨al, ar, ax, rfl⟩ := mem_nodes_is_node (t := t) (n := a)
            (by rw [h]; simp at ha2 ⊢; exact ha2)
          simp
        | cons n post1 =>
          intro h1
          simp only [List.head?_cons, Option.getD_some] at h1
          subst h1
          rw [h] at hnd
          exact (List.nodup_append.mp hnd).2.2 ha2 (List.mem_cons_self _ _)
      -- the predecessor of the current position is `m`
      have hp : (post.head?.getD (.base t rr)).prev (.base t rr) =
          some (basic_node.node ml mr x) := by
        cases post with
        | nil =>
          simp only [List.head?_nil, Option.getD_none]
          rw [prev_of_sentinel t rr ho hne, h]
          simp
        | cons n post1 =>
          simp only [List.head?_cons, Option.getD_some]
          rw [prev_spec t rr ho (pre ++ [basic_node.node ml mr x]) post1 n h]
          simp
      have h2 := ih (basic_node.node ml mr x :: post) h0 f
        (by simp only [List.length_append, List.length_singleton] at hf; omega)
      simp only [List.head?_cons, Option.getD_some] at h2
      simp [riterate_loop, iterator.eq, hc, iterator.decr, hp, iterator.deref,
        basic_node.get_value, h2, List.filterMap_append]

theorem to_rlist_spec (s : persistent_set α) (h : s.wf) (fuel : Nat) (hf : s.count < fuel) :
    s.to_rlist fuel = some s.keys.reverse := by
  rw [persistent_set.to_rlist, begin_spec s h]
  obtain ⟨fake, sz⟩ := s
  cases fake with
  | null =>
    cases fuel with
    | zero => simp at hf
    | succ f => rfl
  | node l r v => exact absurd h (by simp [persistent_set.wf])
  | base l r =>
    obtain ⟨ho, -⟩ := h
    have h1 := riterate_spec l r ho l.nodes [] (by simp) fuel
      (by rw [length_nodes l ho]; exact hf)
    simpa [persistent_set.tree, persistent_set.end_, persistent_set.keys, keys_eq_nodes] using h1

end iter4

section erase
variable {α : Type} [LinearOrder α]

theorem keys_of_nodes_cons {t m : basic_node α} {ns : List (basic_node α)} (ho : t.ordered)
    (h : t.nodes = m :: ns) : ∃ mv ks, m.get_value = some mv ∧ t.keys = mv :: ks := by
  have h1 := nodes_map_get_value t ho
  rw [h] at h1
  cases hk : t.keys with
  | nil => rw [hk] at h1; simp at h1
  | cons mv ks =>
    rw [hk] at h1
    simp only [List.map_cons, List.cons.injEq] at h1
    exact ⟨mv, ks, h1.1, rfl⟩

theorem erase_impl_spec : ∀ t : basic_node α, t.ordered →
    ∀ (dl dr : basic_node α) (x : α), basic_node.node dl dr x ∈ t.nodes →
      ∃ t1, erase_impl t (.node dl dr x) = some t1 ∧ t1.ordered ∧
        t1.keys = t.keys.erase x ∧ t1.count + 1 = t.count := by
  intro t
  induction t with
  | null => intro _ dl dr x h; simp [basic_node.nodes] at h
  | base l r _ _ => intro h; exact absurd h (by simp [basic_node.ordered])
  | node l r v ihl ihr =>
    rintro ⟨hl, hr, hlt, hgt⟩ dl dr x hd
    have hvl : v ∉ l.keys := fun h0 => lt_irrefl v (hlt v h0)
    by_cases heq : basic_node.node l r v = basic_node.node dl dr x
    · -- the target node
      simp only [basic_node.node.injEq] at heq
      obtain ⟨rfl, rfl, rfl⟩ := heq
      by_cases hr0 : r = .null
      · subst hr0
        refine ⟨l, by simp [erase_impl, basic_node.right, basic_node.left, basic_node.is_null],
          hl, ?_, by simp [basic_node.count]⟩
        simp [basic_node.keys, List.erase_append_right _ hvl]
      · have hr1 : r.is_null = false := (is_null_false_iff r).mpr hr0
        by_cases hl0 : l = .null
        · subst hl0
          refine ⟨r, by simp [erase_impl, basic_node.right, basic_node.left, basic_node.is_null,
            hr1], hr, by simp [basic_node.keys], by simp [basic_node.count]; omega⟩
        · have hl1 : l.is_null = false := (is_null_false_iff l).mpr hl0
          have h5 : r.nodes ≠ [] := fun h0 => hr0 ((nodes_eq_nil_iff r hr).mp h0)
          obtain ⟨m, ns, h6⟩ := List.exists_cons_of_ne_nil h5
          obtain ⟨ml, mr, mv, rfl⟩ := mem_nodes_is_node (t := r) (n := m) (by rw [h6]; simp)
          obtain ⟨mv1, ks, hmv, hks⟩ := keys_of_nodes_cons hr h6
          simp only [basic_node.get_value, Option.some.injEq] at hmv
          subst hmv
          obtain ⟨r1, he, ho1, hk1, hc1⟩ := ihr hr ml mr mv (by rw [h6]; simp)
          have hmin : r.min = some (.node ml mr mv) := by rw [min_eq_head r hr, h6]; rfl
          have hk2 : r1.keys = ks := by rw [hk1, hks]; simp
          have hs := ordered_sorted r hr
          rw [hks] at hs
          refine ⟨.node l r1 mv, ?_, ⟨hl, ho1, ?_, ?_⟩, ?_, ?_⟩
          · simp [erase_impl, basic_node.right, basic_node.left, hr1, hl1, hmin, he,
              basic_node.get_value]
          · intro y hy
            exact lt_trans (hlt y hy) (hgt mv (by rw [hks]; simp))
          · intro y hy
            rw [hk2] at hy
            exact List.rel_of_sorted_cons hs y hy
          · simp [basic_node.keys, List.erase_append_right _ hvl, hk2, hks]
          · simp only [basic_node.count]; omega
    · -- a node on the path to the target
      simp only [basic_node.nodes, List.mem_append, List.mem_cons] at hd
      rcases hd with hd | hd | hd
      · have hx : x < v := hlt x (mem_keys_of_mem_nodes hd)
        obtain ⟨l1, he, ho1, hk1, hc1⟩ := ihl hl dl dr x hd
        refine ⟨.node l1 r v, ?_, ⟨ho1, hr, ?_, hgt⟩, ?_, ?_⟩
        · simp [erase_impl, heq, basic_node.get_value, not_lt.mpr hx.le, he]
        · intro y hy
          rw [hk1] at hy
          exact hlt y (List.mem_of_mem_erase hy)
        · simp [basic_node.keys, hk1, List.erase_append_left _ (mem_keys_of_mem_nodes hd)]
        · simp only [basic_node.count]; omega
      · exact absurd hd.symm heq
      · have hx : v < x := hgt x (mem_keys_of_mem_nodes hd)
        have hxl : x ∉ l.keys := fun h0 => lt_irrefl x (lt_trans (hlt x h0) hx)
        obtain ⟨r1, he, ho1, hk1, hc1⟩ := ihr hr dl dr x hd
        refine ⟨.node l r1 v, ?_, ⟨hl, ho1, hlt, ?_⟩, ?_, ?_⟩
        · simp [erase_impl, heq, basic_node.get_value, hx, he]
        · intro y hy
          rw [hk1] at hy
          exact hgt y (List.mem_of_mem_erase hy)
        · have hvx : ¬ (v == x) = true := by simpa using ne_of_lt hx
          simp only [basic_node.keys, hk1, List.erase_append_right _ hxl,
            List.erase_cons_tail hvx]
        · simp only [basic_node.count]; omega

end erase

section set_lemmas
variable {α : Type} [LinearOrder α]

/-- Inserting a stored key changes nothing. -/
theorem insert_present_correct (s : persistent_set α) (k : α) (h : s.wf) (hk : k ∈ s.keys) :
    ∃ s1 it, s.insert k = some (s1, it, false) ∧ s.find k = some it ∧ it.deref = some k ∧
      s1 = s ∧ s1.fake = s.fake ∧ s1.size_ = s.size_ ∧ s1.keys = s.keys := by
  obtain ⟨it, h1, -, h2, h3, -⟩ := find_correct s k h
  have hne : s.fake ≠ .null := by
    intro h0
    simp [persistent_set.keys, persistent_set.tree, h0, basic_node.keys] at hk
  obtain ⟨-, v, hv, -, hv1, hv2⟩ := h3 hk
  have hvk : v = k := le_antisymm (not_lt.mp hv2) (not_lt.mp hv1)
  refine ⟨s, it, ?_, h1, hvk ▸ hv, rfl, rfl, rfl, rfl⟩
  simp [persistent_set.insert, create_fake_of_not_null s hne, h1, h2.mpr hk]

/-- Inserting a new key adds exactly that key. -/
theorem insert_absent_correct (s : persistent_set α) (k : α) (h : s.wf) (hk : k ∉ s.keys) :
    ∃ s1 it, s.insert k = some (s1, it, true) ∧ s1.wf ∧
      s1.count = s.count + 1 ∧
      s1.size_ = (s.size_ + 1) % SIZE_MOD ∧ (s.size_ + 1 < SIZE_MOD → s1.size_ = s.size_ + 1) ∧
      s1.keys.Perm (k :: s.keys) ∧
      (∀ x, x ∈ s1.keys ↔ x = k ∨ x ∈ s.keys) ∧
      (∀ x ∈ s.keys, ∃ itx, s1.find x = some itx ∧ itx.eq s1.end_ = false ∧
        itx.deref = some x) ∧
      (∀ x, x ≠ k → x ∉ s.keys → s1.find x = some s1.end_) ∧
      it.deref = some k ∧ it.root = s1.fake ∧ it.node_ ∈ s1.tree.nodes ∧
      s1.find k = some it := by
  obtain ⟨l, hcf, hl, ho⟩ := create_fake_spec s h
  have hkl : k ∉ l.keys := by rw [hl]; exact hk
  obtain ⟨t1, hi, ho1, hp, hc, hn, hf⟩ := insert_impl_spec k l ho hkl
  subst hl
  have hfind : (⟨.base s.tree .null, s.size_⟩ : persistent_set α).find k =
      some ⟨.base s.tree .null, .base s.tree .null⟩ := by
    simpa [persistent_set.find, basic_node.is_null, basic_node.left, persistent_set.end_]
      using find_loop_not_mem (.base s.tree .null) k s.tree ho hkl
  have hwf1 : (⟨.base t1 .null, (s.size_ + 1) % SIZE_MOD⟩ : persistent_set α).wf :=
    ⟨ho1, rfl⟩
  have hmem : ∀ x, x ∈ t1.keys ↔ x = k ∨ x ∈ s.keys := by
    intro x
    rw [hp.mem_iff, List.mem_cons, persistent_set.keys]
  refine ⟨⟨.base t1 .null, (s.size_ + 1) % SIZE_MOD⟩, ⟨.node .null .null k, .base t1 .null⟩,
    ?_, hwf1, ?_, rfl, ?_, ?_, hmem, ?_, ?_, rfl, rfl, hn, ?_⟩
  · simp [persistent_set.insert, hcf, hfind, iterator.eq, basic_node.left, hi,
      persistent_set.end_]
  · exact hc
  · intro hlt
    exact Nat.mod_eq_of_lt hlt
  · exact hp
  · intro x hx
    obtain ⟨itx, h1, -, h2, h3, -⟩ := find_correct _ x hwf1
    have hx1 : x ∈ (⟨.base t1 .null, (s.size_ + 1) % SIZE_MOD⟩ : persistent_set α).keys :=
      (hmem x).mpr (Or.inr hx)
    obtain ⟨-, v, hv, -, hv1, hv2⟩ := h3 hx1
    have hvx : v = x := le_antisymm (not_lt.mp hv2) (not_lt.mp hv1)
    exact ⟨itx, h1, h2.mpr hx1, hvx ▸ hv⟩
  · intro x hxk hx
    obtain ⟨itx, h1, -, h2, -, -⟩ := find_correct _ x hwf1
    have hx1 : x ∉ (⟨.base t1 .null, (s.size_ + 1) % SIZE_MOD⟩ : persistent_set α).keys := by
      intro h0
      rcases (hmem x).mp h0 with h0 | h0
      · exact hxk h0
      · exact hx h0
    have hx2 : x ∉ t1.keys := hx1
    simpa [persistent_set.find, basic_node.is_null, basic_node.left, persistent_set.end_]
      using find_loop_not_mem (.base t1 .null) x t1 ho1 hx2
  · simpa [persistent_set.find, basic_node.is_null, basic_node.left] using hf (.base t1 .null)

theorem insert_all_spec : ∀ (ks : List α) (s : persistent_set α), s.wf →
    ∃ s1, s.insert_all ks = some s1 ∧ s1.wf ∧ ∀ x, x ∈ s1.keys ↔ x ∈ s.keys ∨ x ∈ ks := by
  intro ks
  induction ks with
  | nil => intro s h; exact ⟨s, rfl, h, by simp⟩
  | cons k ks ih =>
    intro s h
    by_cases hk : k ∈ s.keys
    · obtain ⟨s1, it, h1, -, -, h2, -⟩ := insert_present_correct s k h hk
      subst h2
      obtain ⟨s2, h3, h4, h5⟩ := ih s1 h
      refine ⟨s2, by simp [persistent_set.insert_all, h1, h3], h4, ?_⟩
      intro x
      rw [h5, List.mem_cons]
      constructor
      · rintro (h6 | h6)
        · exact Or.inl h6
        · exact Or.inr (Or.inr h6)
      · rintro (h6 | h6 | h6)
        · exact Or.inl h6
        · exact Or.inl (h6 ▸ hk)
        · exact Or.inr h6
    · obtain ⟨s1, it, h1, h2, -, -, -, -, hm, -⟩ := insert_absent_correct s k h hk
      obtain ⟨s2, h3, h4, h5⟩ := ih s1 h2
      refine ⟨s2, by simp [persistent_set.insert_all, h1, h3], h4, ?_⟩
      intro x
      rw [h5, hm, List.mem_cons]
      tauto

theorem wf_sorted (s : persistent_set α) (h : s.wf) : s.keys.Sorted (· < ·) := by
  obtain ⟨fake, sz⟩ := s
  cases fake with
  | null => simp [persistent_set.keys, persistent_set.tree, basic_node.keys]
  | node l r v => exact absurd h (by simp [persistent_set.wf])
  | base l r => exact ordered_sorted l h.1

end set_lemmas

/-! ## Heap-level lemmas: mutations only add objects, observations only read old ones -/

namespace heap_model

section frame
variable {α : Type}

theorem read_mono {h h1 : heap α} (hp : h <+: h1) {p : Nat} {c : basic_node α}
    (hr : read h p = some c) : read h1 p = some c := by
  obtain ⟨t, rfl⟩ := hp
  unfold read at hr ⊢
  by_cases h0 : p = 0
  · simp [h0] at hr
  · simp only [h0, if_false] at hr ⊢
    have hlt : p - 1 < h.length := by
      rcases List.getElem?_eq_some.mp hr with ⟨hl, -⟩
      exact hl
    rw [List.getElem?_append_left hlt]
    exact hr

theorem read_lt {h : heap α} {p : Nat} {c : basic_node α} (hr : read h p = some c) :
    0 < p ∧ p ≤ h.length := by
  unfold read at hr
  by_cases h0 : p = 0
  · simp [h0] at hr
  · simp only [h0, if_false] at hr
    rcases List.getElem?_eq_some.mp hr with ⟨hl, -⟩
    omega

theorem get_value_mono {h h1 : heap α} (hp : h <+: h1) {p : Nat} {v : α}
    (hr : get_value h p = some v) : get_value h1 p = some v := by
  unfold get_value at hr ⊢
  obtain ⟨c, hc, hv⟩ := Option.bind_eq_some.mp hr
  rw [read_mono hp hc]
  exact hv

theorem min_mono {h h1 : heap α} (hp : h <+: h1) :
    ∀ (fuel p m : Nat), min h fuel p = some m → min h1 fuel p = some m := by
  intro fuel
  induction fuel with
  | zero => intro p m hm; simp [min] at hm
  | succ f ih =>
    intro p m hm
    rw [min] at hm ⊢
    obtain ⟨c, hc, hv⟩ := Option.bind_eq_some.mp hm
    rw [read_mono hp hc]
    simp only [Option.some_bind]
    by_cases h0 : c.left ≠ 0
    · rw [if_pos h0] at hv ⊢
      exact ih _ _ hv
    · rw [if_neg h0] at hv ⊢
      exact hv

theorem alloc_extends (h : heap α) (c : basic_node α) : h <+: (alloc h c).1 :=
  List.prefix_append h [c]

theorem alloc_length (h : heap α) (c : basic_node α) :
    (alloc h c).1.length = h.length + 1 ∧ (alloc h c).2 = h.length + 1 := by
  simp [alloc]

theorem write_left_extends {h h3 h4 : heap α} (hp : h <+: h3) {p l : Nat}
    (hlt : h.length < p) (hw : write_left h3 p l = some h4) : h <+: h4 := by
  obtain ⟨t, rfl⟩ := hp
  unfold write_left at hw
  obtain ⟨c, -, hv⟩ := Option.map_eq_some'.mp hw
  subst hv
  have h1 : h.length ≤ p - 1 := by omega
  rw [List.set_append_right _ _ h1]
  exact List.prefix_append _ _

theorem begin_mono {h h1 : heap α} (hp : h <+: h1) (s : persistent_set) (fuel : Nat)
    (b : iterator) (hr : s.begin h fuel = some b) : s.begin h1 fuel = some b := by
  unfold persistent_set.begin at hr ⊢
  by_cases h0 : s.fake = 0
  · rw [if_pos h0] at hr ⊢
    exact hr
  · rw [if_neg h0] at hr ⊢
    obtain ⟨c, hc, hv⟩ := Option.bind_eq_some.mp hr
    rw [read_mono hp hc]
    simp only [Option.some_bind]
    by_cases h2 : c.left = 0
    · rw [if_pos h2] at hv ⊢
      exact hv
    · rw [if_neg h2] at hv ⊢
      obtain ⟨m, hm, hb⟩ := Option.map_eq_some'.mp hv
      rw [min_mono hp _ _ _ hm]
      exact congrArg some hb

theorem create_fake_extends (h : heap α) (s : persistent_set) : h <+: (s.create_fake h).1 := by
  unfold persistent_set.create_fake
  by_cases h0 : s.fake = 0
  · rw [if_pos h0]
    exact alloc_extends _ _
  · rw [if_neg h0]

variable [LT α] [DecidableRel (fun a b : α => a < b)]

theorem find_loop_mono {h h1 : heap α} (hp : h <+: h1) (fake : Nat) (value : α) :
    ∀ (fuel p : Nat) (r : iterator),
      find_loop h fake value fuel p = some r → find_loop h1 fake value fuel p = some r := by
  intro fuel
  induction fuel with
  | zero => intro p r hr; simp [find_loop] at hr
  | succ f ih =>
    intro p r hr
    rw [find_loop] at hr ⊢
    by_cases h0 : p = 0
    · rw [if_pos h0] at hr ⊢
      exact hr
    · rw [if_neg h0] at hr ⊢
      obtain ⟨c, hc, hv⟩ := Option.bind_eq_some.mp hr
      obtain ⟨v, hcv, hv1⟩ := Option.bind_eq_some.mp hv
      rw [read_mono hp hc]
      simp only [Option.some_bind, hcv]
      by_cases h1 : v < value
      · rw [if_pos h1] at hv1 ⊢
        exact ih _ _ hv1
      · rw [if_neg h1] at hv1 ⊢
        by_cases h2 : value < v
        · rw [if_pos h2] at hv1 ⊢
          exact ih _ _ hv1
        · rw [if_neg h2] at hv1 ⊢
          exact hv1

theorem find_mono {h h1 : heap α} (hp : h <+: h1) (s : persistent_set) (value : α)
    (fuel : Nat) (r : iterator) (hr : s.find h value fuel = some r) :
    s.find h1 value fuel = some r := by
  unfold persistent_set.find at hr ⊢
  by_cases h0 : s.fake = 0
  · rw [if_pos h0] at hr ⊢
    exact hr
  · rw [if_neg h0] at hr ⊢
    obtain ⟨c, hc, hv⟩ := Option.bind_eq_some.mp hr
    rw [read_mono hp hc]
    exact find_loop_mono hp _ _ _ _ _ hv

theorem next_loop_mono {h h1 : heap α} (hp : h <+: h1) (x : α) :
    ∀ (fuel p res m : Nat),
      next_loop h x fuel p res = some m → next_loop h1 x fuel p res = some m := by
  intro fuel
  induction fuel with
  | zero => intro p res m hr; simp [next_loop] at hr
  | succ f ih =>
    intro p res m hr
    rw [next_loop] at hr ⊢
    obtain ⟨c, hc, hv⟩ := Option.bind_eq_some.mp hr
    obtain ⟨v, hcv, hv1⟩ := Option.bind_eq_some.mp hv
    rw [read_mono hp hc]
    simp only [Option.some_bind, hcv]
    by_cases h1 : v < x
    · rw [if_pos h1] at hv1 ⊢
      exact ih _ _ _ hv1
    · rw [if_neg h1] at hv1 ⊢
      by_cases h2 : x < v
      · rw [if_pos h2] at hv1 ⊢
        exact ih _ _ _ hv1
      · rw [if_neg h2] at hv1 ⊢
        exact hv1

theorem next_mono {h h1 : heap α} (hp : h <+: h1) (self root fuel m : Nat)
    (hr : next h self root fuel = some m) : next h1 self root fuel = some m := by
  unfold next at hr ⊢
  obtain ⟨c, hc, hv⟩ := Option.bind_eq_some.mp hr
  rw [read_mono hp hc]
  simp only [Option.some_bind]
  by_cases h0 : c.right ≠ 0
  · rw [if_pos h0] at hv ⊢
    exact min_mono hp _ _ _ hv
  · rw [if_neg h0] at hv ⊢
    obtain ⟨r, hrr, hv1⟩ := Option.bind_eq_some.mp hv
    obtain ⟨x, hx, hv2⟩ := Option.bind_eq_some.mp hv1
    rw [read_mono hp hrr]
    simp only [Option.some_bind, hx]
    exact next_loop_mono hp _ _ _ _ _ hv2

theorem iterate_loop_mono {h h1 : heap α} (hp : h <+: h1) (last : iterator) :
    ∀ (fuel : Nat) (it : iterator) (l : List α),
      iterate_loop h last fuel it = some l → iterate_loop h1 last fuel it = some l := by
  intro fuel
  induction fuel with
  | zero => intro it l hr; simp [iterate_loop] at hr
  | succ f ih =>
    intro it l hr
    rw [iterate_loop] at hr ⊢
    by_cases h0 : it.node_ = last.node_
    · rw [if_pos h0] at hr ⊢
      exact hr
    · rw [if_neg h0] at hr ⊢
      obtain ⟨v, hv, hr1⟩ := Option.bind_eq_some.mp hr
      obtain ⟨it1, hi, hr2⟩ := Option.bind_eq_some.mp hr1
      obtain ⟨rest, hrest, hl⟩ := Option.map_eq_some'.mp hr2
      obtain ⟨n, hn, hit⟩ := Option.map_eq_some'.mp hi
      have hi1 : it.incr h1 f = some it1 := by
        unfold iterator.incr
        rw [next_mono hp _ _ _ _ hn]
        exact congrArg some hit
      rw [get_value_mono hp hv]
      simp only [Option.some_bind, hi1, ih _ _ hrest, Option.map_some']
      exact congrArg some hl

theorem to_list_mono {h h1 : heap α} (hp : h <+: h1) (s : persistent_set) (fuel : Nat)
    (l : List α) (hr : s.to_list h fuel = some l) : s.to_list h1 fuel = some l := by
  unfold persistent_set.to_list at hr ⊢
  obtain ⟨b, hb, hv⟩ := Option.bind_eq_some.mp hr
  rw [begin_mono hp _ _ _ hb]
  exact iterate_loop_mono hp _ _ _ _ hv

end frame

section frame2
variable {α : Type} [LT α] [DecidableRel (fun a b : α => a < b)]

theorem insert_impl_extends (value : α) :
    ∀ (fuel : Nat) (h : heap α) (pos : Nat) (r : heap α × Nat × Nat),
      insert_impl value fuel h pos = some r → h <+: r.1 := by
  intro fuel
  induction fuel with
  | zero => intro h pos r hr; simp [insert_impl] at hr
  | succ f ih =>
    intro h pos r hr
    rw [insert_impl] at hr
    by_cases h0 : pos = 0
    · rw [if_pos h0] at hr
      cases hr
      exact alloc_extends _ _
    · rw [if_neg h0] at hr
      obtain ⟨c, -, hv⟩ := Option.bind_eq_some.mp hr
      obtain ⟨v, -, hv1⟩ := Option.bind_eq_some.mp hv
      by_cases h1 : v < value
      · rw [if_pos h1] at hv1
        obtain ⟨p, hp, hr1⟩ := Option.map_eq_some'.mp hv1
        subst hr1
        exact (ih _ _ _ hp).trans (alloc_extends _ _)
      · rw [if_neg h1] at hv1
        obtain ⟨p, hp, hr1⟩ := Option.map_eq_some'.mp hv1
        subst hr1
        exact (ih _ _ _ hp).trans (alloc_extends _ _)

theorem erase_impl_extends :
    ∀ (fuel : Nat) (h : heap α) (pos del : Nat) (r : heap α × Nat),
      erase_impl fuel h pos del = some r → h <+: r.1 := by
  intro fuel
  induction fuel with
  | zero => intro h pos del r hr; simp [erase_impl] at hr
  | succ f ih =>
    intro h pos del r hr
    rw [erase_impl] at hr
    by_cases h0 : pos = del
    · rw [if_pos h0] at hr
      obtain ⟨d, -, hv⟩ := Option.bind_eq_some.mp hr
      by_cases h1 : d.right = 0
      · rw [if_pos h1] at hv
        cases hv
        exact List.prefix_refl _
      · rw [if_neg h1] at hv
        by_cases h2 : d.left = 0
        · rw [if_pos h2] at hv
          cases hv
          exact List.prefix_refl _
        · rw [if_neg h2] at hv
          obtain ⟨m, -, hv1⟩ := Option.bind_eq_some.mp hv
          obtain ⟨p, hp, hv2⟩ := Option.bind_eq_some.mp hv1
          obtain ⟨mv, -, hr1⟩ := Option.map_eq_some'.mp hv2
          subst hr1
          exact (ih _ _ _ _ hp).trans (alloc_extends _ _)
    · rw [if_neg h0] at hr
      obtain ⟨c, -, hv⟩ := Option.bind_eq_some.mp hr
      obtain ⟨v, -, hv1⟩ := Option.bind_eq_some.mp hv
      obtain ⟨dv, -, hv2⟩ := Option.bind_eq_some.mp hv1
      by_cases h1 : v < dv
      · rw [if_pos h1] at hv2
        obtain ⟨p, hp, hr1⟩ := Option.map_eq_some'.mp hv2
        subst hr1
        exact (ih _ _ _ _ hp).trans (alloc_extends _ _)
      · rw [if_neg h1] at hv2
        obtain ⟨p, hp, hr1⟩ := Option.map_eq_some'.mp hv2
        subst hr1
        exact (ih _ _ _ _ hp).trans (alloc_extends _ _)

/-- `insert` only adds objects: the heap before the call is a prefix of the heap after it. -/
theorem insert_extends (h : heap α) (s : persistent_set) (value : α) (fuel : Nat)
    (r : heap α × persistent_set × iterator × Bool)
    (hr : s.insert h value fuel = some r) : h <+: r.1 := by
  unfold persistent_set.insert at hr
  simp only at hr
  obtain ⟨res, -, hv⟩ := Option.bind_eq_some.mp hr
  have hcf := create_fake_extends h s
  by_cases h0 : res.node_ ≠ (s.create_fake h).2.end_.node_
  · rw [if_pos h0] at hv
    cases hv
    exact hcf
  · rw [if_neg h0] at hv
    obtain ⟨c, -, hv1⟩ := Option.bind_eq_some.mp hv
    obtain ⟨p, hp, hv2⟩ := Option.bind_eq_some.mp hv1
    obtain ⟨h4, hw, hr1⟩ := Option.map_eq_some'.mp hv2
    subst hr1
    have h1 : (s.create_fake h).1 <+: p.1 :=
      (alloc_extends _ _).trans (insert_impl_extends _ _ _ _ _ hp)
    exact hcf.trans (write_left_extends h1 (by simp [alloc]) hw)

/-- `erase` only adds objects: the heap before the call is a prefix of the heap after it. -/
theorem erase_extends (h : heap α) (s : persistent_set) (it : iterator) (fuel : Nat)
    (r : heap α × persistent_set) (hr : s.erase h it fuel = some r) : h <+: r.1 := by
  unfold persistent_set.erase at hr
  by_cases h0 : s.fake = 0
  · rw [if_pos h0] at hr
    cases hr
    exact List.prefix_refl _
  · rw [if_neg h0] at hr
    obtain ⟨c, -, hv⟩ := Option.bind_eq_some.mp hr
    by_cases h1 : c.left = 0
    · rw [if_pos h1] at hv
      cases hv
      exact List.prefix_refl _
    · rw [if_neg h1] at hv
      simp only at hv
      obtain ⟨p, hp, hv2⟩ := Option.bind_eq_some.mp hv
      obtain ⟨h3, hw, hr1⟩ := Option.map_eq_some'.mp hv2
      subst hr1
      have h2 : h <+: p.1 := (alloc_extends _ _).trans (erase_impl_extends _ _ _ _ _ hp)
      exact write_left_extends h2 (by simp [alloc]) hw

end frame2

end heap_model

/-! ## The heap-level functions compute what the tree-level functions compute -/

section refine
variable {α : Type}

open heap_model in
theorem holds_mono {h h1 : heap α} (hp : h <+: h1) :
    ∀ (t : basic_node α) (p : Nat), holds h t p → holds h1 t p := by
  intro t
  induction t with
  | null => intro p hh; exact hh
  | base l r ihl ihr =>
    rintro p ⟨c, hc, hv, hl, hr⟩
    exact ⟨c, read_mono hp hc, hv, ihl _ hl, ihr _ hr⟩
  | node l r v ihl ihr =>
    rintro p ⟨c, hc, hv, hl, hr⟩
    exact ⟨c, read_mono hp hc, hv, ihl _ hl, ihr _ hr⟩

open heap_model in
theorem located_mono {h h1 : heap α} (hp : h <+: h1) :
    ∀ (t : basic_node α) (p : Nat) (n : basic_node α) (q : Nat),
      located h t p n q → located h1 t p n q := by
  intro t
  induction t with
  | null => intro p n q hh; exact hh
  | base l r _ _ => intro p n q hh; exact hh
  | node l r v ihl ihr =>
    intro p n q hh
    rcases hh with hh | ⟨c, hc, hh | hh⟩
    · exact Or.inl hh
    · exact Or.inr ⟨c, read_mono hp hc, Or.inl (ihl _ _ _ hh)⟩
    · exact Or.inr ⟨c, read_mono hp hc, Or.inr (ihr _ _ _ hh)⟩

theorem holds_inj (h : heap_model.heap α) :
    ∀ (t t1 : basic_node α) (p : Nat), holds h t p → holds h t1 p → t = t1 := by
  intro t
  induction t with
  | null =>
    intro t1 p hh h1
    cases t1 with
    | null => rfl
    | base l r =>
      obtain ⟨c, hc, -⟩ := h1
      simp only [holds] at hh
      subst hh
      simp [heap_model.read] at hc
    | node l r v =>
      obtain ⟨c, hc, -⟩ := h1
      simp only [holds] at hh
      subst hh
      simp [heap_model.read] at hc
  | base l r ihl ihr =>
    rintro t1 p ⟨c, hc, hv, hl, hr⟩ h1
    cases t1 with
    | null =>
      simp only [holds] at h1
      subst h1
      simp [heap_model.read] at hc
    | base l1 r1 =>
      obtain ⟨c1, hc1, -, hl1, hr1⟩ := h1
      rw [hc] at hc1
      cases hc1
      rw [ihl _ _ hl hl1, ihr _ _ hr hr1]
    | node l1 r1 v1 =>
      obtain ⟨c1, hc1, hv1, -⟩ := h1
      rw [hc] at hc1
      cases hc1
      rw [hv] at hv1
      cases hv1
  | node l r v ihl ihr =>
    rintro t1 p ⟨c, hc, hv, hl, hr⟩ h1
    cases t1 with
    | null =>
      simp only [holds] at h1
      subst h1
      simp [heap_model.read] at hc
    | base l1 r1 =>
      obtain ⟨c1, hc1, hv1, -⟩ := h1
      rw [hc] at hc1
      cases hc1
      rw [hv] at hv1
      cases hv1
    | node l1 r1 v1 =>
      obtain ⟨c1, hc1, hv1, hl1, hr1⟩ := h1
      rw [hc] at hc1
      cases hc1
      rw [hv] at hv1
      cases hv1
      rw [ihl _ _ hl hl1, ihr _ _ hr hr1]

theorem holds_zero_iff (h : heap_model.heap α) (t : basic_node α) (p : Nat)
    (hh : holds h t p) : p = 0 ↔ t = .null := by
  cases t with
  | null => simpa [holds] using hh
  | base l r =>
    obtain ⟨c, hc, -⟩ := hh
    simp only [reduceCtorEq, iff_false]
    exact Nat.pos_iff_ne_zero.mp (heap_model.read_lt hc).1
  | node l r v =>
    obtain ⟨c, hc, -⟩ := hh
    simp only [reduceCtorEq, iff_false]
    exact Nat.pos_iff_ne_zero.mp (heap_model.read_lt hc).1

theorem located_holds (h : heap_model.heap α) :
    ∀ (t : basic_node α) (p : Nat) (n : basic_node α) (q : Nat),
      holds h t p → located h t p n q → holds h n q ∧ n ∈ t.nodes := by
  intro t
  induction t with
  | null => intro p n q _ hl; exact absurd hl (by simp [located])
  | base l r _ _ => intro p n q _ hl; exact absurd hl (by simp [located])
  | node l r v ihl ihr =>
    rintro p n q ⟨c, hc, hv, hl, hr⟩ hloc
    rcases hloc with ⟨rfl, rfl⟩ | ⟨c1, hc1, hloc | hloc⟩
    · exact ⟨⟨c, hc, hv, hl, hr⟩, by simp [basic_node.nodes]⟩
    · rw [hc] at hc1
      cases hc1
      obtain ⟨h1, h2⟩ := ihl _ _ _ hl hloc
      exact ⟨h1, by simp [basic_node.nodes, h2]⟩
    · rw [hc] at hc1
      cases hc1
      obtain ⟨h1, h2⟩ := ihr _ _ _ hr hloc
      exact ⟨h1, by simp [basic_node.nodes, h2]⟩

theorem sizeOf_mem_nodes : ∀ (t n : basic_node α), n ∈ t.nodes → sizeOf n ≤ sizeOf t := by
  intro t
  induction t with
  | null => intro n hn; simp [basic_node.nodes] at hn
  | base l r ihl ihr =>
    intro n hn
    simp only [basic_node.nodes, List.mem_append] at hn
    rcases hn with hn | hn
    · have := ihl n hn
      simp only [basic_node.base.sizeOf_spec]; omega
    · have := ihr n hn
      simp only [basic_node.base.sizeOf_spec]; omega
  | node l r v ihl ihr =>
    intro n hn
    simp only [basic_node.nodes, List.mem_append, List.mem_cons] at hn
    rcases hn with hn | hn | hn
    · have := ihl n hn
      simp only [basic_node.node.sizeOf_spec]; omega
    · rw [hn]
    · have := ihr n hn
      simp only [basic_node.node.sizeOf_spec]; omega

theorem not_mem_nodes_child (l r : basic_node α) (v : α) :
    basic_node.node l r v ∉ l.nodes ∧ basic_node.node l r v ∉ r.nodes := by
  constructor
  · intro hn
    have := sizeOf_mem_nodes _ _ hn
    simp only [basic_node.node.sizeOf_spec] at this
    omega
  · intro hn
    have := sizeOf_mem_nodes _ _ hn
    simp only [basic_node.node.sizeOf_spec] at this
    omega

/-- A node located inside a located subtree is located in the whole tree. -/
theorem located_trans (h : heap_model.heap α) :
    ∀ (t : basic_node α) (p : Nat) (n : basic_node α) (q : Nat) (n1 : basic_node α) (q1 : Nat),
      holds h t p → located h t p n q → located h n q n1 q1 → located h t p n1 q1 := by
  intro t
  induction t with
  | null => intro p n q n1 q1 _ hl; exact absurd hl (by simp [located])
  | base l r _ _ => intro p n q n1 q1 _ hl; exact absurd hl (by simp [located])
  | node l r v ihl ihr =>
    rintro p n q n1 q1 ⟨c, hc, hv, hhl, hhr⟩ hloc hloc1
    rcases hloc with ⟨rfl, rfl⟩ | ⟨c1, hc1, hloc | hloc⟩
    · exact hloc1
    · rw [hc] at hc1
      cases hc1
      exact Or.inr ⟨c, hc, Or.inl (ihl _ _ _ _ _ hhl hloc hloc1)⟩
    · rw [hc] at hc1
      cases hc1
      exact Or.inr ⟨c, hc, Or.inr (ihr _ _ _ _ _ hhr hloc hloc1)⟩

theorem depth_mem_nodes : ∀ (t n : basic_node α), n ∈ t.nodes → n.depth ≤ t.depth := by
  intro t
  induction t with
  | null => intro n hn; simp [basic_node.nodes] at hn
  | base l r ihl ihr =>
    intro n hn
    simp only [basic_node.nodes, List.mem_append] at hn
    simp only [basic_node.depth]
    rcases hn with hn | hn
    · have := ihl n hn
      split <;> omega
    · have := ihr n hn
      split <;> omega
  | node l r v ihl ihr =>
    intro n hn
    simp only [basic_node.nodes, List.mem_append, List.mem_cons] at hn
    rcases hn with hn | hn | hn
    · have := ihl n hn
      simp only [basic_node.depth]
      split <;> omega
    · rw [hn]
    · have := ihr n hn
      simp only [basic_node.depth]
      split <;> omega

theorem set_holds_mono {h h1 : heap_model.heap α} (hp : h <+: h1)
    (s : heap_model.persistent_set) (S : persistent_set α) (hs : set_holds h s S) :
    set_holds h1 s S :=
  ⟨hs.1, holds_mono hp _ _ hs.2⟩

end refine


section refine2
variable {α : Type}

theorem depth_node_lt {l r : basic_node α} {v : α} {f : Nat}
    (h : (basic_node.node l r v).depth < f + 1) : l.depth < f ∧ r.depth < f := by
  simp only [basic_node.depth] at h
  split at h <;> constructor <;> omega

theorem depth_le_count [LT α] : ∀ t : basic_node α, t.ordered → t.depth ≤ t.count := by
  intro t
  induction t with
  | null => intro _; exact Nat.le_refl _
  | base l r _ _ => intro h; exact absurd h (by simp [basic_node.ordered])
  | node l r v ihl ihr =>
    rintro ⟨hl, hr, -, -⟩
    have h1 := ihl hl
    have h2 := ihr hr
    simp only [basic_node.depth, basic_node.count]
    split <;> omega

theorem holds_alloc (h : heap_model.heap α) (l r : basic_node α) (v : α) (pl pr : Nat)
    (hl : holds h l pl) (hr : holds h r pr) :
    holds (heap_model.alloc h ⟨pl, pr, some v⟩).1 (.node l r v)
      (heap_model.alloc h ⟨pl, pr, some v⟩).2 := by
  have hp := heap_model.alloc_extends h ⟨pl, pr, some v⟩
  refine ⟨⟨pl, pr, some v⟩, ?_, rfl, holds_mono hp _ _ hl, holds_mono hp _ _ hr⟩
  simp [heap_model.alloc, heap_model.read]

variable [LinearOrder α]

theorem find_loop_sim_not_mem (h : heap_model.heap α) (fake : Nat) (k : α) :
    ∀ (t : basic_node α) (p fuel : Nat), t.ordered → holds h t p → k ∉ t.keys →
      t.depth < fuel → heap_model.find_loop h fake k fuel p = some ⟨fake, fake⟩ := by
  intro t
  induction t with
  | null =>
    intro p fuel _ hh _ hf
    simp only [holds] at hh
    subst hh
    cases fuel with
    | zero => simp at hf
    | succ f => simp [heap_model.find_loop]
  | base l r _ _ => intro p fuel ho; exact absurd ho (by simp [basic_node.ordered])
  | node l r v ihl ihr =>
    rintro p fuel ⟨hl, hr, -, -⟩ ⟨c, hc, hv, hhl, hhr⟩ hk hf
    cases fuel with
    | zero => simp at hf
    | succ f =>
      obtain ⟨hdl, hdr⟩ := depth_node_lt hf
      simp only [basic_node.keys, List.mem_append, List.mem_cons, not_or] at hk
      obtain ⟨hkl, hkv, hkr⟩ := hk
      have hp0 : p ≠ 0 := Nat.pos_iff_ne_zero.mp (heap_model.read_lt hc).1
      rw [heap_model.find_loop, if_neg hp0, hc]
      simp only [Option.some_bind, hv]
      rcases lt_trichotomy v k with hvk | hvk | hvk
      · rw [if_pos hvk]
        exact ihr _ _ hr hhr hkr hdr
      · exact absurd hvk.symm hkv
      · rw [if_neg (not_lt.mpr hvk.le), if_pos hvk]
        exact ihl _ _ hl hhl hkl hdl

theorem find_loop_sim_mem (h : heap_model.heap α) (fake : Nat) (k : α) :
    ∀ (t : basic_node α) (p fuel : Nat), t.ordered → holds h t p → k ∈ t.keys →
      t.depth < fuel →
      ∃ q l r, heap_model.find_loop h fake k fuel p = some ⟨q, fake⟩ ∧
        located h t p (.node l r k) q := by
  intro t
  induction t with
  | null => intro p fuel _ _ hk; simp [basic_node.keys] at hk
  | base l r _ _ => intro p fuel ho; exact absurd ho (by simp [basic_node.ordered])
  | node l r v ihl ihr =>
    rintro p fuel ⟨hl, hr, hlt, hgt⟩ ⟨c, hc, hv, hhl, hhr⟩ hk hf
    cases fuel with
    | zero => simp at hf
    | succ f =>
      obtain ⟨hdl, hdr⟩ := depth_node_lt hf
      simp only [basic_node.keys, List.mem_append, List.mem_cons] at hk
      have hp0 : p ≠ 0 := Nat.pos_iff_ne_zero.mp (heap_model.read_lt hc).1
      rw [heap_model.find_loop, if_neg hp0, hc]
      simp only [Option.some_bind, hv]
      rcases lt_trichotomy v k with hvk | hvk | hvk
      · have hkr : k ∈ r.keys := by
          rcases hk with hk | hk | hk
          · exact absurd (hlt k hk) (not_lt.mpr hvk.le)
          · exact absurd hk (ne_of_gt hvk)
          · exact hk
        rw [if_pos hvk]
        obtain ⟨q, a, b, h1, h2⟩ := ihr _ _ hr hhr hkr hdr
        exact ⟨q, a, b, h1, Or.inr ⟨c, hc, Or.inr h2⟩⟩
      · subst hvk
        rw [if_neg (lt_irrefl v), if_neg (lt_irrefl v)]
        exact ⟨p, l, r, rfl, Or.inl ⟨rfl, rfl⟩⟩
      · have hkl : k ∈ l.keys := by
          rcases hk with hk | hk | hk
          · exact hk
          · exact absurd hk (ne_of_lt hvk)
          · exact absurd (hgt k hk) (not_lt.mpr hvk.le)
        rw [if_neg (not_lt.mpr hvk.le), if_pos hvk]
        obtain ⟨q, a, b, h1, h2⟩ := ihl _ _ hl hhl hkl hdl
        exact ⟨q, a, b, h1, Or.inr ⟨c, hc, Or.inl h2⟩⟩

theorem insert_impl_sim (k : α) :
    ∀ (t : basic_node α) (h : heap_model.heap α) (p fuel : Nat) (t1 n : basic_node α),
      holds h t p → insert_impl k t = some (t1, n) → t.depth < fuel →
      ∃ h1 a q, heap_model.insert_impl k fuel h p = some (h1, a, q) ∧ h <+: h1 ∧
        holds h1 t1 a ∧ located h1 t1 a n q := by
  intro t
  induction t with
  | null =>
    intro h p fuel t1 n hh hi hf
    simp only [holds] at hh
    subst hh
    simp only [insert_impl, Option.some.injEq, Prod.mk.injEq] at hi
    obtain ⟨rfl, rfl⟩ := hi
    cases fuel with
    | zero => simp at hf
    | succ f =>
      refine ⟨_, _, _, by simp [heap_model.insert_impl], heap_model.alloc_extends _ _,
        holds_alloc h .null .null k 0 0 rfl rfl, Or.inl ⟨rfl, rfl⟩⟩
  | base l r _ _ => intro h p fuel t1 n _ hi; simp [insert_impl] at hi
  | node l r v ihl ihr =>
    rintro h p fuel t1 n ⟨c, hc, hv, hhl, hhr⟩ hi hf
    cases fuel with
    | zero => simp at hf
    | succ f =>
      obtain ⟨hdl, hdr⟩ := depth_node_lt hf
      have hp0 : p ≠ 0 := Nat.pos_iff_ne_zero.mp (heap_model.read_lt hc).1
      rw [heap_model.insert_impl, if_neg hp0, hc]
      simp only [Option.some_bind, hv]
      rw [insert_impl] at hi
      by_cases hvk : v < k
      · rw [if_pos hvk] at hi ⊢
        obtain ⟨⟨r1, n1⟩, hi1, hi2⟩ := Option.map_eq_some'.mp hi
        simp only [Prod.mk.injEq] at hi2
        obtain ⟨rfl, rfl⟩ := hi2
        obtain ⟨h1, a, q, hs, hp, hh1, hloc⟩ := ihr h c.right f r1 n1 hhr hi1 hdr
        rw [hs]
        simp only [Option.map_some']
        have hal := holds_alloc h1 l r1 v c.left a (holds_mono hp _ _ hhl) hh1
        obtain ⟨c2, hc2, -⟩ := hal
        refine ⟨_, _, _, rfl, hp.trans (heap_model.alloc_extends _ _),
          holds_alloc h1 l r1 v c.left a (holds_mono hp _ _ hhl) hh1, ?_⟩
        exact Or.inr ⟨c2, hc2, Or.inr (by
          have h5 : c2 = ⟨c.left, a, some v⟩ := by
            have h6 : heap_model.read (heap_model.alloc h1 ⟨c.left, a, some v⟩).1
                (heap_model.alloc h1 ⟨c.left, a, some v⟩).2 = some ⟨c.left, a, some v⟩ := by
              simp [heap_model.alloc, heap_model.read]
            rw [h6] at hc2
            exact (Option.some.inj hc2).symm
          rw [h5]
          exact located_mono (heap_model.alloc_extends _ _) _ _ _ _ hloc)⟩
      · rw [if_neg hvk] at hi ⊢
        obtain ⟨⟨l1, n1⟩, hi1, hi2⟩ := Option.map_eq_some'.mp hi
        simp only [Prod.mk.injEq] at hi2
        obtain ⟨rfl, rfl⟩ := hi2
        obtain ⟨h1, a, q, hs, hp, hh1, hloc⟩ := ihl h c.left f l1 n1 hhl hi1 hdl
        rw [hs]
        simp only [Option.map_some']
        have hal := holds_alloc h1 l1 r v a c.right hh1 (holds_mono hp _ _ hhr)
        obtain ⟨c2, hc2, -⟩ := hal
        refine ⟨_, _, _, rfl, hp.trans (heap_model.alloc_extends _ _),
          holds_alloc h1 l1 r v a c.right hh1 (holds_mono hp _ _ hhr), ?_⟩
        exact Or.inr ⟨c2, hc2, Or.inl (by
          have h5 : c2 = ⟨a, c.right, some v⟩ := by
            have h6 : heap_model.read (heap_model.alloc h1 ⟨a, c.right, some v⟩).1
                (heap_model.alloc h1 ⟨a, c.right, some v⟩).2 = some ⟨a, c.right, some v⟩ := by
              simp [heap_model.alloc, heap_model.read]
            rw [h6] at hc2
            exact (Option.some.inj hc2).symm
          rw [h5]
          exact located_mono (heap_model.alloc_extends _ _) _ _ _ _ hloc)⟩

end refine2


section refine3
variable {α : Type} [LinearOrder α]

theorem min_sim (h : heap_model.heap α) :
    ∀ (t : basic_node α) (p fuel : Nat), t.ordered → holds h t p → t ≠ .null →
      t.depth ≤ fuel →
      ∃ m n, heap_model.min h fuel p = some m ∧ t.min = some n ∧ located h t p n m := by
  intro t
  induction t with
  | null => intro p fuel _ _ hne; exact absurd rfl hne
  | base l r _ _ => intro p fuel ho; exact absurd ho (by simp [basic_node.ordered])
  | node l r v ihl _ =>
    rintro p fuel ⟨hl, -, -, -⟩ ⟨c, hc, hv, hhl, hhr⟩ - hf
    cases fuel with
    | zero => simp [basic_node.depth] at hf
    | succ f =>
      obtain ⟨hdl, -⟩ := depth_node_lt (Nat.lt_succ_of_le hf)
      rw [heap_model.min, hc]
      simp only [Option.some_bind]
      by_cases h0 : l = .null
      · have h1 : c.left = 0 := (holds_zero_iff h l c.left hhl).mpr h0
        subst h0
        refine ⟨p, _, by simp [h1], by simp [basic_node.min, basic_node.is_null],
          Or.inl ⟨rfl, rfl⟩⟩
      · have h1 : c.left ≠ 0 := fun h2 => h0 ((holds_zero_iff h l c.left hhl).mp h2)
        obtain ⟨m, n, hm, hn, hloc⟩ := ihl c.left f hl hhl h0 (by omega)
        refine ⟨m, n, by simp [h1, hm], ?_, Or.inr ⟨c, hc, Or.inl hloc⟩⟩
        simp [basic_node.min, (is_null_false_iff l).mpr h0, hn]

theorem erase_impl_sim :
    ∀ (t : basic_node α) (h : heap_model.heap α) (p d fuel : Nat) (del t1 : basic_node α),
      t.ordered → holds h t p → located h t p del d → erase_impl t del = some t1 →
      t.depth < fuel →
      ∃ h1 a, heap_model.erase_impl fuel h p d = some (h1, a) ∧ h <+: h1 ∧ holds h1 t1 a := by
  intro t
  induction t with
  | null => intro h p d fuel del t1 _ _ hloc; exact absurd hloc (by simp [located])
  | base l r _ _ => intro h p d fuel del t1 ho; exact absurd ho (by simp [basic_node.ordered])
  | node l r v ihl ihr =>
    rintro h p d fuel del t1 ⟨hl, hr, hlt, hgt⟩ hh hloc he hf
    have hh0 := hh
    obtain ⟨c, hc, hv, hhl, hhr⟩ := hh
    cases fuel with
    | zero => simp at hf
    | succ f =>
      obtain ⟨hdl, hdr⟩ := depth_node_lt hf
      obtain ⟨hdel, hmem⟩ := located_holds h _ _ _ _ hh0 hloc
      rw [heap_model.erase_impl]
      rw [erase_impl] at he
      by_cases hpd : p = d
      · -- the target node
        subst hpd
        have hdt : basic_node.node l r v = del := holds_inj h _ _ _ hh0 hdel
        subst hdt
        rw [if_pos rfl] at he ⊢
        rw [hc]
        simp only [Option.some_bind, basic_node.right, basic_node.left] at he ⊢
        by_cases hr0 : r = .null
        · have h1 : c.right = 0 := (holds_zero_iff h r c.right hhr).mpr hr0
          subst hr0
          simp only [basic_node.is_null, if_true, Option.some.injEq] at he
          subst he
          exact ⟨h, c.left, by simp [h1], List.prefix_refl _, hhl⟩
        · have h1 : c.right ≠ 0 := fun h2 => hr0 ((holds_zero_iff h r c.right hhr).mp h2)
          have hr1 : r.is_null = false := (is_null_false_iff r).mpr hr0
          rw [if_neg h1]
          simp only [hr1, Bool.false_eq_true, if_false] at he
          by_cases hl0 : l = .null
          · have h2 : c.left = 0 := (holds_zero_iff h l c.left hhl).mpr hl0
            subst hl0
            simp only [basic_node.is_null, if_true, Option.some.injEq] at he
            subst he
            exact ⟨h, c.right, by simp [h2], List.prefix_refl _, hhr⟩
          · have h2 : c.left ≠ 0 := fun h3 => hl0 ((holds_zero_iff h l c.left hhl).mp h3)
            have hl1 : l.is_null = false := (is_null_false_iff l).mpr hl0
            rw [if_neg h2]
            simp only [hl1, Bool.false_eq_true, if_false] at he
            obtain ⟨m, n, hm, hn, hlocm⟩ := min_sim h r c.right f hr hhr hr0 (by omega)
            rw [hn] at he
            simp only [Option.some_bind, Bool.false_eq_true, if_false] at he
            obtain ⟨r1, he1, he2⟩ := Option.bind_eq_some.mp he
            obtain ⟨mv, hmv, he3⟩ := Option.map_eq_some'.mp he2
            subst he3
            obtain ⟨h1, a, hs, hp, hh1⟩ := ihr h c.right m f n r1 hr hhr hlocm he1 hdr
            obtain ⟨hn1, -⟩ := located_holds h _ _ _ _ hhr hlocm
            have hgv : heap_model.get_value h1 m = some mv := by
              have hn2 := holds_mono hp _ _ hn1
              cases n with
              | null => simp [basic_node.get_value] at hmv
              | base _ _ => simp [basic_node.get_value] at hmv
              | node nl nr nv =>
                obtain ⟨c2, hc2, hv2, -⟩ := hn2
                simp only [basic_node.get_value, Option.some.injEq] at hmv
                subst hmv
                simp [heap_model.get_value, hc2, hv2]
            rw [hm]
            simp only [Option.some_bind, hs, hgv, Option.map_some']
            exact ⟨_, _, rfl, hp.trans (heap_model.alloc_extends _ _),
              holds_alloc h1 l r1 mv c.left a (holds_mono hp _ _ hhl) hh1⟩
      · -- a node on the path
        rw [if_neg hpd]
        have hloc1 : located h l c.left del d ∨ located h r c.right del d := by
          rcases hloc with ⟨h1, -⟩ | ⟨c1, hc1, h1⟩
          · exact absurd h1 hpd
          · rw [hc] at hc1
            cases hc1
            exact h1
        obtain ⟨dl, dr, x, rfl⟩ := mem_nodes_is_node hmem
        obtain ⟨cd, hcd, hvd, -⟩ := hdel
        have hgv : heap_model.get_value h d = some x := by
          simp [heap_model.get_value, hcd, hvd]
        rw [hc]
        simp only [Option.some_bind, hv, hgv]
        rcases hloc1 with hloc1 | hloc1
        · obtain ⟨-, hm1⟩ := located_holds h _ _ _ _ hhl hloc1
          have hne : basic_node.node l r v ≠ basic_node.node dl dr x := by
            intro h1
            rw [← h1] at hm1
            exact (not_mem_nodes_child l r v).1 hm1
          have hx : x < v := hlt x (mem_keys_of_mem_nodes hm1)
          rw [if_neg hne] at he
          simp only [basic_node.get_value, Option.some_bind, if_neg (not_lt.mpr hx.le)] at he
          obtain ⟨l1, he1, he2⟩ := Option.map_eq_some'.mp he
          subst he2
          obtain ⟨h1, a, hs, hp, hh1⟩ := ihl h c.left d f _ l1 hl hhl hloc1 he1 hdl
          rw [if_neg (not_lt.mpr hx.le), hs]
          exact ⟨_, _, rfl, hp.trans (heap_model.alloc_extends _ _),
            holds_alloc h1 l1 r v a c.right hh1 (holds_mono hp _ _ hhr)⟩
        · obtain ⟨-, hm1⟩ := located_holds h _ _ _ _ hhr hloc1
          have hne : basic_node.node l r v ≠ basic_node.node dl dr x := by
            intro h1
            rw [← h1] at hm1
            exact (not_mem_nodes_child l r v).2 hm1
          have hx : v < x := hgt x (mem_keys_of_mem_nodes hm1)
          rw [if_neg hne] at he
          simp only [basic_node.get_value, Option.some_bind, if_pos hx] at he
          obtain ⟨r1, he1, he2⟩ := Option.map_eq_some'.mp he
          subst he2
          obtain ⟨h1, a, hs, hp, hh1⟩ := ihr h c.right d f _ r1 hr hhr hloc1 he1 hdr
          rw [if_pos hx, hs]
          exact ⟨_, _, rfl, hp.trans (heap_model.alloc_extends _ _),
            holds_alloc h1 l r1 v c.left a (holds_mono hp _ _ hhl) hh1⟩

end refine3


section refine4
variable {α : Type}

theorem read_set_ne (h : heap_model.heap α) (w p : Nat) (c : heap_model.basic_node α)
    (hw : 0 < w) (hne : p ≠ w) : heap_model.read (h.set (w - 1) c) p = heap_model.read h p := by
  unfold heap_model.read
  by_cases h0 : p = 0
  · simp [h0]
  · simp only [h0, if_false]
    rw [List.getElem?_set_ne]
    omega

theorem read_set_eq (h : heap_model.heap α) (w : Nat) (c c0 : heap_model.basic_node α)
    (hr : heap_model.read h w = some c0) : heap_model.read (h.set (w - 1) c) w = some c := by
  obtain ⟨h1, h2⟩ := heap_model.read_lt hr
  unfold heap_model.read
  rw [if_neg (by omega)]
  rw [List.getElem?_set_self (by omega)]

/-- Writing the left slot of a valueless object does not change any tree of value nodes. -/
theorem holds_write [LT α] (h : heap_model.heap α) (w l1 : Nat) (cw : heap_model.basic_node α)
    (hw : heap_model.read h w = some cw) (hv : cw.value = none) :
    ∀ (t : basic_node α) (p : Nat), t.ordered → holds h t p →
      holds (h.set (w - 1) ⟨l1, cw.right, cw.value⟩) t p := by
  intro t
  induction t with
  | null => intro p _ hh; exact hh
  | base l r _ _ => intro p ho; exact absurd ho (by simp [basic_node.ordered])
  | node l r v ihl ihr =>
    rintro p ⟨hl, hr, -, -⟩ ⟨c, hc, hcv, hhl, hhr⟩
    have hne : p ≠ w := by
      intro h0
      subst h0
      rw [hc] at hw
      cases hw
      rw [hcv] at hv
      cases hv
    refine ⟨c, ?_, hcv, ihl _ hl hhl, ihr _ hr hhr⟩
    rw [read_set_ne h w p _ (heap_model.read_lt hw).1 hne]
    exact hc

theorem located_write [LT α] (h : heap_model.heap α) (w l1 : Nat) (cw : heap_model.basic_node α)
    (hw : heap_model.read h w = some cw) (hv : cw.value = none) :
    ∀ (t : basic_node α) (p : Nat) (n : basic_node α) (q : Nat), t.ordered → holds h t p →
      located h t p n q → located (h.set (w - 1) ⟨l1, cw.right, cw.value⟩) t p n q := by
  intro t
  induction t with
  | null => intro p n q _ _ hh; exact hh
  | base l r _ _ => intro p n q ho; exact absurd ho (by simp [basic_node.ordered])
  | node l r v ihl ihr =>
    rintro p n q ⟨hl, hr, -, -⟩ ⟨c, hc, hcv, hhl, hhr⟩ hloc
    have hne : p ≠ w := by
      intro h0
      subst h0
      rw [hc] at hw
      cases hw
      rw [hcv] at hv
      cases hv
    have hrd : heap_model.read (h.set (w - 1) ⟨l1, cw.right, cw.value⟩) p = some c := by
      rw [read_set_ne h w p _ (heap_model.read_lt hw).1 hne]
      exact hc
    rcases hloc with hloc | ⟨c1, hc1, hloc | hloc⟩
    · exact Or.inl hloc
    · rw [hc] at hc1
      cases hc1
      exact Or.inr ⟨c, hrd, Or.inl (ihl _ _ _ hl hhl hloc)⟩
    · rw [hc] at hc1
      cases hc1
      exact Or.inr ⟨c, hrd, Or.inr (ihr _ _ _ hr hhr hloc)⟩

/-- After `tmp_fake->left = a` the fresh sentinel holds the tree stored at `a`. -/
theorem holds_sentinel_write [LT α] (h : heap_model.heap α) (w a : Nat)
    (hw : heap_model.read h w = some ⟨0, 0, none⟩) (t : basic_node α) (ho : t.ordered)
    (hh : holds h t a) :
    ∃ h4, heap_model.write_left h w a = some h4 ∧ holds h4 (.base t .null) w ∧
      heap_model.read h4 w = some ⟨a, 0, none⟩ ∧
      (∀ n q, located h t a n q → located h4 t a n q) := by
  refine ⟨h.set (w - 1) ⟨a, 0, none⟩, by simp [heap_model.write_left, hw], ?_, ?_, ?_⟩
  · exact ⟨⟨a, 0, none⟩, read_set_eq h w _ _ hw, rfl,
      holds_write h w a ⟨0, 0, none⟩ hw rfl t a ho hh, rfl⟩
  · exact read_set_eq h w _ _ hw
  · intro n q hloc
    exact located_write h w a ⟨0, 0, none⟩ hw rfl t a n q ho hh hloc

theorem read_alloc (h : heap_model.heap α) (c : heap_model.basic_node α) :
    heap_model.read (heap_model.alloc h c).1 (heap_model.alloc h c).2 = some c := by
  simp [heap_model.alloc, heap_model.read]

end refine4


section refine5
variable {α : Type} [LinearOrder α]

theorem node_unique (t : basic_node α) (ho : t.ordered) (l r l1 r1 : basic_node α) (k : α)
    (h1 : basic_node.node l r k ∈ t.nodes) (h2 : basic_node.node l1 r1 k ∈ t.nodes) :
    basic_node.node l r k = basic_node.node l1 r1 k := by
  have hnd : (t.nodes.map basic_node.get_value).Nodup := by
    rw [nodes_map_get_value t ho]
    exact (ordered_nodup t ho).map (Option.some_injective α)
  exact List.inj_on_of_nodup_map hnd h1 h2 rfl

/-- What a well-formed set looks like on the heap. -/
theorem set_holds_cases (h : heap_model.heap α) (s : heap_model.persistent_set)
    (S : persistent_set α) (hw : S.wf) (hs : set_holds h s S) :
    (S.fake = .null ∧ s.fake = 0 ∧ S.tree = .null) ∨
    (∃ c, S.fake = .base S.tree .null ∧ S.tree.ordered ∧ s.fake ≠ 0 ∧
      heap_model.read h s.fake = some c ∧ c.value = none ∧ holds h S.tree c.left ∧
      c.right = 0) := by
  obtain ⟨fake, sz⟩ := S
  obtain ⟨-, hh⟩ := hs
  cases fake with
  | null => exact Or.inl ⟨rfl, hh, rfl⟩
  | node l r v => exact absurd hw (by simp [persistent_set.wf])
  | base t r =>
    obtain ⟨ho, hr⟩ := hw
    rw [is_null_iff] at hr
    subst hr
    obtain ⟨c, hc, hv, hl, hr⟩ := hh
    exact Or.inr ⟨c, rfl, ho, Nat.pos_iff_ne_zero.mp (heap_model.read_lt hc).1, hc, hv, hl, hr⟩

theorem find_sim_not_mem (h : heap_model.heap α) (s : heap_model.persistent_set)
    (S : persistent_set α) (k : α) (fuel : Nat) (hw : S.wf) (hs : set_holds h s S)
    (hf : S.tree.depth < fuel) (hk : k ∉ S.keys) :
    s.find h k fuel = some s.end_ := by
  rcases set_holds_cases h s S hw hs with ⟨-, h0, -⟩ | ⟨c, -, ho, h0, hc, -, hl, -⟩
  · simp [heap_model.persistent_set.find, h0]
  · rw [heap_model.persistent_set.find, if_neg h0, hc]
    exact find_loop_sim_not_mem h s.fake k _ _ _ ho hl hk hf

theorem find_sim_mem (h : heap_model.heap α) (s : heap_model.persistent_set)
    (S : persistent_set α) (k : α) (fuel : Nat) (hw : S.wf) (hs : set_holds h s S)
    (hf : S.tree.depth < fuel) (hk : k ∈ S.keys) :
    ∃ q l r c, s.find h k fuel = some ⟨q, s.fake⟩ ∧ S.find k = some ⟨.node l r k, S.fake⟩ ∧
      heap_model.read h s.fake = some c ∧ located h S.tree c.left (.node l r k) q ∧
      q ≠ s.fake ∧ basic_node.node l r k ∈ S.tree.nodes := by
  rcases set_holds_cases h s S hw hs with ⟨-, -, h0⟩ | ⟨c, hfk, ho, h0, hc, hcv, hl, -⟩
  · simp [persistent_set.keys, h0, basic_node.keys] at hk
  · obtain ⟨q, l, r, h1, h2⟩ := find_loop_sim_mem h s.fake k _ _ _ ho hl hk hf
    obtain ⟨hq, hm⟩ := located_holds h _ _ _ _ hl h2
    refine ⟨q, l, r, c, ?_, ?_, hc, h2, ?_, hm⟩
    · rw [heap_model.persistent_set.find, if_neg h0, hc]
      exact h1
    · obtain ⟨l1, r1, h3, h4⟩ := find_loop_mem S.fake k S.tree ho hk
      rw [node_unique S.tree ho l r l1 r1 k hm h4]
      rw [persistent_set.find, hfk]
      simp only [basic_node.is_null, Bool.false_eq_true, if_false, basic_node.left,
        Option.some_bind]
      rw [hfk] at h3
      exact h3
    · intro h5
      subst h5
      obtain ⟨c2, hc2, hv2, -⟩ := hq
      rw [hc] at hc2
      cases hc2
      rw [hcv] at hv2
      cases hv2

/-- The tree-level result of inserting a key that is not stored. -/
theorem insert_absent_shape (S : persistent_set α) (k : α) (hw : S.wf) (hk : k ∉ S.keys) :
    ∃ t1, insert_impl k S.tree = some (t1, .node .null .null k) ∧ t1.ordered ∧
      t1.count = S.count + 1 ∧ t1.keys.Perm (k :: S.keys) ∧
      S.insert k = some (⟨.base t1 .null, (S.size_ + 1) % SIZE_MOD⟩,
        ⟨.node .null .null k, .base t1 .null⟩, true) := by
  obtain ⟨l, hcf, hl, ho⟩ := create_fake_spec S hw
  subst hl
  obtain ⟨t1, hi, ho1, hp, hc, -, -⟩ := insert_impl_spec k S.tree ho hk
  have hfind : (⟨.base S.tree .null, S.size_⟩ : persistent_set α).find k =
      some ⟨.base S.tree .null, .base S.tree .null⟩ := by
    simpa [persistent_set.find, basic_node.is_null, basic_node.left, persistent_set.end_]
      using find_loop_not_mem (.base S.tree .null) k S.tree ho hk
  refine ⟨t1, hi, ho1, hc, hp, ?_⟩
  simp [persistent_set.insert, hcf, hfind, iterator.eq, basic_node.left, hi,
    persistent_set.end_]

end refine5


section refine6
variable {α : Type} [LinearOrder α]

/-- What `create_fake` leaves on the heap. -/
theorem create_fake_sim (h : heap_model.heap α) (s : heap_model.persistent_set)
    (S : persistent_set α) (hw : S.wf) (hs : set_holds h s S) :
    ∃ c, h <+: (s.create_fake h).1 ∧ (s.create_fake h).2.size_ = s.size_ ∧
      (s.create_fake h).2.fake ≠ 0 ∧
      heap_model.read (s.create_fake h).1 (s.create_fake h).2.fake = some c ∧
      c.value = none ∧ holds (s.create_fake h).1 S.tree c.left ∧
      set_holds (s.create_fake h).1 (s.create_fake h).2 ⟨.base S.tree .null, S.size_⟩ := by
  rcases set_holds_cases h s S hw hs with ⟨-, h0, ht⟩ | ⟨c, hfk, -, h0, hc, hcv, hl, hcr⟩
  · refine ⟨⟨0, 0, none⟩, heap_model.create_fake_extends h s, ?_, ?_, ?_, rfl, ?_, ?_⟩
    · simp [heap_model.persistent_set.create_fake, h0]
    · simp [heap_model.persistent_set.create_fake, h0, heap_model.alloc]
    · simp only [heap_model.persistent_set.create_fake, h0, if_true]
      exact read_alloc h _
    · rw [ht]; rfl
    · refine ⟨?_, ⟨0, 0, none⟩, ?_, rfl, ?_, rfl⟩
      · simp [heap_model.persistent_set.create_fake, h0, hs.1]
      · simp only [heap_model.persistent_set.create_fake, h0, if_true]
        exact read_alloc h _
      · rw [ht]; rfl
  · have h1 : s.create_fake h = (h, s) := by
      simp [heap_model.persistent_set.create_fake, h0]
    rw [h1]
    exact ⟨c, List.prefix_refl _, rfl, h0, hc, hcv, hl, hs.1, c, hc, hcv, hl, by
      rw [hcr]; rfl⟩

/-- `insert` on the heap computes the tree-level `insert`. -/
theorem insert_sim (h : heap_model.heap α) (s : heap_model.persistent_set)
    (S : persistent_set α) (k : α) (fuel : Nat) (hw : S.wf) (hs : set_holds h s S)
    (hf : S.tree.depth < fuel) :
    ∃ h1 s1 r b S1 It, s.insert h k fuel = some (h1, s1, r, b) ∧
      S.insert k = some (S1, It, b) ∧ h <+: h1 ∧ set_holds h1 s1 S1 ∧ S1.wf ∧
      S1.count ≤ S.count + 1 := by
  by_cases hk : k ∈ S.keys
  · obtain ⟨S1, It, h1, -, -, h2, -⟩ := insert_present_correct S k hw hk
    subst h2
    obtain ⟨q, l, r, c, h3, -, -, -, h4, -⟩ := find_sim_mem h s S1 k fuel hw hs hf hk
    have h0 : s.fake ≠ 0 := by
      rcases set_holds_cases h s S1 hw hs with ⟨-, -, h0⟩ | ⟨_, -, -, h0, -⟩
      · simp [persistent_set.keys, h0, basic_node.keys] at hk
      · exact h0
    have hcf : s.create_fake h = (h, s) := by
      simp [heap_model.persistent_set.create_fake, h0]
    refine ⟨h, s, ⟨q, s.fake⟩, false, S1, It, ?_, h1, List.prefix_refl _, hs, hw,
      Nat.le_succ _⟩
    simp only [heap_model.persistent_set.insert, hcf, h3, Option.some_bind,
      heap_model.persistent_set.end_]
    rw [if_pos h4]
  · obtain ⟨t1, hi, ho1, hc1, -, hins⟩ := insert_absent_shape S k hw hk
    obtain ⟨c, hp0, hsz, hne, hc, hcv, hl, hs0⟩ := create_fake_sim h s S hw hs
    have hw0 : (⟨.base S.tree .null, S.size_⟩ : persistent_set α).wf := by
      obtain ⟨l, -, hl1, ho⟩ := create_fake_spec S hw
      subst hl1
      exact ⟨ho, rfl⟩
    have hfind := find_sim_not_mem (s.create_fake h).1 (s.create_fake h).2
      ⟨.base S.tree .null, S.size_⟩ k fuel hw0 hs0 hf hk
    -- the fresh sentinel
    have hpa := heap_model.alloc_extends (s.create_fake h).1 (⟨0, 0, none⟩ :
      heap_model.basic_node α)
    have hc2 := heap_model.read_mono hpa hc
    obtain ⟨h3, a, q, hs3, hp3, hh3, -⟩ := insert_impl_sim k S.tree _ c.left fuel t1 _
      (holds_mono hpa _ _ hl) hi hf
    have hrd : heap_model.read h3 (heap_model.alloc (s.create_fake h).1
        (⟨0, 0, none⟩ : heap_model.basic_node α)).2 = some ⟨0, 0, none⟩ :=
      heap_model.read_mono hp3 (read_alloc _ _)
    obtain ⟨h4, hw4, hh4, -, -⟩ := holds_sentinel_write h3 _ a hrd t1 ho1 hh3
    have hres : s.insert h k fuel = some (h4, ⟨(heap_model.alloc (s.create_fake h).1
        (⟨0, 0, none⟩ : heap_model.basic_node α)).2, ((s.create_fake h).2.size_ + 1) % SIZE_MOD⟩,
        ⟨q, (heap_model.alloc (s.create_fake h).1
          (⟨0, 0, none⟩ : heap_model.basic_node α)).2⟩, true) := by
      simp only [heap_model.persistent_set.insert, hfind, Option.some_bind,
        heap_model.persistent_set.end_, ne_eq, not_true_eq_false, if_false, hc2, hs3, hw4,
        Option.map_some']
    refine ⟨_, _, _, true, _, _, hres, hins, ?_, ⟨?_, hh4⟩, ⟨ho1, rfl⟩, ?_⟩
    · exact heap_model.insert_extends h s k fuel _ hres
    · show ((s.create_fake h).2.size_ + 1) % SIZE_MOD = (S.size_ + 1) % SIZE_MOD
      rw [hsz, hs.1]
    · show t1.count ≤ S.count + 1
      omega

/-- `erase` on the heap computes the tree-level `erase`. -/
theorem erase_sim (h : heap_model.heap α) (s : heap_model.persistent_set)
    (S : persistent_set α) (fuel : Nat) (hw : S.wf) (hs : set_holds h s S)
    (hf : S.tree.depth < fuel) (n R0 : basic_node α) (q r0 : Nat)
    (c : heap_model.basic_node α) (hc : heap_model.read h s.fake = some c)
    (hloc : located h S.tree c.left n q) :
    ∃ h1 s1 S1, s.erase h ⟨q, r0⟩ fuel = some (h1, s1) ∧ S.erase ⟨n, R0⟩ = some S1 ∧
      h <+: h1 ∧ set_holds h1 s1 S1 ∧ S1.wf ∧ S1.count ≤ S.count := by
  rcases set_holds_cases h s S hw hs with ⟨-, h0, -⟩ | ⟨c1, hfk, ho, h0, hc1, hcv, hl, hcr⟩
  · rw [h0] at hc
    simp [heap_model.read] at hc
  · rw [hc] at hc1
    cases hc1
    obtain ⟨hn, hm⟩ := located_holds h _ _ _ _ hl hloc
    obtain ⟨dl, dr, x, rfl⟩ := mem_nodes_is_node hm
    obtain ⟨t1, he, ho1, -, hc1⟩ := erase_impl_spec S.tree ho dl dr x hm
    have hne : S.tree ≠ .null := by
      intro h1
      rw [h1] at hm
      simp [basic_node.nodes] at hm
    have hl0 : c.left ≠ 0 := fun h1 => hne ((holds_zero_iff h _ _ hl).mp h1)
    have hpa := heap_model.alloc_extends h (⟨0, 0, none⟩ : heap_model.basic_node α)
    obtain ⟨h3, a, hs3, hp3, hh3⟩ := erase_impl_sim S.tree _ c.left q fuel _ t1 ho
      (holds_mono hpa _ _ hl) (located_mono hpa _ _ _ _ hloc) he hf
    have hrd : heap_model.read h3 (heap_model.alloc h
        (⟨0, 0, none⟩ : heap_model.basic_node α)).2 = some ⟨0, 0, none⟩ :=
      heap_model.read_mono hp3 (read_alloc _ _)
    obtain ⟨h4, hw4, hh4, -, -⟩ := holds_sentinel_write h3 _ a hrd t1 ho1 hh3
    have hres : s.erase h ⟨q, r0⟩ fuel = some (h4, ⟨(heap_model.alloc h
        (⟨0, 0, none⟩ : heap_model.basic_node α)).2, (s.size_ + SIZE_MOD - 1) % SIZE_MOD⟩) := by
      simp only [heap_model.persistent_set.erase, if_neg h0, hc, Option.some_bind, if_neg hl0,
        hs3, hw4, Option.map_some']
    have hres1 : S.erase ⟨.node dl dr x, R0⟩ =
        some ⟨.base t1 .null, (S.size_ + SIZE_MOD - 1) % SIZE_MOD⟩ := by
      simp [persistent_set.erase, hfk, basic_node.left, (is_null_false_iff _).mpr hne, he]
    refine ⟨_, _, _, hres, hres1, ?_, ⟨?_, hh4⟩, ⟨ho1, rfl⟩, ?_⟩
    · exact heap_model.erase_extends h s _ fuel _ hres
    · show (s.size_ + SIZE_MOD - 1) % SIZE_MOD = (S.size_ + SIZE_MOD - 1) % SIZE_MOD
      rw [hs.1]
    · show t1.count ≤ S.tree.count
      omega

end refine6


section refine7
variable {α : Type} [LinearOrder α]

theorem next_loop_sim (h : heap_model.heap α) (x : α) :
    ∀ (t : basic_node α) (p fuel : Nat) (res n1 : basic_node α) (ra : Nat),
      holds h t p → next_loop x t res = some n1 → t.depth < fuel →
      ∃ q1, heap_model.next_loop h x fuel p ra = some q1 ∧
        ((n1 = res ∧ q1 = ra) ∨ located h t p n1 q1) := by
  intro t
  induction t with
  | null => intro p fuel res n1 ra _ hn; simp [next_loop] at hn
  | base l r _ _ => intro p fuel res n1 ra _ hn; simp [next_loop] at hn
  | node l r v ihl ihr =>
    rintro p fuel res n1 ra ⟨c, hc, hv, hhl, hhr⟩ hn hf
    cases fuel with
    | zero => simp at hf
    | succ f =>
      obtain ⟨hdl, hdr⟩ := depth_node_lt hf
      rw [heap_model.next_loop, hc]
      simp only [Option.some_bind, hv]
      rw [next_loop] at hn
      by_cases h1 : v < x
      · rw [if_pos h1] at hn ⊢
        obtain ⟨q1, hq, hr⟩ := ihr _ f res n1 ra hhr hn hdr
        refine ⟨q1, hq, ?_⟩
        rcases hr with hr | hr
        · exact Or.inl hr
        · exact Or.inr (Or.inr ⟨c, hc, Or.inr hr⟩)
      · rw [if_neg h1] at hn ⊢
        by_cases h2 : x < v
        · rw [if_pos h2] at hn ⊢
          obtain ⟨q1, hq, hr⟩ := ihl _ f _ n1 p hhl hn hdl
          refine ⟨q1, hq, Or.inr ?_⟩
          rcases hr with ⟨hr1, hr2⟩ | hr
          · exact Or.inl ⟨hr2.symm, hr1⟩
          · exact Or.inr ⟨c, hc, Or.inl hr⟩
        · rw [if_neg h2] at hn ⊢
          simp only [Option.some.injEq] at hn
          exact ⟨ra, rfl, Or.inl ⟨hn.symm, rfl⟩⟩

theorem ordered_of_mem_nodes : ∀ (t n : basic_node α), t.ordered → n ∈ t.nodes → n.ordered := by
  intro t
  induction t with
  | null => intro n _ hn; simp [basic_node.nodes] at hn
  | base l r _ _ => intro n ho; exact absurd ho (by simp [basic_node.ordered])
  | node l r v ihl ihr =>
    intro n ho hn
    have ho1 := ho
    obtain ⟨hl, hr, -, -⟩ := ho
    simp only [basic_node.nodes, List.mem_append, List.mem_cons] at hn
    rcases hn with hn | hn | hn
    · exact ihl n hl hn
    · rw [hn]; exact ho1
    · exact ihr n hr hn

/-- `next` on the heap computes the tree-level `next`. -/
theorem next_sim (h : heap_model.heap α) (t rr : basic_node α) (fake : Nat)
    (cf : heap_model.basic_node α) (ho : t.ordered)
    (hcf : heap_model.read h fake = some cf) (hh : holds h t cf.left)
    (n n1 : basic_node α) (q fuel : Nat) (hloc : located h t cf.left n q)
    (hn : n.next (.base t rr) = some n1) (hf : t.depth < fuel) :
    ∃ q1, heap_model.next h q fake fuel = some q1 ∧
      ((n1 = .base t rr ∧ q1 = fake) ∨ located h t cf.left n1 q1) := by
  obtain ⟨hhn, hm⟩ := located_holds h _ _ _ _ hh hloc
  obtain ⟨nl, nr, x, rfl⟩ := mem_nodes_is_node hm
  have hon := ordered_of_mem_nodes t _ ho hm
  have hdn := depth_mem_nodes t _ hm
  obtain ⟨c, hc, hv, hhl, hhr⟩ := hhn
  rw [heap_model.next, hc]
  simp only [Option.some_bind]
  rw [basic_node.next] at hn
  simp only [basic_node.right, Option.some_bind] at hn
  by_cases hr0 : nr = .null
  · have h1 : c.right = 0 := (holds_zero_iff h nr c.right hhr).mpr hr0
    subst hr0
    simp only [basic_node.is_null, Bool.not_true, Bool.false_eq_true, if_false,
      basic_node.left, basic_node.get_value, Option.some_bind] at hn
    rw [if_neg (by simp [h1]), hcf]
    simp only [Option.some_bind, hv]
    exact next_loop_sim h x t cf.left fuel _ n1 fake hh hn hf
  · have h1 : c.right ≠ 0 := fun h2 => hr0 ((holds_zero_iff h nr c.right hhr).mp h2)
    have hr1 : nr.is_null = false := (is_null_false_iff nr).mpr hr0
    simp only [hr1, Bool.not_false, if_true] at hn
    rw [if_pos h1]
    have hdr : nr.depth ≤ fuel := by
      simp only [basic_node.depth] at hdn
      split at hdn <;> omega
    obtain ⟨m, n2, hm1, hm2, hloc2⟩ := min_sim h nr c.right fuel hon.2.1 hhr hr0 hdr
    rw [hn] at hm2
    cases hm2
    refine ⟨m, hm1, Or.inr ?_⟩
    exact located_trans h t cf.left _ q n1 m hh hloc (Or.inr ⟨c, hc, Or.inr hloc2⟩)

end refine7


section refine8
variable {α : Type} [LinearOrder α]

theorem iterate_sim (h : heap_model.heap α) (t rr : basic_node α) (fake : Nat)
    (cf : heap_model.basic_node α) (ho : t.ordered)
    (hcf : heap_model.read h fake = some cf) (hcv : cf.value = none)
    (hh : holds h t cf.left) :
    ∀ (post pre : List (basic_node α)), t.nodes = pre ++ post →
      ∀ q, ((post = [] ∧ q = fake) ∨ ∃ n, post.head? = some n ∧ located h t cf.left n q) →
      ∀ fuel, post.length + t.depth + 1 < fuel →
        heap_model.iterate_loop h ⟨fake, fake⟩ fuel ⟨q, fake⟩ =
          some (post.filterMap basic_node.get_value) := by
  intro post
  induction post with
  | nil =>
    intro pre _ q hq fuel hf
    rcases hq with ⟨-, rfl⟩ | ⟨n, hn, -⟩
    · cases fuel with
      | zero => simp at hf
      | succ f => simp [heap_model.iterate_loop]
    · simp at hn
  | cons n post ih =>
    intro pre hnodes q hq fuel hf
    rcases hq with ⟨h0, -⟩ | ⟨n0, hn0, hloc⟩
    · simp at h0
    · simp only [List.head?_cons, Option.some.injEq] at hn0
      subst hn0
      cases fuel with
      | zero => simp at hf
      | succ f =>
        obtain ⟨hhn, hm⟩ := located_holds h _ _ _ _ hh hloc
        obtain ⟨nl, nr, x, rfl⟩ := mem_nodes_is_node hm
        obtain ⟨c, hc, hv, -, -⟩ := hhn
        have hqf : q ≠ fake := by
          intro h1
          subst h1
          rw [hcf] at hc
          cases hc
          rw [hcv] at hv
          cases hv
        have hgv : heap_model.get_value h q = some x := by
          simp [heap_model.get_value, hc, hv]
        have hnext := next_spec t rr ho pre post _ hnodes
        simp only [List.length_cons] at hf
        obtain ⟨q1, hq1, hpos⟩ := next_sim h t rr fake cf ho hcf hh _ _ q f hloc hnext
          (by omega)
        have hpos1 : (post = [] ∧ q1 = fake) ∨
            ∃ n, post.head? = some n ∧ located h t cf.left n q1 := by
          cases post with
          | nil =>
            rcases hpos with ⟨-, h2⟩ | h2
            · exact Or.inl ⟨rfl, h2⟩
            · obtain ⟨-, h3⟩ := located_holds h _ _ _ _ hh h2
              obtain ⟨_, _, _, h4⟩ := mem_nodes_is_node h3
              simp at h4
          | cons n2 post2 =>
            rcases hpos with ⟨h2, -⟩ | h2
            · have h3 : n2 ∈ t.nodes := by rw [hnodes]; simp
              obtain ⟨_, _, _, h4⟩ := mem_nodes_is_node h3
              rw [h4] at h2
              simp at h2
            · exact Or.inr ⟨n2, rfl, by simpa using h2⟩
        have hrec := ih (pre ++ [basic_node.node nl nr x]) (by simp [hnodes]) q1 hpos1 f
          (by omega)
        rw [heap_model.iterate_loop]
        simp only [if_neg hqf, hgv, Option.some_bind, heap_model.iterator.incr, hq1,
          Option.map_some', hrec]
        simp [basic_node.get_value]

/-- Iterating a well-formed set on the heap yields its keys in ascending order. -/
theorem to_list_sim (h : heap_model.heap α) (s : heap_model.persistent_set)
    (S : persistent_set α) (fuel : Nat) (hw : S.wf) (hs : set_holds h s S)
    (hf : 2 * S.count + 2 < fuel) : s.to_list h fuel = some S.keys := by
  rcases set_holds_cases h s S hw hs with ⟨-, h0, ht⟩ | ⟨c, hfk, ho, h0, hc, hcv, hl, -⟩
  · cases fuel with
    | zero => simp at hf
    | succ f =>
      simp [heap_model.persistent_set.to_list, heap_model.persistent_set.begin, h0,
        heap_model.persistent_set.end_, heap_model.iterate_loop, persistent_set.keys, ht,
        basic_node.keys]
  · have hd := depth_le_count S.tree ho
    have hcnt : S.tree.count = S.count := rfl
    have hlen := length_nodes S.tree ho
    rw [heap_model.persistent_set.to_list, heap_model.persistent_set.begin, if_neg h0, hc]
    simp only [Option.some_bind]
    by_cases ht : S.tree = .null
    · have h1 : c.left = 0 := (holds_zero_iff h _ _ hl).mpr ht
      have h2 := iterate_sim h S.tree .null s.fake c ho hc hcv hl [] [] (by simp [ht,
        basic_node.nodes]) s.fake (Or.inl ⟨rfl, rfl⟩) fuel (by simp; omega)
      rw [if_pos h1]
      simp only [Option.some_bind, heap_model.persistent_set.end_]
      rw [h2]
      simp [persistent_set.keys, ht, basic_node.keys]
    · have h1 : c.left ≠ 0 := fun h2 => ht ((holds_zero_iff h _ _ hl).mp h2)
      cases fuel with
      | zero => simp at hf
      | succ f =>
        obtain ⟨m, n, hm, hn, hloc⟩ := min_sim h S.tree c.left f ho hl ht (by omega)
        have hhead : S.tree.nodes.head? = some n := by rw [← min_eq_head S.tree ho, hn]
        have h2 := iterate_sim h S.tree .null s.fake c ho hc hcv hl S.tree.nodes []
          (by simp) m (Or.inr ⟨n, hhead, hloc⟩) (f + 1) (by omega)
        rw [if_neg h1, heap_model.min, hc]
        simp only [Option.some_bind, if_pos h1, hm, Option.map_some',
          heap_model.persistent_set.end_]
        rw [h2, persistent_set.keys, keys_eq_nodes]

end refine8


section refine9
variable {α : Type} [LinearOrder α]

/-- A valid mutation through a handle that represents a well-formed set returns, only adds
objects, and leaves the handle representing a well-formed set. -/
theorem mutation_sim (h : heap_model.heap α) (s : heap_model.persistent_set)
    (S : persistent_set α) (m : heap_model.mutation α) (fuel : Nat) (hw : S.wf)
    (hs : set_holds h s S) (hf : S.tree.depth < fuel) (hm : valid_mutation h s S fuel m) :
    ∃ h1 s1 S1,
      (match m with
        | .insert value => (s.insert h value fuel).map fun r => (r.1, r.2.1)
        | .erase it => s.erase h it fuel) = some (h1, s1) ∧
      h <+: h1 ∧ set_holds h1 s1 S1 ∧ S1.wf ∧ S1.count ≤ S.count + 1 := by
  cases m with
  | insert value =>
    obtain ⟨h1, s1, r, b, S1, It, hi, -, hp, hs1, hw1, hc⟩ := insert_sim h s S value fuel hw hs hf
    exact ⟨h1, s1, S1, by simp [hi], hp, hs1, hw1, hc⟩
  | erase it =>
    obtain ⟨x, hx, hfind⟩ := hm
    obtain ⟨q, l, r, c, h1, -, hc, hloc, -, -⟩ := find_sim_mem h s S x fuel hw hs hf hx
    rw [h1] at hfind
    cases hfind
    obtain ⟨h2, s1, S1, he, -, hp, hs1, hw1, hcnt⟩ :=
      erase_sim h s S fuel hw hs hf _ .null q s.fake c hc hloc
    exact ⟨h2, s1, S1, he, hp, hs1, hw1, Nat.le_succ_of_le hcnt⟩

theorem find_defined (h : heap_model.heap α) (s : heap_model.persistent_set)
    (S : persistent_set α) (k : α) (fuel : Nat) (hw : S.wf) (hs : set_holds h s S)
    (hf : S.tree.depth < fuel) : ∃ r, s.find h k fuel = some r := by
  by_cases hk : k ∈ S.keys
  · obtain ⟨q, l, r, c, h1, -⟩ := find_sim_mem h s S k fuel hw hs hf hk
    exact ⟨_, h1⟩
  · exact ⟨_, find_sim_not_mem h s S k fuel hw hs hf hk⟩

theorem wf_depth_le_count (S : persistent_set α) (hw : S.wf) : S.tree.depth ≤ S.count := by
  obtain ⟨fake, sz⟩ := S
  cases fake with
  | null => exact Nat.le_refl _
  | node l r v => exact absurd hw (by simp [persistent_set.wf])
  | base l r => exact depth_le_count l hw.1

end refine9

/-! ## Lemmas for successor, predecessor, reachable states and erase -/

section order_lemmas0
variable {α : Type}

theorem keys_split (t : basic_node α) (pre post : List (basic_node α)) (l r : basic_node α)
    (v : α) (h : t.nodes = pre ++ basic_node.node l r v :: post) :
    t.keys = pre.filterMap basic_node.get_value ++ v :: post.filterMap basic_node.get_value := by
  rw [keys_eq_nodes, h]
  simp [List.filterMap_append, basic_node.get_value]

end order_lemmas0

section order_lemmas
variable {α : Type} [LinearOrder α]

theorem wf_fake_of_mem (s : persistent_set α) (h : s.wf) (x : basic_node α)
    (hx : x ∈ s.tree.nodes) : s.fake = .base s.tree .null ∧ s.tree.ordered := by
  obtain ⟨fake, sz⟩ := s
  cases fake with
  | null => simp [persistent_set.tree, basic_node.nodes] at hx
  | node l r v => exact absurd h (by simp [persistent_set.wf])
  | base l r =>
    obtain ⟨ho, hr⟩ := h
    rw [is_null_iff] at hr
    subst hr
    exact ⟨rfl, ho⟩

/-- In the in-order list of an ordered tree, the keys before a node are smaller than its key and
the keys after it are greater. -/
theorem keys_around (t : basic_node α) (ho : t.ordered) (pre post : List (basic_node α))
    (l r : basic_node α) (v : α) (h : t.nodes = pre ++ basic_node.node l r v :: post) :
    (∀ k ∈ pre.filterMap basic_node.get_value, k < v) ∧
    (∀ k ∈ post.filterMap basic_node.get_value, v < k) ∧
    (post.filterMap basic_node.get_value).Sorted (· < ·) ∧
    (pre.filterMap basic_node.get_value).Sorted (· < ·) := by
  have hs := ordered_sorted t ho
  rw [keys_split t pre post l r v h, List.Sorted, List.pairwise_append,
    List.pairwise_cons] at hs
  obtain ⟨h1, ⟨h2, h3⟩, h4⟩ := hs
  exact ⟨fun k hk => h4 k hk v (List.mem_cons_self _ _), h2, h3, h1⟩

/-- Successor: the value node with the least key above the key of `x`, or the sentinel when `x`
holds the largest key. -/
theorem next_correct (t rr x : basic_node α) (ho : t.ordered) (hx : x ∈ t.nodes) :
    ∃ n kx, x.get_value = some kx ∧ x.next (.base t rr) = some n ∧
      ((n = .base t rr ∧ ∀ k ∈ t.keys, k ≤ kx) ∨
        (∃ kn, n ∈ t.nodes ∧ n.get_value = some kn ∧ kx < kn ∧
          ∀ k ∈ t.keys, kx < k → kn ≤ k)) ∧
      (∀ l r v, x = .node l r v → r ≠ .null → r.min = some n) ∧
      (∀ l v, x = .node l .null v → next_loop v t (.base t rr) = some n) := by
  obtain ⟨pre, post, h⟩ := List.append_of_mem hx
  obtain ⟨xl, xr, kx, rfl⟩ := mem_nodes_is_node hx
  have hn := next_spec t rr ho pre post _ h
  obtain ⟨h1, h2, h3, -⟩ := keys_around t ho pre post xl xr kx h
  have hk := keys_split t pre post xl xr kx h
  refine ⟨_, kx, rfl, hn, ?_, ?_, ?_⟩
  · cases post with
    | nil =>
      refine Or.inl ⟨rfl, ?_⟩
      intro k hk1
      rw [hk] at hk1
      simp only [List.filterMap_nil, List.mem_append, List.mem_cons, List.not_mem_nil,
        or_false] at hk1
      rcases hk1 with hk1 | hk1
      · exact (h1 k hk1).le
      · exact hk1.le
    | cons n post1 =>
      have hnm : n ∈ t.nodes := by rw [h]; simp
      obtain ⟨nl, nr, kn, rfl⟩ := mem_nodes_is_node hnm
      refine Or.inr ⟨kn, hnm, rfl, ?_, ?_⟩
      · exact h2 kn (by simp [basic_node.get_value])
      · intro k hk1 hlt
        rw [hk] at hk1
        simp only [List.filterMap_cons, basic_node.get_value, List.mem_append,
          List.mem_cons] at hk1
        rcases hk1 with hk1 | hk1 | hk1 | hk1
        · exact absurd (h1 k hk1) (not_lt.mpr hlt.le)
        · exact absurd hk1 (ne_of_gt hlt)
        · exact hk1.ge
        · simp only [List.filterMap_cons, basic_node.get_value, List.Sorted,
            List.pairwise_cons] at h3
          exact (h3.1 k hk1).le
  · intro l r v hxe hr
    simp only [basic_node.node.injEq] at hxe
    obtain ⟨-, rfl, -⟩ := hxe
    rw [← hn]
    simp [basic_node.next, basic_node.right, (is_null_false_iff xr).mpr hr]
  · intro l v hxe
    simp only [basic_node.node.injEq] at hxe
    obtain ⟨-, rfl, rfl⟩ := hxe
    rw [← hn]
    simp [basic_node.next, basic_node.right, basic_node.is_null, basic_node.left,
      basic_node.get_value]

/-- Predecessor: the value node with the greatest key below the key of `x`, or the sentinel
when `x` holds the smallest key. -/
theorem prev_correct (t rr x : basic_node α) (ho : t.ordered) (hx : x ∈ t.nodes) :
    ∃ n kx, x.get_value = some kx ∧ x.prev (.base t rr) = some n ∧
      ((n = .base t rr ∧ ∀ k ∈ t.keys, kx ≤ k) ∨
        (∃ kn, n ∈ t.nodes ∧ n.get_value = some kn ∧ kn < kx ∧
          ∀ k ∈ t.keys, k < kx → k ≤ kn)) ∧
      (∀ l r v, x = .node l r v → l ≠ .null → l.max = some n) ∧
      (∀ r v, x = .node .null r v → prev_loop v t (.base t rr) = some n) := by
  obtain ⟨pre, post, h⟩ := List.append_of_mem hx
  obtain ⟨xl, xr, kx, rfl⟩ := mem_nodes_is_node hx
  have hn := prev_spec t rr ho pre post _ h
  obtain ⟨h1, h2, -, h3⟩ := keys_around t ho pre post xl xr kx h
  have hk := keys_split t pre post xl xr kx h
  refine ⟨_, kx, rfl, hn, ?_, ?_, ?_⟩
  · induction pre using List.reverseRecOn with
    | nil =>
      refine Or.inl ⟨rfl, ?_⟩
      intro k hk1
      rw [hk] at hk1
      simp only [List.filterMap_nil, List.nil_append, List.mem_cons] at hk1
      rcases hk1 with hk1 | hk1
      · exact hk1.ge
      · exact (h2 k hk1).le
    | append_singleton pre1 n _ =>
      have hnm : n ∈ t.nodes := by rw [h]; simp
      obtain ⟨nl, nr, kn, rfl⟩ := mem_nodes_is_node hnm
      refine Or.inr ⟨kn, by simpa using hnm, by simp [basic_node.get_value], ?_, ?_⟩
      · exact h1 kn (by simp [List.filterMap_append, basic_node.get_value])
      · intro k hk1 hlt
        rw [hk] at hk1
        simp only [List.filterMap_append, List.filterMap_cons, basic_node.get_value,
          List.filterMap_nil, List.mem_append, List.mem_cons, List.mem_singleton,
          List.not_mem_nil, or_false] at hk1
        rcases hk1 with (hk1 | hk1) | hk1 | hk1
        · simp only [List.filterMap_append, List.filterMap_cons, basic_node.get_value,
            List.filterMap_nil, List.Sorted, List.pairwise_append, List.mem_singleton,
            forall_eq] at h3
          exact (h3.2.2 k hk1).le
        · exact hk1.le
        · exact absurd hk1 (ne_of_lt hlt)
        · exact absurd (h2 k hk1) (not_lt.mpr hlt.le)
  · intro l r v hxe hl
    simp only [basic_node.node.injEq] at hxe
    obtain ⟨rfl, -, -⟩ := hxe
    rw [← hn]
    simp [basic_node.prev, basic_node.left, (is_null_false_iff xl).mpr hl]
  · intro r v hxe
    simp only [basic_node.node.injEq] at hxe
    obtain ⟨rfl, -, rfl⟩ := hxe
    rw [← hn]
    simp [basic_node.prev, basic_node.is_null, basic_node.left, basic_node.get_value]

end order_lemmas

section inverse_lemmas
variable {α : Type} [LinearOrder α]

theorem getLast?_append_singleton {β : Type} (l : List β) (a : β) :
    (l ++ [a]).getLast? = some a := by
  simp

/-- `prev` undoes `next` at every value node. -/
theorem prev_next_node (t rr x : basic_node α) (ho : t.ordered) (hx : x ∈ t.nodes) :
    ∃ n, x.next (.base t rr) = some n ∧ n.prev (.base t rr) = some x := by
  obtain ⟨pre, post, h⟩ := List.append_of_mem hx
  refine ⟨_, next_spec t rr ho pre post x h, ?_⟩
  cases post with
  | nil =>
    have hne : t ≠ .null := by
      intro h0; subst h0; simp [basic_node.nodes] at hx
    simp only [List.head?_nil, Option.getD_none]
    rw [prev_of_sentinel t rr ho hne, h]
    simp
  | cons n post1 =>
    simp only [List.head?_cons, Option.getD_some]
    rw [prev_spec t rr ho (pre ++ [x]) post1 n (by simp [h])]
    simp

/-- `next` undoes `prev` at the sentinel of a non-empty tree. -/
theorem next_prev_sentinel (t rr : basic_node α) (ho : t.ordered) (hne : t ≠ .null) :
    ∃ m, (basic_node.base t rr).prev (.base t rr) = some m ∧ m ∈ t.nodes ∧
      m.next (.base t rr) = some (.base t rr) ∧ t.nodes.getLast? = some m := by
  have h2 : t.nodes ≠ [] := fun h0 => hne ((nodes_eq_nil_iff t ho).mp h0)
  obtain ⟨pre, m, h⟩ : ∃ pre m, t.nodes = pre ++ [m] := by
    rcases List.eq_nil_or_concat t.nodes with h3 | ⟨pre, m, h3⟩
    · exact absurd h3 h2
    · exact ⟨pre, m, by simpa using h3⟩
  refine ⟨m, ?_, by rw [h]; simp, ?_, by rw [h]; simp⟩
  · rw [prev_of_sentinel t rr ho hne, h]
    simp
  · rw [next_spec t rr ho pre [] m h]
    rfl

/-- `next` undoes `prev` at every value node that is not the first one. -/
theorem next_prev_node (t rr p : basic_node α) (ho : t.ordered) (pre post : List (basic_node α))
    (m : basic_node α) (h : t.nodes = pre ++ m :: p :: post) :
    p.prev (.base t rr) = some m ∧ m.next (.base t rr) = some p := by
  constructor
  · rw [prev_spec t rr ho (pre ++ [m]) post p (by simp [h])]
    simp
  · rw [next_spec t rr ho pre (p :: post) m h]
    rfl

/-- A value node whose key is not the least one has a predecessor in the in-order list. -/
theorem split_not_first (t : basic_node α) (ho : t.ordered) (pl pr : basic_node α) (kp k : α)
    (hp : basic_node.node pl pr kp ∈ t.nodes) (hk : k ∈ t.keys) (hlt : k < kp) :
    ∃ pre m post, t.nodes = pre ++ m :: basic_node.node pl pr kp :: post := by
  obtain ⟨pre, post, h⟩ := List.append_of_mem hp
  obtain ⟨-, h2, -, -⟩ := keys_around t ho pre post pl pr kp h
  rcases List.eq_nil_or_concat pre with h3 | ⟨pre1, m, h3⟩
  · subst h3
    rw [keys_split t [] post pl pr kp h] at hk
    simp only [List.filterMap_nil, List.nil_append, List.mem_cons] at hk
    rcases hk with hk | hk
    · exact absurd hk (ne_of_lt hlt)
    · exact absurd (h2 k hk) (not_lt.mpr hlt.le)
  · exact ⟨pre1, m, post, by simp [h, h3]⟩

/-- The last value node holds the largest key. -/
theorem last_is_largest (t : basic_node α) (ho : t.ordered) (m : basic_node α)
    (h : t.nodes.getLast? = some m) :
    ∃ km, m.get_value = some km ∧ km ∈ t.keys ∧ ∀ k ∈ t.keys, k ≤ km := by
  obtain ⟨pre, h1⟩ : ∃ pre, t.nodes = pre ++ [m] := by
    rcases List.eq_nil_or_concat t.nodes with h3 | ⟨pre, a, h3⟩
    · rw [h3] at h; simp at h
    · rw [h3, List.concat_eq_append, getLast?_append_singleton] at h
      cases h
      exact ⟨pre, by simpa using h3⟩
  have hm : m ∈ t.nodes := by rw [h1]; simp
  obtain ⟨ml, mr, km, rfl⟩ := mem_nodes_is_node hm
  obtain ⟨h2, -, -, -⟩ := keys_around t ho pre [] ml mr km h1
  refine ⟨km, rfl, mem_keys_of_mem_nodes hm, ?_⟩
  intro k hk
  rw [keys_split t pre [] ml mr km h1] at hk
  simp only [List.filterMap_nil, List.mem_append, List.mem_cons, List.not_mem_nil,
    or_false] at hk
  rcases hk with hk | hk
  · exact (h2 k hk).le
  · exact hk.le

end inverse_lemmas

section erase_lemmas
variable {α : Type} [LinearOrder α]

theorem size_inc_dec (a : Nat) : ((a + 1) % SIZE_MOD + SIZE_MOD - 1) % SIZE_MOD = a % SIZE_MOD := by
  unfold SIZE_MOD
  omega

/-- Erasing the leftmost node of an ordered tree yields `delete_min`. -/
theorem erase_impl_min : ∀ r : basic_node α, r.ordered → r ≠ .null →
    ∃ m mv ks, r.min = some m ∧ m.get_value = some mv ∧ r.keys = mv :: ks ∧
      m ∈ r.nodes ∧ r.nodes.head? = some m ∧
      erase_impl r m = some r.delete_min ∧ r.delete_min.keys = ks ∧
      r.delete_min.ordered ∧ r.delete_min.count + 1 = r.count := by
  intro r
  induction r with
  | null => intro _ h; exact absurd rfl h
  | base l r _ _ => intro h; exact absurd h (by simp [basic_node.ordered])
  | node l r v ihl _ =>
    rintro ⟨hl, hr, hlt, hgt⟩ -
    by_cases hl0 : l = .null
    · subst hl0
      refine ⟨.node .null r v, v, r.keys, by simp [basic_node.min, basic_node.is_null], rfl,
        by simp [basic_node.keys], by simp [basic_node.nodes], by simp [basic_node.nodes],
        ?_, by simp [basic_node.delete_min, basic_node.is_null],
        by simpa [basic_node.delete_min, basic_node.is_null] using hr,
        by simp [basic_node.delete_min, basic_node.is_null, basic_node.count]; omega⟩
      by_cases hr0 : r = .null
      · subst hr0
        simp [erase_impl, basic_node.right, basic_node.left, basic_node.is_null,
          basic_node.delete_min]
      · simp [erase_impl, basic_node.right, basic_node.left, basic_node.is_null,
          basic_node.delete_min, (is_null_false_iff r).mpr hr0]
    · have hl1 : l.is_null = false := (is_null_false_iff l).mpr hl0
      obtain ⟨m, mv, ks, h1, h2, h3, h4, h5, h6, h7, h8, h9⟩ := ihl hl hl0
      obtain ⟨ml, mr, mv1, rfl⟩ := mem_nodes_is_node h4
      simp only [basic_node.get_value, Option.some.injEq] at h2
      subst h2
      have hne : basic_node.node l r v ≠ basic_node.node ml mr mv1 := by
        intro h0
        rw [← h0] at h4
        exact (not_mem_nodes_child l r v).1 h4
      have hx : mv1 < v := hlt mv1 (mem_keys_of_mem_nodes h4)
      have hhead : l.nodes ≠ [] := List.ne_nil_of_mem h4
      refine ⟨.node ml mr mv1, mv1, ks ++ v :: r.keys, by simp [basic_node.min, hl1, h1], rfl,
        by simp [basic_node.keys, h3], by simp [basic_node.nodes, h4], ?_, ?_,
        by simp [basic_node.delete_min, hl1, basic_node.keys, h7], ?_, ?_⟩
      · simp only [basic_node.nodes]
        rw [List.head?_append_of_ne_nil _ hhead, h5]
      · simp [erase_impl, hne, basic_node.get_value, not_lt.mpr hx.le, h6,
          basic_node.delete_min, hl1]
      · simp only [basic_node.delete_min, hl1, Bool.false_eq_true, if_false]
        refine ⟨h8, hr, ?_, hgt⟩
        intro y hy
        rw [h7] at hy
        exact hlt y (by rw [h3]; exact List.mem_cons_of_mem _ hy)
      · simp only [basic_node.delete_min, hl1, Bool.false_eq_true, if_false,
          basic_node.count]
        omega

/-- `erase_impl` at the target node itself. -/
theorem erase_impl_at_target (l r : basic_node α) (v : α) (ho : (basic_node.node l r v).ordered) :
    (r = .null → erase_impl (.node l r v) (.node l r v) = some l) ∧
    (r ≠ .null → l = .null → erase_impl (.node l r v) (.node l r v) = some r) ∧
    (l ≠ .null → r ≠ .null →
      ∃ m mv ks, r.min = some m ∧ m.get_value = some mv ∧ r.keys = mv :: ks ∧
        (∀ k ∈ r.keys, mv ≤ k) ∧ erase_impl r m = some r.delete_min ∧
        r.delete_min.keys = ks ∧ r.delete_min.ordered ∧
        r.delete_min.count + 1 = r.count ∧
        erase_impl (.node l r v) (.node l r v) = some (.node l r.delete_min mv)) := by
  obtain ⟨-, hr, -, -⟩ := ho
  refine ⟨?_, ?_, ?_⟩
  · intro hr0
    subst hr0
    simp [erase_impl, basic_node.right, basic_node.left, basic_node.is_null]
  · intro hr0 hl0
    subst hl0
    simp [erase_impl, basic_node.right, basic_node.left, basic_node.is_null,
      (is_null_false_iff r).mpr hr0]
  · intro hl0 hr0
    obtain ⟨m, mv, ks, h1, h2, h3, -, -, h6, h7, h8, h9⟩ := erase_impl_min r hr hr0
    refine ⟨m, mv, ks, h1, h2, h3, ?_, h6, h7, h8, h9, ?_⟩
    · have hs := ordered_sorted r hr
      rw [h3] at hs
      intro k hk
      rw [h3] at hk
      rcases List.mem_cons.mp hk with hk | hk
      · exact hk.ge
      · exact (List.rel_of_sorted_cons hs k hk).le
    · simp [erase_impl, basic_node.right, basic_node.left, (is_null_false_iff r).mpr hr0,
        (is_null_false_iff l).mpr hl0, h1, h6, h2]

/-- Erasing the leaf that `insert_impl` has just added gives back the tree. -/
theorem erase_impl_insert_impl (k : α) : ∀ (t t1 : basic_node α), k ∉ t.keys →
    insert_impl k t = some (t1, .node .null .null k) →
    erase_impl t1 (.node .null .null k) = some t := by
  intro t
  induction t with
  | null =>
    intro t1 _ hi
    simp only [insert_impl, Option.some.injEq, Prod.mk.injEq, and_true] at hi
    subst hi
    simp [erase_impl, basic_node.right, basic_node.left, basic_node.is_null]
  | base l r _ _ => intro t1 _ hi; simp [insert_impl] at hi
  | node l r v ihl ihr =>
    intro t1 hk hi
    simp only [basic_node.keys, List.mem_append, List.mem_cons, not_or] at hk
    obtain ⟨hkl, hkv, hkr⟩ := hk
    rw [insert_impl] at hi
    by_cases hvk : v < k
    · rw [if_pos hvk] at hi
      obtain ⟨⟨r1, n1⟩, hi1, hi2⟩ := Option.map_eq_some'.mp hi
      simp only [Prod.mk.injEq] at hi2
      obtain ⟨rfl, rfl⟩ := hi2
      have hne : basic_node.node l r1 v ≠ basic_node.node .null .null k := by
        intro h0
        simp only [basic_node.node.injEq] at h0
        exact hkv h0.2.2.symm
      simp [erase_impl, hne, basic_node.get_value, hvk, ihr r1 hkr hi1]
    · rw [if_neg hvk] at hi
      obtain ⟨⟨l1, n1⟩, hi1, hi2⟩ := Option.map_eq_some'.mp hi
      simp only [Prod.mk.injEq] at hi2
      obtain ⟨rfl, rfl⟩ := hi2
      have hne : basic_node.node l1 r v ≠ basic_node.node .null .null k := by
        intro h0
        simp only [basic_node.node.injEq] at h0
        exact hkv h0.2.2.symm
      simp [erase_impl, hne, basic_node.get_value, hvk, ihl l1 hkl hi1]

end erase_lemmas

section reach_lemmas0
variable {α : Type}

theorem count_eq_zero_iff (s : persistent_set α) : s.count = 0 ↔ s.keys = [] := by
  rw [persistent_set.count, persistent_set.keys, ← length_keys]
  exact List.length_eq_zero

end reach_lemmas0

section reach_lemmas
variable {α : Type} [LinearOrder α]

/-- `insert` on a well-formed set returns a well-formed set, for every key. -/
theorem insert_wf (s : persistent_set α) (k : α) (h : s.wf) :
    ∃ s1 it b, s.insert k = some (s1, it, b) ∧ s1.wf ∧
      ((b = false ∧ s1 = s) ∨
        (b = true ∧ s1.count = s.count + 1 ∧ s1.size_ = (s.size_ + 1) % SIZE_MOD)) := by
  by_cases hk : k ∈ s.keys
  · obtain ⟨s1, it, h1, -, -, h2, -⟩ := insert_present_correct s k h hk
    exact ⟨s1, it, false, h1, h2 ▸ h, Or.inl ⟨rfl, h2⟩⟩
  · obtain ⟨s1, it, h1, h2, h3, h4, -⟩ := insert_absent_correct s k h hk
    exact ⟨s1, it, true, h1, h2, Or.inr ⟨rfl, h3, h4⟩⟩

/-- `erase` of the position of a stored element returns a well-formed set without it. -/
theorem erase_wf (s : persistent_set α) (it : iterator α) (h : s.wf)
    (hit : it.node_ ∈ s.tree.nodes) :
    ∃ s1 kx, it.node_.get_value = some kx ∧ s.erase it = some s1 ∧ s1.wf ∧
      s1.count + 1 = s.count ∧ s1.size_ = (s.size_ + SIZE_MOD - 1) % SIZE_MOD ∧
      s1.keys = s.keys.erase kx := by
  obtain ⟨hf, ho⟩ := wf_fake_of_mem s h _ hit
  obtain ⟨dl, dr, x, hx⟩ := mem_nodes_is_node hit
  rw [hx] at hit
  obtain ⟨t1, he, ho1, hk1, hc1⟩ := erase_impl_spec s.tree ho dl dr x hit
  have hne : s.tree.is_null = false := by
    cases hs : s.tree with
    | null => rw [hs] at hit; simp [basic_node.nodes] at hit
    | base _ _ => rfl
    | node _ _ _ => rfl
  refine ⟨⟨.base t1 .null, (s.size_ + SIZE_MOD - 1) % SIZE_MOD⟩, x, by rw [hx]; rfl, ?_,
    ⟨ho1, rfl⟩, hc1, rfl, hk1⟩
  rw [persistent_set.erase, hf]
  simp only [basic_node.left, hne, Bool.false_eq_true, if_false, hx, he, Option.map_some']

theorem mod_succ_eq (a c : Nat) (h : a = c % SIZE_MOD) :
    (a + 1) % SIZE_MOD = (c + 1) % SIZE_MOD := by
  unfold SIZE_MOD at h ⊢
  omega

theorem mod_pred_eq (a c : Nat) (h : a = (c + 1) % SIZE_MOD) :
    (a + SIZE_MOD - 1) % SIZE_MOD = c % SIZE_MOD := by
  unfold SIZE_MOD at h ⊢
  omega

/-- Every reachable set is well formed and its counter is the number of elements modulo
`2 ^ 64`. -/
theorem reachable_inv (s : persistent_set α) (h : reachable s) :
    s.wf ∧ s.size_ = s.count % SIZE_MOD := by
  induction h with
  | empty => exact ⟨trivial, rfl⟩
  | insert s s1 k it b _ hi ih =>
    obtain ⟨hw, hsz⟩ := ih
    obtain ⟨s2, it2, b2, h1, h2, h3⟩ := insert_wf s k hw
    rw [hi] at h1
    simp only [Option.some.injEq, Prod.mk.injEq] at h1
    obtain ⟨rfl, -, -⟩ := h1
    refine ⟨h2, ?_⟩
    rcases h3 with ⟨-, h4⟩ | ⟨-, h4, h5⟩
    · rw [h4]; exact hsz
    · rw [h5, h4]
      exact mod_succ_eq _ _ hsz
  | erase s s1 it _ hit he ih =>
    obtain ⟨hw, hsz⟩ := ih
    obtain ⟨s2, kx, -, h1, h2, h3, h4, -⟩ := erase_wf s it hw hit
    rw [he] at h1
    cases h1
    refine ⟨h2, ?_⟩
    rw [h4]
    exact mod_pred_eq _ _ (by rw [h3]; exact hsz)
  | clear s _ _ => exact ⟨trivial, rfl⟩
  | copy s _ ih => exact ih
  | swap_fst a b _ _ _ ihb => exact ihb
  | swap_snd a b _ _ iha _ => exact iha

end reach_lemmas

section total_lemmas
variable {α : Type} [LinearOrder α]

theorem max_sim (h : heap_model.heap α) :
    ∀ (t : basic_node α) (p fuel : Nat), t.ordered → holds h t p → t ≠ .null →
      t.depth ≤ fuel →
      ∃ m n, heap_model.max h fuel p = some m ∧ t.max = some n ∧ located h t p n m := by
  intro t
  induction t with
  | null => intro p fuel _ _ hne; exact absurd rfl hne
  | base l r _ _ => intro p fuel ho; exact absurd ho (by simp [basic_node.ordered])
  | node l r v _ ihr =>
    rintro p fuel ⟨-, hr, -, -⟩ ⟨c, hc, hv, hhl, hhr⟩ - hf
    cases fuel with
    | zero => simp [basic_node.depth] at hf
    | succ f =>
      obtain ⟨-, hdr⟩ := depth_node_lt (Nat.lt_succ_of_le hf)
      rw [heap_model.max, hc]
      simp only [Option.some_bind]
      by_cases h0 : r = .null
      · have h1 : c.right = 0 := (holds_zero_iff h r c.right hhr).mpr h0
        subst h0
        refine ⟨p, _, by simp [h1], by simp [basic_node.max, basic_node.is_null],
          Or.inl ⟨rfl, rfl⟩⟩
      · have h1 : c.right ≠ 0 := fun h2 => h0 ((holds_zero_iff h r c.right hhr).mp h2)
        obtain ⟨m, n, hm, hn, hloc⟩ := ihr c.right f hr hhr h0 (by omega)
        refine ⟨m, n, by simp [h1, hm], ?_, Or.inr ⟨c, hc, Or.inr hloc⟩⟩
        simp [basic_node.max, (is_null_false_iff r).mpr h0, hn]

theorem prev_loop_sim (h : heap_model.heap α) (x : α) :
    ∀ (t : basic_node α) (p fuel : Nat) (res n1 : basic_node α) (ra : Nat),
      holds h t p → prev_loop x t res = some n1 → t.depth < fuel →
      ∃ q1, heap_model.prev_loop h x fuel p ra = some q1 ∧
        ((n1 = res ∧ q1 = ra) ∨ located h t p n1 q1) := by
  intro t
  induction t with
  | null => intro p fuel res n1 ra _ hn; simp [prev_loop] at hn
  | base l r _ _ => intro p fuel res n1 ra _ hn; simp [prev_loop] at hn
  | node l r v ihl ihr =>
    rintro p fuel res n1 ra ⟨c, hc, hv, hhl, hhr⟩ hn hf
    cases fuel with
    | zero => simp at hf
    | succ f =>
      obtain ⟨hdl, hdr⟩ := depth_node_lt hf
      rw [heap_model.prev_loop, hc]
      simp only [Option.some_bind, hv]
      rw [prev_loop] at hn
      by_cases h1 : v < x
      · rw [if_pos h1] at hn ⊢
        obtain ⟨q1, hq, hr⟩ := ihr _ f _ n1 p hhr hn hdr
        refine ⟨q1, hq, Or.inr ?_⟩
        rcases hr with ⟨hr1, hr2⟩ | hr
        · exact Or.inl ⟨hr2.symm, hr1⟩
        · exact Or.inr ⟨c, hc, Or.inr hr⟩
      · rw [if_neg h1] at hn ⊢
        by_cases h2 : x < v
        · rw [if_pos h2] at hn ⊢
          obtain ⟨q1, hq, hr⟩ := ihl _ f res n1 ra hhl hn hdl
          refine ⟨q1, hq, ?_⟩
          rcases hr with hr | hr
          · exact Or.inl hr
          · exact Or.inr (Or.inr ⟨c, hc, Or.inl hr⟩)
        · rw [if_neg h2] at hn ⊢
          simp only [Option.some.injEq] at hn
          exact ⟨ra, rfl, Or.inl ⟨hn.symm, rfl⟩⟩

/-- `prev` on the heap computes the tree-level `prev` at a value node. -/
theorem prev_sim (h : heap_model.heap α) (t rr : basic_node α) (fake : Nat)
    (cf : heap_model.basic_node α) (ho : t.ordered)
    (hcf : heap_model.read h fake = some cf) (hh : holds h t cf.left)
    (n n1 : basic_node α) (q fuel : Nat) (hloc : located h t cf.left n q)
    (hn : n.prev (.base t rr) = some n1) (hf : t.depth < fuel) :
    ∃ q1, heap_model.prev h q fake fuel = some q1 ∧
      ((n1 = .base t rr ∧ q1 = fake) ∨ located h t cf.left n1 q1) := by
  obtain ⟨hhn, hm⟩ := located_holds h _ _ _ _ hh hloc
  obtain ⟨nl, nr, x, rfl⟩ := mem_nodes_is_node hm
  have hon := ordered_of_mem_nodes t _ ho hm
  have hdn := depth_mem_nodes t _ hm
  obtain ⟨c, hc, hv, hhl, hhr⟩ := hhn
  rw [heap_model.prev, hc]
  simp only [Option.some_bind]
  rw [basic_node.prev] at hn
  simp only [basic_node.left, Option.some_bind] at hn
  by_cases hl0 : nl = .null
  · have h1 : c.left = 0 := (holds_zero_iff h nl c.left hhl).mpr hl0
    subst hl0
    simp only [basic_node.is_null, Bool.not_true, Bool.false_eq_true, if_false,
      basic_node.get_value, Option.some_bind] at hn
    rw [if_neg (by simp [h1]), hcf]
    simp only [Option.some_bind, hv]
    exact prev_loop_sim h x t cf.left fuel _ n1 fake hh hn hf
  · have h1 : c.left ≠ 0 := fun h2 => hl0 ((holds_zero_iff h nl c.left hhl).mp h2)
    have hl1 : nl.is_null = false := (is_null_false_iff nl).mpr hl0
    simp only [hl1, Bool.not_false, if_true] at hn
    rw [if_pos h1]
    have hdl : nl.depth ≤ fuel := by
      simp only [basic_node.depth] at hdn
      split at hdn <;> omega
    obtain ⟨m, n2, hm1, hm2, hloc2⟩ := max_sim h nl c.left fuel hon.1 hhl hl0 hdl
    rw [hn] at hm2
    cases hm2
    refine ⟨m, hm1, Or.inr ?_⟩
    exact located_trans h t cf.left _ q n1 m hh hloc (Or.inr ⟨c, hc, Or.inl hloc2⟩)

/-- The re-descent loop of `next` returns for every stored key. -/
theorem next_loop_defined (k : α) : ∀ (t res : basic_node α), t.ordered → k ∈ t.keys →
    ∃ n, next_loop k t res = some n := by
  intro t
  induction t with
  | null => intro res _ hk; simp [basic_node.keys] at hk
  | base l r _ _ => intro res ho; exact absurd ho (by simp [basic_node.ordered])
  | node l r v ihl ihr =>
    rintro res ⟨hl, hr, hlt, hgt⟩ hk
    simp only [basic_node.keys, List.mem_append, List.mem_cons] at hk
    rw [next_loop]
    rcases lt_trichotomy v k with hvk | hvk | hvk
    · rw [if_pos hvk]
      rcases hk with hk | hk | hk
      · exact absurd (hlt k hk) (not_lt.mpr hvk.le)
      · exact absurd hk (ne_of_gt hvk)
      · exact ihr _ hr hk
    · subst hvk
      exact ⟨res, by simp⟩
    · rw [if_neg (not_lt.mpr hvk.le), if_pos hvk]
      rcases hk with hk | hk | hk
      · exact ihl _ hl hk
      · exact absurd hk (ne_of_lt hvk)
      · exact absurd (hgt k hk) (not_lt.mpr hvk.le)

/-- The re-descent loop of `prev` returns for every stored key. -/
theorem prev_loop_defined (k : α) : ∀ (t res : basic_node α), t.ordered → k ∈ t.keys →
    ∃ n, prev_loop k t res = some n := by
  intro t
  induction t with
  | null => intro res _ hk; simp [basic_node.keys] at hk
  | base l r _ _ => intro res ho; exact absurd ho (by simp [basic_node.ordered])
  | node l r v ihl ihr =>
    rintro res ⟨hl, hr, hlt, hgt⟩ hk
    simp only [basic_node.keys, List.mem_append, List.mem_cons] at hk
    rw [prev_loop]
    rcases lt_trichotomy v k with hvk | hvk | hvk
    · rw [if_pos hvk]
      rcases hk with hk | hk | hk
      · exact absurd (hlt k hk) (not_lt.mpr hvk.le)
      · exact absurd hk (ne_of_gt hvk)
      · exact ihr _ hr hk
    · subst hvk
      exact ⟨res, by simp⟩
    · rw [if_neg (not_lt.mpr hvk.le), if_pos hvk]
      rcases hk with hk | hk | hk
      · exact ihl _ hl hk
      · exact absurd hk (ne_of_lt hvk)
      · exact absurd (hgt k hk) (not_lt.mpr hvk.le)

end total_lemmas

/-! ## The claims -/

section claims

variable {α : Type} [LinearOrder α]

/-- C1: inserting a key that is not stored returns `inserted = true`; the number of stored
elements grows by exactly one (the stored counter is incremented modulo `2 ^ 64`); the contents
are the old contents plus the key: every old key is still found, no other key appears; the
returned position holds the key and is the position `find` returns in the new set. -/
theorem insert_absent (s : persistent_set α) (k : α) (h : s.wf) (hk : k ∉ s.keys) :
    ∃ s1 it, s.insert k = some (s1, it, true) ∧ s1.wf ∧
      s1.count = s.count + 1 ∧
      s1.size_ = (s.size_ + 1) % SIZE_MOD ∧ (s.size_ + 1 < SIZE_MOD → s1.size_ = s.size_ + 1) ∧
      s1.keys.Perm (k :: s.keys) ∧
      (∀ x, x ∈ s1.keys ↔ x = k ∨ x ∈ s.keys) ∧
      (∀ x ∈ s.keys, ∃ itx, s1.find x = some itx ∧ itx.eq s1.end_ = false ∧
        itx.deref = some x) ∧
      (∀ x, x ≠ k → x ∉ s.keys → s1.find x = some s1.end_) ∧
      it.deref = some k ∧ it.root = s1.fake ∧ it.node_ ∈ s1.tree.nodes ∧
      s1.find k = some it :=
  insert_absent_correct s k h hk

/-- Witness of `insert_absent`: inserting 4 into the set holding 1, 3 and 5. -/
theorem insert_absent_witness :
    set_135.wf ∧ 4 ∉ set_135.keys ∧
    ∃ s1 it, set_135.insert 4 = some (s1, it, true) ∧ s1.wf ∧
      s1.count = set_135.count + 1 ∧
      s1.size_ = (set_135.size_ + 1) % SIZE_MOD ∧
      (set_135.size_ + 1 < SIZE_MOD → s1.size_ = set_135.size_ + 1) ∧
      s1.keys.Perm (4 :: set_135.keys) ∧
      (∀ x, x ∈ s1.keys ↔ x = 4 ∨ x ∈ set_135.keys) ∧
      (∀ x ∈ set_135.keys, ∃ itx, s1.find x = some itx ∧ itx.eq s1.end_ = false ∧
        itx.deref = some x) ∧
      (∀ x, x ≠ 4 → x ∉ set_135.keys → s1.find x = some s1.end_) ∧
      it.deref = some 4 ∧ it.root = s1.fake ∧ it.node_ ∈ s1.tree.nodes ∧
      s1.find 4 = some it :=
  ⟨by decide, by decide, insert_absent set_135 4 (by decide) (by decide)⟩

/-- C2: inserting a key that is already stored returns `inserted = false` with the position
`find` returns for it, and the handle (sentinel, count, contents) is returned unchanged. -/
theorem insert_present (s : persistent_set α) (k : α) (h : s.wf) (hk : k ∈ s.keys) :
    ∃ s1 it, s.insert k = some (s1, it, false) ∧ s.find k = some it ∧ it.deref = some k ∧
      s1 = s ∧ s1.fake = s.fake ∧ s1.size_ = s.size_ ∧ s1.keys = s.keys :=
  insert_present_correct s k h hk

/-- Witness of `insert_present`: inserting 5 into the set holding 1, 3 and 5. -/
theorem insert_present_witness :
    set_135.wf ∧ 5 ∈ set_135.keys ∧
    ∃ s1 it, set_135.insert 5 = some (s1, it, false) ∧ set_135.find 5 = some it ∧
      it.deref = some 5 ∧ s1 = set_135 ∧ s1.fake = set_135.fake ∧
      s1.size_ = set_135.size_ ∧ s1.keys = set_135.keys :=
  ⟨by decide, by decide, insert_present set_135 5 (by decide) (by decide)⟩

/-- C3: on a well-formed set `find k` returns a position different from `end()` exactly when `k`
is stored; the position then is a node of the tree whose value is stored and is neither less
nor greater than `k`; without sentinel or without root the result is `end()`. -/
theorem find_spec (s : persistent_set α) (k : α) (h : s.wf) :
    ∃ it, s.find k = some it ∧ it.root = s.fake ∧
      (it.eq s.end_ = false ↔ k ∈ s.keys) ∧
      (k ∈ s.keys → it.node_ ∈ s.tree.nodes ∧
        ∃ v, it.deref = some v ∧ v ∈ s.keys ∧ ¬ v < k ∧ ¬ k < v) ∧
      ((s.fake = .null ∨ s.fake.left = some .null) → it = s.end_) :=
  find_correct s k h

/-- Witness of `find_spec`: looking up 5 in the set holding 1, 3 and 5. -/
theorem find_spec_witness :
    (set_135 : persistent_set Nat).wf ∧
    ∃ it, set_135.find 5 = some it ∧ it.root = set_135.fake ∧
      (it.eq set_135.end_ = false ↔ 5 ∈ set_135.keys) ∧
      (5 ∈ set_135.keys → it.node_ ∈ set_135.tree.nodes ∧
        ∃ v, it.deref = some v ∧ v ∈ set_135.keys ∧ ¬ v < 5 ∧ ¬ 5 < v) ∧
      ((set_135.fake = .null ∨ set_135.fake.left = some .null) → it = set_135.end_) :=
  ⟨by decide, find_spec set_135 5 (by decide)⟩

/-- C4: erasing the position of a stored key removes exactly that key: the number of stored
elements drops by one (the stored counter is decremented modulo `2 ^ 64`), `find` of the key
then returns `end()`, every other key is still found, and iteration yields the old contents
without the key, strictly ascending. -/
theorem erase_find (s : persistent_set α) (k : α) (h : s.wf) (hk : k ∈ s.keys) :
    ∃ it s1, s.find k = some it ∧ s.erase it = some s1 ∧ s1.wf ∧
      s1.count + 1 = s.count ∧
      s1.size_ = (s.size_ + SIZE_MOD - 1) % SIZE_MOD ∧
      (0 < s.size_ → s.size_ < SIZE_MOD → s1.size_ + 1 = s.size_) ∧
      s1.find k = some s1.end_ ∧
      s1.keys = s.keys.erase k ∧
      (∀ x, x ∈ s1.keys ↔ x ∈ s.keys ∧ x ≠ k) ∧
      (∀ x ∈ s.keys, x ≠ k → ∃ itx, s1.find x = some itx ∧ itx.eq s1.end_ = false ∧
        itx.deref = some x) ∧
      (∀ fuel, s1.count < fuel → s1.to_list fuel = some (s.keys.erase k)) ∧
      (s.keys.erase k).Sorted (· < ·) := by
  obtain ⟨it, h1, -, -, h3, -⟩ := find_correct s k h
  obtain ⟨hn, v, hv, -, hv1, hv2⟩ := h3 hk
  have hvk : v = k := le_antisymm (not_lt.mp hv2) (not_lt.mp hv1)
  subst hvk
  obtain ⟨fake, sz⟩ := s
  cases fake with
  | null => simp [persistent_set.keys, persistent_set.tree, basic_node.keys] at hk
  | node l r v => exact absurd h (by simp [persistent_set.wf])
  | base t r =>
    obtain ⟨ho, hr⟩ := h
    obtain ⟨itn, itr⟩ := it
    obtain ⟨dl, dr, x, rfl⟩ := mem_nodes_is_node hn
    simp only [iterator.deref, basic_node.get_value, Option.some.injEq] at hv
    subst hv
    have hn1 : basic_node.node dl dr x ∈ t.nodes := hn
    have ht : t.is_null = false := by
      cases t with
      | null => simp [basic_node.nodes] at hn1
      | base _ _ => rfl
      | node _ _ _ => rfl
    obtain ⟨t1, he, ho1, hk1, hc1⟩ := erase_impl_spec t ho dl dr x hn1
    have hwf1 : (⟨.base t1 .null, (sz + SIZE_MOD - 1) % SIZE_MOD⟩ : persistent_set α).wf :=
      ⟨ho1, rfl⟩
    have hnd : t.keys.Nodup := ordered_nodup t ho
    have hmem : ∀ y, y ∈ t1.keys ↔ y ∈ t.keys ∧ y ≠ x := by
      intro y
      rw [hk1, hnd.mem_erase_iff]
      exact and_comm
    refine ⟨_, ⟨.base t1 .null, (sz + SIZE_MOD - 1) % SIZE_MOD⟩, h1, ?_, hwf1, hc1, rfl, ?_,
      ?_, hk1, hmem, ?_, ?_, ?_⟩
    · simp [persistent_set.erase, basic_node.left, ht, he]
    · intro h0 h2
      change 0 < sz at h0
      change sz < SIZE_MOD at h2
      show (sz + SIZE_MOD - 1) % SIZE_MOD + 1 = sz
      have h4 : sz + SIZE_MOD - 1 = (sz - 1) + SIZE_MOD := by omega
      rw [h4, Nat.add_mod_right, Nat.mod_eq_of_lt (by omega)]
      omega
    · have hx : x ∉ t1.keys := fun h0 => ((hmem x).mp h0).2 rfl
      simpa [persistent_set.find, basic_node.is_null, basic_node.left, persistent_set.end_]
        using find_loop_not_mem (.base t1 .null) x t1 ho1 hx
    · intro y hy hyx
      obtain ⟨ity, h5, -, h6, h7, -⟩ := find_correct _ y hwf1
      have hy1 : y ∈ (⟨.base t1 .null, (sz + SIZE_MOD - 1) % SIZE_MOD⟩ :
          persistent_set α).keys := (hmem y).mpr ⟨hy, hyx⟩
      obtain ⟨-, w, hw, -, hw1, hw2⟩ := h7 hy1
      have hwy : w = y := le_antisymm (not_lt.mp hw2) (not_lt.mp hw1)
      exact ⟨ity, h5, h6.mpr hy1, hwy ▸ hw⟩
    · intro fuel hf
      rw [to_list_spec _ hwf1 fuel hf]
      exact congrArg some hk1
    · exact (ordered_sorted t ho).sublist (List.erase_sublist x t.keys)

/-- Witness of `erase_find`: `insert(1); insert(2); erase(find(2))` leaves one element, the
iteration `[1]`, and `find(2) = end()`. -/
theorem erase_find_witness :
    (persistent_set.empty_set.insert_all [1, 2] = some set_12) ∧
    set_12.wf ∧ 2 ∈ set_12.keys ∧
    (∃ it s1, set_12.find 2 = some it ∧ set_12.erase it = some s1 ∧ s1.wf ∧
      s1.count + 1 = set_12.count ∧
      s1.size_ = (set_12.size_ + SIZE_MOD - 1) % SIZE_MOD ∧
      (0 < set_12.size_ → set_12.size_ < SIZE_MOD → s1.size_ + 1 = set_12.size_) ∧
      s1.find 2 = some s1.end_ ∧
      s1.keys = set_12.keys.erase 2 ∧
      (∀ x, x ∈ s1.keys ↔ x ∈ set_12.keys ∧ x ≠ 2) ∧
      (∀ x ∈ set_12.keys, x ≠ 2 → ∃ itx, s1.find x = some itx ∧ itx.eq s1.end_ = false ∧
        itx.deref = some x) ∧
      (∀ fuel, s1.count < fuel → s1.to_list fuel = some (set_12.keys.erase 2)) ∧
      (set_12.keys.erase 2).Sorted (· < ·)) ∧
    set_12.keys.erase 2 = [1] ∧ set_12.count = 2 ∧ set_12.size_ = 2 :=
  ⟨by decide, by decide, by decide, erase_find set_12 2 (by decide) (by decide),
    by decide, by decide, by decide⟩

/-- C5: inserting the keys of any list one by one into the empty set and then stepping from
`begin()` with `++` until `end()` visits every distinct key of the list exactly once, in
strictly ascending order; the sequence is the sorted list of the distinct keys, so it does not
depend on the insertion order. -/
theorem insert_all_iterate (ks : List α) :
    ∃ s, persistent_set.empty_set.insert_all ks = some s ∧ s.wf ∧
      s.count = ks.toFinset.card ∧
      ∀ fuel, s.count < fuel →
        ∃ l, s.to_list fuel = some l ∧ l.Sorted (· < ·) ∧ l.Nodup ∧ (∀ x, x ∈ l ↔ x ∈ ks) ∧
          l = ks.toFinset.sort (· ≤ ·) := by
  obtain ⟨s, h1, h2, h3⟩ := insert_all_spec ks persistent_set.empty_set trivial
  have hs := wf_sorted s h2
  have hm : ∀ x, x ∈ s.keys ↔ x ∈ ks := by
    intro x
    rw [h3]
    simp [persistent_set.keys, persistent_set.tree, persistent_set.empty_set, basic_node.keys]
  have hnd : s.keys.Nodup := hs.imp (fun h => ne_of_lt h)
  have heq : s.keys = ks.toFinset.sort (· ≤ ·) := by
    apply List.eq_of_perm_of_sorted _ (hs.imp (fun h => le_of_lt h)) (Finset.sort_sorted _ _)
    rw [List.perm_ext_iff_of_nodup hnd (Finset.sort_nodup _ _)]
    intro x
    rw [hm, Finset.mem_sort, List.mem_toFinset]
  refine ⟨s, h1, h2, ?_, ?_⟩
  · have h4 := congrArg List.length heq
    rw [Finset.length_sort] at h4
    rw [← h4]
    exact (length_keys _).symm
  · intro fuel hf
    exact ⟨s.keys, to_list_spec s h2 fuel hf, hs, hnd, hm, heq⟩

/-- Witness of `insert_all_iterate`: inserting 5, 3, 8, 1, 4, 7, 9 and iterating yields
1, 3, 4, 5, 7, 8, 9. -/
theorem insert_all_iterate_witness :
    ∃ s, persistent_set.empty_set.insert_all [5, 3, 8, 1, 4, 7, 9] = some s ∧
      s.to_list 8 = some [1, 3, 4, 5, 7, 8, 9] := by
  obtain ⟨s, h1, -, -, -⟩ := insert_all_iterate [5, 3, 8, 1, 4, 7, 9]
  refine ⟨s, h1, ?_⟩
  have h2 : s = ⟨.base (.node (.node (.node .null .null 1) (.node .null .null 4) 3)
      (.node (.node .null .null 7) (.node .null .null 9) 8) 5) .null, 7⟩ :=
    Option.some.inj (h1.symm.trans (by decide))
  rw [h2]
  decide

/-- C6: on a well-formed set, forward iteration yields the stored keys in ascending order and
reverse iteration (from `end()`, stepping with `--` and reading the key, until `begin()`)
yields exactly the reverse of that sequence: every stored key once, strictly descending. -/
theorem reverse_iteration (s : persistent_set α) (h : s.wf) (fuel : Nat)
    (hf : s.count < fuel) :
    s.to_list fuel = some s.keys ∧ s.to_rlist fuel = some s.keys.reverse ∧
      (∃ l, s.to_list fuel = some l ∧ s.to_rlist fuel = some l.reverse ∧
        l.length = s.count ∧ (∀ x, x ∈ l.reverse ↔ x ∈ s.keys)) ∧
      s.keys.length = s.count ∧
      s.keys.Sorted (· < ·) ∧ s.keys.reverse.Sorted (· > ·) := by
  have h1 := to_list_spec s h fuel hf
  have h2 := to_rlist_spec s h fuel hf
  have h3 : s.keys.length = s.count := length_keys s.tree
  refine ⟨h1, h2, ⟨s.keys, h1, h2, h3, fun x => List.mem_reverse⟩, h3, wf_sorted s h, ?_⟩
  rw [List.Sorted, List.pairwise_reverse]
  exact wf_sorted s h

/-- Witness of `reverse_iteration` on the set holding 1, 3 and 5: forward iteration yields
1, 3, 5 and reverse iteration 5, 3, 1. -/
theorem reverse_iteration_witness :
    set_135.wf ∧ set_135.count < 4 ∧
    (set_135.to_list 4 = some set_135.keys ∧ set_135.to_rlist 4 = some set_135.keys.reverse ∧
      (∃ l, set_135.to_list 4 = some l ∧ set_135.to_rlist 4 = some l.reverse ∧
        l.length = set_135.count ∧ (∀ x, x ∈ l.reverse ↔ x ∈ set_135.keys)) ∧
      set_135.keys.length = set_135.count ∧
      set_135.keys.Sorted (· < ·) ∧ set_135.keys.reverse.Sorted (· > ·)) ∧
    set_135.keys = [1, 3, 5] ∧ set_135.to_list 4 = some [1, 3, 5] ∧
    set_135.to_rlist 4 = some [5, 3, 1] :=
  ⟨by decide, by decide, reverse_iteration set_135 (by decide) 4 (by decide),
    by decide, by decide, by decide⟩

end claims

namespace heap_model
section claims
variable {α : Type} [LinearOrder α]

/-- C7: let handle `a` represent a well-formed set and let `b` be a copy of `a` (so the positions
of the elements of `b` are those of `a`).  Every mutation of `b` (an `insert` of any key, or an
`erase` of the position of an element) returns and leaves `a` as it was: same sentinel and
count, the same `find` result for every key and the same iteration sequence as before; and a
later mutation of `a` returns and likewise leaves the count, the `find` results and the
iteration sequence of `b` unchanged.  The bound `fuel` on loop steps is any number above
`2 * count + 4`; the last two lines of each part state the preservation for every bound. -/
theorem persistence (w : world α) (S : persistent_set_cpp.persistent_set α)
    (m1 m2 : mutation α) (fuel : Nat) (hw : S.wf) (ha : set_holds w.mem w.a S)
    (hf : 2 * S.count + 4 < fuel) (hm1 : valid_mutation w.mem w.a S fuel m1)
    (hm2 : valid_mutation w.mem w.a S fuel m2) :
    ∃ w1 w2, w.copy_a_to_b.mutate_b m1 fuel = some w1 ∧ w1.mutate_a m2 fuel = some w2 ∧
      (w1.a = w.a ∧ w1.a.size_ = w.a.size_ ∧
        (∀ x, ∃ r, w.a.find w.mem x fuel = some r ∧ w1.a.find w1.mem x fuel = some r) ∧
        (w.a.to_list w.mem fuel = some S.keys ∧ w1.a.to_list w1.mem fuel = some S.keys) ∧
        (∀ f x r, w.a.find w.mem x f = some r → w1.a.find w1.mem x f = some r) ∧
        (∀ f l, w.a.to_list w.mem f = some l → w1.a.to_list w1.mem f = some l)) ∧
      (w2.b = w1.b ∧ w2.b.size_ = w1.b.size_ ∧
        (∀ x, ∃ r, w1.b.find w1.mem x fuel = some r ∧ w2.b.find w2.mem x fuel = some r) ∧
        (∃ l, w1.b.to_list w1.mem fuel = some l ∧ w2.b.to_list w2.mem fuel = some l) ∧
        (∀ f x r, w1.b.find w1.mem x f = some r → w2.b.find w2.mem x f = some r) ∧
        (∀ f l, w1.b.to_list w1.mem f = some l → w2.b.to_list w2.mem f = some l)) := by
  have hd := wf_depth_le_count S hw
  have hcopy : w.a.copy = w.a := rfl
  -- the mutation of `b`
  obtain ⟨h1, b1, S1, hr1, hp1, hs1, hw1, hc1⟩ :=
    mutation_sim w.mem w.a S m1 fuel hw ha (by omega) hm1
  have hw1eq : w.copy_a_to_b.mutate_b m1 fuel = some ⟨h1, w.a, b1⟩ := by
    cases m1 with
    | insert value =>
      obtain ⟨r, hr, hr2⟩ := Option.map_eq_some'.mp hr1
      simp only [Prod.mk.injEq] at hr2
      simp [world.mutate_b, world.copy_a_to_b, hcopy, hr, hr2.1, hr2.2]
    | erase it =>
      simp only at hr1
      simp [world.mutate_b, world.copy_a_to_b, hcopy, hr1]
  -- the later mutation of `a`
  have ha1 : set_holds h1 w.a S := set_holds_mono hp1 _ _ ha
  have hm2a : valid_mutation h1 w.a S fuel m2 := by
    cases m2 with
    | insert value => trivial
    | erase it =>
      obtain ⟨x, hx, hfx⟩ := hm2
      exact ⟨x, hx, find_mono hp1 _ _ _ _ hfx⟩
  obtain ⟨h2, a2, S2, hr2, hp2, -, -, -⟩ :=
    mutation_sim h1 w.a S m2 fuel hw ha1 (by omega) hm2a
  have hw2eq : (⟨h1, w.a, b1⟩ : world α).mutate_a m2 fuel = some ⟨h2, a2, b1⟩ := by
    cases m2 with
    | insert value =>
      obtain ⟨r, hr, hr3⟩ := Option.map_eq_some'.mp hr2
      simp only [Prod.mk.injEq] at hr3
      simp [world.mutate_a, hr, hr3.1, hr3.2]
    | erase it =>
      simp only at hr2
      simp [world.mutate_a, hr2]
  have hd1 := wf_depth_le_count S1 hw1
  refine ⟨⟨h1, w.a, b1⟩, ⟨h2, a2, b1⟩, hw1eq, hw2eq,
    ⟨rfl, rfl, ?_, ⟨?_, ?_⟩, ?_, ?_⟩, ⟨rfl, rfl, ?_, ?_, ?_, ?_⟩⟩
  · intro x
    obtain ⟨r, hr⟩ := find_defined w.mem w.a S x fuel hw ha (by omega)
    exact ⟨r, hr, find_mono hp1 _ _ _ _ hr⟩
  · exact to_list_sim w.mem w.a S fuel hw ha (by omega)
  · exact to_list_sim h1 w.a S fuel hw ha1 (by omega)
  · intro f x r hr
    exact find_mono hp1 _ _ _ _ hr
  · intro f l hl
    exact to_list_mono hp1 _ _ _ hl
  · intro x
    obtain ⟨r, hr⟩ := find_defined h1 b1 S1 x fuel hw1 hs1 (by omega)
    exact ⟨r, hr, find_mono hp2 _ _ _ _ hr⟩
  · have hl := to_list_sim h1 b1 S1 fuel hw1 hs1 (by omega)
    exact ⟨S1.keys, hl, to_list_mono hp2 _ _ _ hl⟩
  · intro f x r hr
    exact find_mono hp2 _ _ _ _ hr
  · intro f l hl
    exact to_list_mono hp2 _ _ _ hl


/-- Witness of `persistence`: `a` holds 1 and 2, `b` is a copy of `a` and receives 3, then 1
is erased from `a`. -/
theorem persistence_witness :
    set_12.wf ∧ set_holds world_12.mem world_12.a set_12 ∧ 2 * set_12.count + 4 < 10 ∧
    valid_mutation world_12.mem world_12.a set_12 10 (.insert 3) ∧
    valid_mutation world_12.mem world_12.a set_12 10 (.erase ⟨6, 4⟩) ∧
    ∃ w1 w2, world_12.copy_a_to_b.mutate_b (.insert 3) 10 = some w1 ∧
      w1.mutate_a (.erase ⟨6, 4⟩) 10 = some w2 ∧
      (w1.a = world_12.a ∧ w1.a.size_ = world_12.a.size_ ∧
        (∀ x, ∃ r, world_12.a.find world_12.mem x 10 = some r ∧
          w1.a.find w1.mem x 10 = some r) ∧
        (world_12.a.to_list world_12.mem 10 = some set_12.keys ∧
          w1.a.to_list w1.mem 10 = some set_12.keys) ∧
        (∀ f x r, world_12.a.find world_12.mem x f = some r →
          w1.a.find w1.mem x f = some r) ∧
        (∀ f l, world_12.a.to_list world_12.mem f = some l →
          w1.a.to_list w1.mem f = some l)) ∧
      (w2.b = w1.b ∧ w2.b.size_ = w1.b.size_ ∧
        (∀ x, ∃ r, w1.b.find w1.mem x 10 = some r ∧ w2.b.find w2.mem x 10 = some r) ∧
        (∃ l, w1.b.to_list w1.mem 10 = some l ∧ w2.b.to_list w2.mem 10 = some l) ∧
        (∀ f x r, w1.b.find w1.mem x f = some r → w2.b.find w2.mem x f = some r) ∧
        (∀ f l, w1.b.to_list w1.mem f = some l → w2.b.to_list w2.mem f = some l)) :=
  have hh : set_holds world_12.mem world_12.a set_12 :=
    ⟨rfl, _, rfl, rfl, ⟨_, rfl, rfl, rfl, ⟨_, rfl, rfl, rfl, rfl⟩⟩, rfl⟩
  ⟨by decide, hh, by decide, trivial, ⟨1, by decide, by decide⟩,
    persistence world_12 set_12 (.insert 3) (.erase ⟨6, 4⟩) 10 (by decide) hh (by decide)
      trivial ⟨1, by decide, by decide⟩⟩

end claims
end heap_model

section claims

variable {α : Type} [LinearOrder α]

/-- C8: after `clear()` the set is empty: `empty()` is true, `begin()` is `end()`, iteration
yields nothing and `find` returns `end()` for every key; `clear()` leaves a default-constructed
or already cleared set unchanged. -/
theorem clear_spec (s : persistent_set α) :
    s.clear.empty = true ∧ s.clear.begin = some s.clear.end_ ∧
      (∀ fuel, s.clear.to_list (fuel + 1) = some []) ∧
      (∀ fuel, s.clear.to_rlist (fuel + 1) = some []) ∧
      (∀ k, s.clear.find k = some s.clear.end_) ∧
      (persistent_set.empty_set : persistent_set α).clear = persistent_set.empty_set ∧
      s.clear.clear = s.clear :=
  ⟨rfl, rfl, fun _ => rfl, fun _ => rfl, fun _ => rfl, rfl, rfl⟩

/-- C9: `erase` on a set without sentinel, or whose sentinel has no left child, returns the
handle unchanged (same sentinel reference, same count), whatever the iterator. -/
theorem erase_empty (s : persistent_set α) (it : iterator α)
    (h : s.fake = .null ∨ s.fake.left = some .null) :
    s.erase it = some s ∧
      ∀ s1, s.erase it = some s1 → s1.fake = s.fake ∧ s1.size_ = s.size_ := by
  have h1 : s.erase it = some s := by
    rcases h with h | h
    · simp [persistent_set.erase, h, basic_node.left]
    · simp [persistent_set.erase, h, basic_node.is_null]
  refine ⟨h1, ?_⟩
  intro s1 h2
  rw [h1] at h2
  cases h2
  exact ⟨rfl, rfl⟩

/-- Witness of `erase_empty`: erasing a foreign position from a set with an empty sentinel. -/
theorem erase_empty_witness :
    ((⟨.base .null .null, 0⟩ : persistent_set Nat).fake = .null ∨
      (⟨.base .null .null, 0⟩ : persistent_set Nat).fake.left = some .null) ∧
    ((⟨.base .null .null, 0⟩ : persistent_set Nat).erase ⟨.node .null .null 7, .null⟩ =
        some ⟨.base .null .null, 0⟩ ∧
      ∀ s1, (⟨.base .null .null, 0⟩ : persistent_set Nat).erase ⟨.node .null .null 7, .null⟩ =
        some s1 → s1.fake = (⟨.base .null .null, 0⟩ : persistent_set Nat).fake ∧
          s1.size_ = (⟨.base .null .null, 0⟩ : persistent_set Nat).size_) :=
  ⟨Or.inr rfl, erase_empty _ _ (Or.inr rfl)⟩

/-- C10: on a well-formed set that stores an element, `begin()` is the leftmost node under the
sentinel, holds the smallest stored key and differs from `end()`; on a set that stores none
(no sentinel, or no left child of the sentinel) `begin()` is `end()`. -/
theorem begin_smallest (s : persistent_set α) (h : s.wf) :
    (s.keys ≠ [] → ∃ it, s.begin = some it ∧ it.eq s.end_ = false ∧ it.root = s.fake ∧
      s.tree.nodes.head? = some it.node_ ∧ it.node_.left = some .null ∧
      ∃ m, it.deref = some m ∧ m ∈ s.keys ∧ ∀ x ∈ s.keys, m ≤ x) ∧
    ((s.fake = .null ∨ s.fake.left = some .null) → s.begin = some s.end_) := by
  constructor
  · intro hne
    obtain ⟨fake, sz⟩ := s
    cases fake with
    | null => exact absurd rfl hne
    | node l r v => exact absurd h (by simp [persistent_set.wf])
    | base t r =>
      have ho : t.ordered := h.1
      have hb := begin_spec _ h
      have hn : t.nodes ≠ [] := by
        intro h0
        have h1 := (nodes_eq_nil_iff t ho).mp h0
        subst h1
        exact hne rfl
      obtain ⟨n, ns, h1⟩ := List.exists_cons_of_ne_nil hn
      obtain ⟨nl, nr, x, rfl⟩ := mem_nodes_is_node (t := t) (n := n) (by rw [h1]; simp)
      obtain ⟨mv, ks, h2, h3⟩ := keys_of_nodes_cons ho h1
      have hmin : t.min = some (.node nl nr x) := by rw [min_eq_head t ho, h1]; rfl
      have hs := ordered_sorted t ho
      rw [h3] at hs
      refine ⟨⟨.node nl nr x, .base t r⟩, ?_, ?_, rfl, ?_, min_left_null _ _ hmin, mv, h2,
        ?_, ?_⟩
      · rw [hb]; simp [persistent_set.tree, h1]
      · simp [iterator.eq, persistent_set.end_]
      · simp [persistent_set.tree, h1]
      · show mv ∈ t.keys
        rw [h3]; simp
      · intro y hy
        have hy1 : y ∈ t.keys := hy
        rw [h3] at hy1
        rcases List.mem_cons.mp hy1 with hy2 | hy2
        · exact le_of_eq hy2.symm
        · exact le_of_lt (List.rel_of_sorted_cons hs y hy2)
  · rintro (h0 | h0)
    · simp [persistent_set.begin, h0]
    · obtain ⟨fake, sz⟩ := s
      cases fake with
      | null => rfl
      | node l r v => exact absurd h (by simp [persistent_set.wf])
      | base t r =>
        simp only [basic_node.left, Option.some.injEq] at h0
        subst h0
        rfl

/-- Witness of `begin_smallest` on the set holding 1, 3 and 5. -/
theorem begin_smallest_witness :
    set_135.wf ∧
    (set_135.keys ≠ [] → ∃ it, set_135.begin = some it ∧ it.eq set_135.end_ = false ∧
      it.root = set_135.fake ∧
      set_135.tree.nodes.head? = some it.node_ ∧ it.node_.left = some .null ∧
      ∃ m, it.deref = some m ∧ m ∈ set_135.keys ∧ ∀ x ∈ set_135.keys, m ≤ x) ∧
    ((set_135.fake = .null ∨ set_135.fake.left = some .null) →
      set_135.begin = some set_135.end_) :=
  ⟨by decide, begin_smallest set_135 (by decide)⟩

end claims

section claims

variable {α : Type} [LinearOrder α]

/-- C11: `a.swap(b)` leaves `a` with exactly the former sentinel reference and count of `b` and
`b` with exactly those of `a`, so contents, iteration and `find` results are exchanged; the
free function `swap` does the same; the heap-level handles are exchanged likewise; swapping
twice restores both sets. -/
theorem swap_spec (a b : persistent_set α) (ha hb : heap_model.persistent_set) :
    ((a.swap b).1.fake = b.fake ∧ (a.swap b).1.size_ = b.size_ ∧
      (a.swap b).2.fake = a.fake ∧ (a.swap b).2.size_ = a.size_) ∧
    ((a.swap b).1 = b ∧ (a.swap b).2 = a) ∧
    ((a.swap b).1.keys = b.keys ∧ (a.swap b).2.keys = a.keys ∧
      (a.swap b).1.empty = b.empty ∧ (a.swap b).2.empty = a.empty ∧
      (∀ k, (a.swap b).1.find k = b.find k ∧ (a.swap b).2.find k = a.find k) ∧
      (∀ fuel, (a.swap b).1.to_list fuel = b.to_list fuel ∧
        (a.swap b).2.to_list fuel = a.to_list fuel) ∧
      (∀ fuel, (a.swap b).1.to_rlist fuel = b.to_rlist fuel ∧
        (a.swap b).2.to_rlist fuel = a.to_rlist fuel)) ∧
    ((a.swap b).1.swap (a.swap b).2 = (a, b)) ∧
    (swap a b = a.swap b) ∧
    ((ha.swap hb).1 = hb ∧ (ha.swap hb).2 = ha ∧
      (ha.swap hb).1.swap (ha.swap hb).2 = (ha, hb)) :=
  ⟨⟨rfl, rfl, rfl, rfl⟩, ⟨rfl, rfl⟩,
    ⟨rfl, rfl, rfl, rfl, fun _ => ⟨rfl, rfl⟩, fun _ => ⟨rfl, rfl⟩, fun _ => ⟨rfl, rfl⟩⟩,
    rfl, rfl, ⟨rfl, rfl, rfl⟩⟩

/-- C12: the key ordering invariant holds for the empty set; `insert` of any key and `erase` of
the position of a stored element return a set that satisfies it whenever the set they are
applied to does, and so do copy, `clear` and `swap`; hence every reachable set satisfies it: at
every value node the keys of the left subtree are strictly smaller and the keys of the right
subtree strictly greater than the key of the node. -/
theorem ordering_invariant_preserved :
    (persistent_set.empty_set : persistent_set α).wf ∧
    (∀ (s : persistent_set α) (k : α), s.wf → ∃ s1 it b, s.insert k = some (s1, it, b) ∧ s1.wf) ∧
    (∀ (s : persistent_set α) (it : iterator α), s.wf → it.node_ ∈ s.tree.nodes →
      ∃ s1, s.erase it = some s1 ∧ s1.wf) ∧
    (∀ s : persistent_set α, s.wf → s.copy.wf ∧ s.clear.wf) ∧
    (∀ a b : persistent_set α, a.wf → b.wf → (a.swap b).1.wf ∧ (a.swap b).2.wf) ∧
    (∀ s : persistent_set α, reachable s → s.wf ∧ s.tree.ordered ∧
      ∀ l r v, basic_node.node l r v ∈ s.tree.nodes →
        (∀ x ∈ l.keys, x < v) ∧ (∀ x ∈ r.keys, v < x)) := by
  refine ⟨trivial, ?_, ?_, fun s h => ⟨h, trivial⟩, fun a b ha hb => ⟨hb, ha⟩, ?_⟩
  · intro s k h
    obtain ⟨s1, it, b, h1, h2, -⟩ := insert_wf s k h
    exact ⟨s1, it, b, h1, h2⟩
  · intro s it h hit
    obtain ⟨s1, kx, -, h1, h2, -⟩ := erase_wf s it h hit
    exact ⟨s1, h1, h2⟩
  · intro s hr
    obtain ⟨hw, -⟩ := reachable_inv s hr
    have ho : s.tree.ordered := by
      obtain ⟨l, -, hl, hol⟩ := create_fake_spec s hw
      rw [← hl]; exact hol
    refine ⟨hw, ho, ?_⟩
    intro l r v hn
    have h1 := ordered_of_mem_nodes s.tree _ ho hn
    exact ⟨h1.2.2.1, h1.2.2.2⟩

/-- Witness of `ordering_invariant_preserved`: the set holding 1, 3 and 5 is well formed and
stays so after `insert(4)`; the set built by `insert(1); insert(2)` is reachable and well
formed. -/
theorem ordering_invariant_preserved_witness :
    set_135.wf ∧ (∃ s1 it b, set_135.insert 4 = some (s1, it, b) ∧ s1.wf) ∧
    reachable set_12 ∧ set_12.wf :=
  have hr : reachable set_12 :=
    reachable.insert set_1 set_12 2 ⟨.node .null .null 2, set_12.fake⟩ true
      (reachable.insert persistent_set.empty_set set_1 1 ⟨.node .null .null 1, set_1.fake⟩ true
        reachable.empty (by decide)) (by decide)
  ⟨by decide, ordering_invariant_preserved.2.1 set_135 4 (by decide), hr,
    (ordering_invariant_preserved.2.2.2.2.2 set_12 hr).1⟩

/-- C13: in every reachable set state the stored counter `size_` is the number of value nodes
under the sentinel (0 without sentinel), counted modulo `2 ^ 64`; so whenever the elements are
fewer than `2 ^ 64`, as they are in an address space of `2 ^ 64` bytes, `size_` equals that
number and `empty()` is true exactly when the set stores no element. -/
theorem count_invariant (s : persistent_set α) (h : reachable s) :
    s.size_ = s.count % SIZE_MOD ∧ s.size_ < SIZE_MOD ∧
    (s.fake = .null → s.count = 0) ∧
    (s.count < SIZE_MOD →
      s.size_ = s.count ∧ (s.empty = true ↔ s.keys = []) ∧ (s.empty = true ↔ s.count = 0)) := by
  obtain ⟨-, hsz⟩ := reachable_inv s h
  have hpos : 0 < SIZE_MOD := by unfold SIZE_MOD; omega
  refine ⟨hsz, by rw [hsz]; exact Nat.mod_lt _ hpos, ?_, ?_⟩
  · intro h0
    simp [persistent_set.count, persistent_set.tree, h0, basic_node.count]
  · intro hlt
    have h1 : s.size_ = s.count := by rw [hsz]; exact Nat.mod_eq_of_lt hlt
    have h2 : s.empty = true ↔ s.count = 0 := by
      simp [persistent_set.empty, h1]
    exact ⟨h1, h2.trans (count_eq_zero_iff s), h2⟩

/-- Witness of `count_invariant`: the set built by `insert(1); insert(2)`. -/
theorem count_invariant_witness :
    reachable set_12 ∧
    (set_12.size_ = set_12.count % SIZE_MOD ∧ set_12.size_ < SIZE_MOD ∧
    (set_12.fake = .null → set_12.count = 0) ∧
    (set_12.count < SIZE_MOD →
      set_12.size_ = set_12.count ∧ (set_12.empty = true ↔ set_12.keys = []) ∧
        (set_12.empty = true ↔ set_12.count = 0))) ∧
    set_12.count < SIZE_MOD ∧ set_12.size_ = 2 ∧ set_12.count = 2 :=
  have hr : reachable set_12 :=
    reachable.insert set_1 set_12 2 ⟨.node .null .null 2, set_12.fake⟩ true
      (reachable.insert persistent_set.empty_set set_1 1 ⟨.node .null .null 1, set_1.fake⟩ true
        reachable.empty (by decide)) (by decide)
  ⟨hr, count_invariant set_12 hr, by decide, by decide, by decide⟩

/-- C14: in a well-formed snapshot, `next` of a stored value node `x` returns the node holding
the smallest stored key strictly greater than the key of `x`, and the sentinel exactly when `x`
holds the largest key; with a right child the result is the minimum of the right subtree,
without one it is the result of the re-descent loop from the root. -/
theorem next_smallest_greater (s : persistent_set α) (x : basic_node α) (h : s.wf)
    (hx : x ∈ s.tree.nodes) :
    ∃ n kx, x.get_value = some kx ∧ x.next s.fake = some n ∧
      iterator.incr ⟨x, s.fake⟩ = some ⟨n, s.fake⟩ ∧
      ((n = s.fake ∧ ∀ k ∈ s.keys, k ≤ kx) ∨
        (∃ kn, n ∈ s.tree.nodes ∧ n.get_value = some kn ∧ kx < kn ∧
          ∀ k ∈ s.keys, kx < k → kn ≤ k)) ∧
      ((∀ k ∈ s.keys, k ≤ kx) → n = s.fake) ∧
      (∀ l r v, x = .node l r v → r ≠ .null → r.min = some n) ∧
      (∀ l v, x = .node l .null v → next_loop v s.tree s.fake = some n) := by
  obtain ⟨hf, ho⟩ := wf_fake_of_mem s h x hx
  obtain ⟨n, kx, h1, h2, h3, h4, h5⟩ := next_correct s.tree .null x ho hx
  rw [← hf] at h2 h3 h5
  refine ⟨n, kx, h1, h2, by simp [iterator.incr, h2], h3, ?_, h4, h5⟩
  intro hmax
  rcases h3 with ⟨h6, -⟩ | ⟨kn, h6, h7, h8, -⟩
  · exact h6
  · have hkn : kn ∈ s.keys := by
      obtain ⟨a, b, c, rfl⟩ := mem_nodes_is_node h6
      simp only [basic_node.get_value, Option.some.injEq] at h7
      subst h7
      exact mem_keys_of_mem_nodes (l := a) (r := b) h6
    exact absurd (hmax kn hkn) (not_le.mpr h8)

/-- Witness of `next_smallest_greater`: the successor of the node holding 1 in the set holding
1, 3 and 5. -/
theorem next_smallest_greater_witness :
    set_135.wf ∧ basic_node.node .null .null 1 ∈ set_135.tree.nodes ∧
    ∃ n kx, (basic_node.node .null .null 1).get_value = some kx ∧
      (basic_node.node .null .null 1).next set_135.fake = some n ∧
      iterator.incr ⟨basic_node.node .null .null 1, set_135.fake⟩ = some ⟨n, set_135.fake⟩ ∧
      ((n = set_135.fake ∧ ∀ k ∈ set_135.keys, k ≤ kx) ∨
        (∃ kn, n ∈ set_135.tree.nodes ∧ n.get_value = some kn ∧ kx < kn ∧
          ∀ k ∈ set_135.keys, kx < k → kn ≤ k)) ∧
      ((∀ k ∈ set_135.keys, k ≤ kx) → n = set_135.fake) ∧
      (∀ l r v, basic_node.node .null .null 1 = .node l r v → r ≠ .null → r.min = some n) ∧
      (∀ l v, basic_node.node .null .null 1 = .node l .null v →
        next_loop v set_135.tree set_135.fake = some n) :=
  ⟨by decide, by decide,
    next_smallest_greater set_135 (.node .null .null 1) (by decide) (by decide)⟩

/-- C15: in a well-formed snapshot that stores an element, `prev` of the sentinel returns the
node holding the largest stored key; `prev` of a stored value node `x` returns the node holding
the largest stored key strictly smaller than the key of `x`, and the sentinel exactly when `x`
holds the smallest key, in particular when `x` is `begin()`. -/
theorem prev_largest_smaller (s : persistent_set α) (h : s.wf) (hne : s.keys ≠ []) :
    (∃ m km, s.fake.prev s.fake = some m ∧ iterator.decr s.end_ = some ⟨m, s.fake⟩ ∧
      m ∈ s.tree.nodes ∧ m.get_value = some km ∧ km ∈ s.keys ∧ ∀ k ∈ s.keys, k ≤ km) ∧
    (∀ x ∈ s.tree.nodes, ∃ n kx, x.get_value = some kx ∧ x.prev s.fake = some n ∧
      iterator.decr ⟨x, s.fake⟩ = some ⟨n, s.fake⟩ ∧
      ((n = s.fake ∧ ∀ k ∈ s.keys, kx ≤ k) ∨
        (∃ kn, n ∈ s.tree.nodes ∧ n.get_value = some kn ∧ kn < kx ∧
          ∀ k ∈ s.keys, k < kx → k ≤ kn)) ∧
      ((∀ k ∈ s.keys, kx ≤ k) → n = s.fake) ∧
      (∀ l r v, x = .node l r v → l ≠ .null → l.max = some n) ∧
      (∀ r v, x = .node .null r v → prev_loop v s.tree s.fake = some n)) ∧
    (∃ b, s.begin = some b ∧ b.node_ ∈ s.tree.nodes ∧ b.node_.prev s.fake = some s.fake) := by
  have hnn : s.tree.nodes ≠ [] := by
    intro h0
    apply hne
    rw [persistent_set.keys, keys_eq_nodes, h0]
    rfl
  obtain ⟨x0, xs, hx0⟩ := List.exists_cons_of_ne_nil hnn
  have hx0m : x0 ∈ s.tree.nodes := by rw [hx0]; simp
  obtain ⟨hf, ho⟩ := wf_fake_of_mem s h x0 hx0m
  have htn : s.tree ≠ .null := by
    intro h0
    rw [h0] at hnn
    exact hnn rfl
  refine ⟨?_, ?_, ?_⟩
  · obtain ⟨m, h1, h2, -, h4⟩ := next_prev_sentinel s.tree .null ho htn
    obtain ⟨km, h5, h6, h7⟩ := last_is_largest s.tree ho m h4
    rw [← hf] at h1
    exact ⟨m, km, h1, by simp [iterator.decr, persistent_set.end_, h1], h2, h5, h6, h7⟩
  · intro x hx
    obtain ⟨n, kx, h1, h2, h3, h4, h5⟩ := prev_correct s.tree .null x ho hx
    rw [← hf] at h2 h3 h5
    refine ⟨n, kx, h1, h2, by simp [iterator.decr, h2], h3, ?_, h4, h5⟩
    intro hmin
    rcases h3 with ⟨h6, -⟩ | ⟨kn, h6, h7, h8, -⟩
    · exact h6
    · have hkn : kn ∈ s.keys := by
        obtain ⟨a, b, c, rfl⟩ := mem_nodes_is_node h6
        simp only [basic_node.get_value, Option.some.injEq] at h7
        subst h7
        exact mem_keys_of_mem_nodes (l := a) (r := b) h6
      exact absurd (hmin kn hkn) (not_le.mpr h8)
  · refine ⟨⟨x0, s.fake⟩, ?_, hx0m, ?_⟩
    · rw [begin_spec s h, hx0]
      rfl
    · have h1 := prev_spec s.tree .null ho [] xs x0 hx0
      rw [← hf] at h1
      exact h1

/-- Witness of `prev_largest_smaller` on the set holding 1, 3 and 5. -/
theorem prev_largest_smaller_witness :
    set_135.wf ∧ set_135.keys ≠ [] ∧
    ((∃ m km, set_135.fake.prev set_135.fake = some m ∧
      iterator.decr set_135.end_ = some ⟨m, set_135.fake⟩ ∧
      m ∈ set_135.tree.nodes ∧ m.get_value = some km ∧ km ∈ set_135.keys ∧
      ∀ k ∈ set_135.keys, k ≤ km) ∧
    (∀ x ∈ set_135.tree.nodes, ∃ n kx, x.get_value = some kx ∧
      x.prev set_135.fake = some n ∧
      iterator.decr ⟨x, set_135.fake⟩ = some ⟨n, set_135.fake⟩ ∧
      ((n = set_135.fake ∧ ∀ k ∈ set_135.keys, kx ≤ k) ∨
        (∃ kn, n ∈ set_135.tree.nodes ∧ n.get_value = some kn ∧ kn < kx ∧
          ∀ k ∈ set_135.keys, k < kx → k ≤ kn)) ∧
      ((∀ k ∈ set_135.keys, kx ≤ k) → n = set_135.fake) ∧
      (∀ l r v, x = .node l r v → l ≠ .null → l.max = some n) ∧
      (∀ r v, x = .node .null r v → prev_loop v set_135.tree set_135.fake = some n)) ∧
    (∃ b, set_135.begin = some b ∧ b.node_ ∈ set_135.tree.nodes ∧
      b.node_.prev set_135.fake = some set_135.fake)) :=
  ⟨by decide, by decide, prev_largest_smaller set_135 (by decide) (by decide)⟩

/-- C16: `erase_impl` at the target node of an ordered tree.  Without right child it returns the
left child; with a right child and no left child it returns the right child; with both it
returns a node whose key is the minimum key of the right subtree (the key of the in-order
successor of the target), whose left child is the left subtree of the target and whose right
child is the right subtree without its leftmost node, the successor. -/
theorem erase_impl_target (t l r : basic_node α) (v : α) (ho : t.ordered)
    (hx : basic_node.node l r v ∈ t.nodes) :
    (r = .null → erase_impl (.node l r v) (.node l r v) = some l) ∧
    (r ≠ .null → l = .null → erase_impl (.node l r v) (.node l r v) = some r) ∧
    (l ≠ .null → r ≠ .null →
      ∃ m mv, r.min = some m ∧ m.get_value = some mv ∧
        mv ∈ r.keys ∧ (∀ k ∈ r.keys, mv ≤ k) ∧
        (basic_node.node l r v).next (.base t .null) = some m ∧
        v < mv ∧ (∀ k ∈ t.keys, v < k → mv ≤ k) ∧
        erase_impl (.node l r v) (.node l r v) = some (.node l r.delete_min mv) ∧
        erase_impl r m = some r.delete_min ∧
        r.delete_min.keys = r.keys.erase mv ∧ mv ∉ r.delete_min.keys ∧
        r.delete_min.count + 1 = r.count ∧ r.delete_min.ordered) := by
  have hon := ordered_of_mem_nodes t _ ho hx
  obtain ⟨h1, h2, h3⟩ := erase_impl_at_target l r v hon
  refine ⟨h1, h2, ?_⟩
  intro hl0 hr0
  obtain ⟨m, mv, ks, h4, h5, h6, h7, h8, h9, h10, h11, h12⟩ := h3 hl0 hr0
  obtain ⟨n, kx, g1, g2, g3, g4, -⟩ := next_correct t .null _ ho hx
  have hnm : n = m := by
    have h13 := g4 l r v rfl hr0
    rw [h4] at h13
    exact (Option.some.inj h13).symm
  subst hnm
  simp only [basic_node.get_value, Option.some.injEq] at g1
  subst g1
  have hnd : r.keys.Nodup := ordered_nodup r hon.2.1
  have hsucc : v < mv ∧ ∀ k ∈ t.keys, v < k → mv ≤ k := by
    rcases g3 with ⟨g5, -⟩ | ⟨kn, -, g6, g7, g8⟩
    · rw [g5] at h5
      simp [basic_node.get_value] at h5
    · rw [h5] at g6
      cases g6
      exact ⟨g7, g8⟩
  refine ⟨n, mv, h4, h5, by rw [h6]; simp, h7, g2, hsucc.1, hsucc.2, h12, h8, ?_, ?_, h11,
    h10⟩
  · rw [h9, h6, List.erase_cons_head]
  · rw [h9]
    rw [h6] at hnd
    exact (List.nodup_cons.mp hnd).1

/-- Witness of `erase_impl_target`: the root of the tree holding 1, 3 and 5 has both children;
erasing it puts 5 at the root and leaves no right child. -/
theorem erase_impl_target_witness :
    set_135.tree.ordered ∧ basic_node.node leaf_1 leaf_5 3 ∈ set_135.tree.nodes ∧
    ((leaf_5 = .null → erase_impl (.node leaf_1 leaf_5 3) (.node leaf_1 leaf_5 3) = some leaf_1) ∧
    (leaf_5 ≠ .null → leaf_1 = .null →
      erase_impl (.node leaf_1 leaf_5 3) (.node leaf_1 leaf_5 3) = some leaf_5) ∧
    (leaf_1 ≠ .null → leaf_5 ≠ .null →
      ∃ m mv, leaf_5.min = some m ∧ m.get_value = some mv ∧
        mv ∈ leaf_5.keys ∧ (∀ k ∈ leaf_5.keys, mv ≤ k) ∧
        (basic_node.node leaf_1 leaf_5 3).next (.base set_135.tree .null) = some m ∧
        3 < mv ∧ (∀ k ∈ set_135.tree.keys, 3 < k → mv ≤ k) ∧
        erase_impl (.node leaf_1 leaf_5 3) (.node leaf_1 leaf_5 3) =
          some (.node leaf_1 leaf_5.delete_min mv) ∧
        erase_impl leaf_5 m = some leaf_5.delete_min ∧
        leaf_5.delete_min.keys = leaf_5.keys.erase mv ∧ mv ∉ leaf_5.delete_min.keys ∧
        leaf_5.delete_min.count + 1 = leaf_5.count ∧ leaf_5.delete_min.ordered)) ∧
    erase_impl (.node leaf_1 leaf_5 3) (.node leaf_1 leaf_5 3) = some (.node leaf_1 .null 5) :=
  ⟨by decide, by decide, erase_impl_target set_135.tree leaf_1 leaf_5 3 (by decide) (by decide),
    by decide⟩

/-- C17: on a well-formed snapshot every operation returns a result, where a missing result
would mean a dereferenced null pointer, a read of the sentinel's key or a loop that does not
stop: `find` and `insert` for every key; `next`, `prev`, their re-descent loops, `erase_impl`
from the root and `erase` for every stored value node.  On a heap that represents the snapshot
the same operations return within any number of steps above the depth of the tree. -/
theorem operations_total (s : persistent_set α) (h : s.wf) :
    (∀ k, ∃ it, s.find k = some it) ∧
    (∀ k, ∃ s1 it b, s.insert k = some (s1, it, b)) ∧
    (∀ x ∈ s.tree.nodes, ∃ kx, x.get_value = some kx ∧
      (∃ n, x.next s.fake = some n) ∧ (∃ n, x.prev s.fake = some n) ∧
      (∃ n, next_loop kx s.tree s.fake = some n) ∧
      (∃ n, prev_loop kx s.tree s.fake = some n) ∧
      (∃ t1, erase_impl s.tree x = some t1) ∧ (∃ s1, s.erase ⟨x, s.fake⟩ = some s1)) ∧
    (∀ (hp : heap_model.heap α) (hs : heap_model.persistent_set) (fuel : Nat),
      set_holds hp hs s → s.tree.depth < fuel →
      (∀ k, ∃ r, hs.find hp k fuel = some r) ∧
      (∀ k, ∃ r, hs.insert hp k fuel = some r) ∧
      (∀ x q c, heap_model.read hp hs.fake = some c → located hp s.tree c.left x q →
        (∃ n, heap_model.next hp q hs.fake fuel = some n) ∧
        (∃ n, heap_model.prev hp q hs.fake fuel = some n) ∧
        (∃ kx, x.get_value = some kx ∧
          (∃ n, heap_model.next_loop hp kx fuel c.left hs.fake = some n) ∧
          (∃ n, heap_model.prev_loop hp kx fuel c.left hs.fake = some n)) ∧
        (∃ r, heap_model.erase_impl fuel hp c.left q = some r) ∧
        (∃ r, hs.erase hp ⟨q, hs.fake⟩ fuel = some r))) := by
  refine ⟨?_, ?_, ?_, ?_⟩
  · intro k
    obtain ⟨it, h1, -⟩ := find_correct s k h
    exact ⟨it, h1⟩
  · intro k
    obtain ⟨s1, it, b, h1, -⟩ := insert_wf s k h
    exact ⟨s1, it, b, h1⟩
  · intro x hx
    obtain ⟨hf, ho⟩ := wf_fake_of_mem s h x hx
    obtain ⟨n, kx, h1, h2, -⟩ := next_correct s.tree .null x ho hx
    obtain ⟨m, kx1, -, h3, -⟩ := prev_correct s.tree .null x ho hx
    rw [← hf] at h2 h3
    obtain ⟨xl, xr, xv, rfl⟩ := mem_nodes_is_node hx
    simp only [basic_node.get_value, Option.some.injEq] at h1
    subst h1
    have hk : xv ∈ s.tree.keys := mem_keys_of_mem_nodes hx
    obtain ⟨t1, h4, -⟩ := erase_impl_spec s.tree ho xl xr xv hx
    obtain ⟨s1, -, -, h5, -⟩ := erase_wf s ⟨.node xl xr xv, s.fake⟩ h hx
    exact ⟨xv, rfl, ⟨n, h2⟩, ⟨m, h3⟩, next_loop_defined xv s.tree s.fake ho hk,
      prev_loop_defined xv s.tree s.fake ho hk, ⟨t1, h4⟩, ⟨s1, h5⟩⟩
  · intro hp hs fuel hsh hfuel
    refine ⟨fun k => find_defined hp hs s k fuel h hsh hfuel, ?_, ?_⟩
    · intro k
      obtain ⟨h1, s1, r, b, S1, It, hi, -⟩ := insert_sim hp hs s k fuel h hsh hfuel
      exact ⟨_, hi⟩
    · intro x q c hc hloc
      rcases set_holds_cases hp hs s h hsh with ⟨-, h0, -⟩ | ⟨c1, hfk, ho, h0, hc1, hcv, hl, -⟩
      · rw [h0] at hc
        simp [heap_model.read] at hc
      · rw [hc] at hc1
        cases hc1
        obtain ⟨-, hx⟩ := located_holds hp _ _ _ _ hl hloc
        obtain ⟨n, kx, h1, h2, -⟩ := next_correct s.tree .null x ho hx
        obtain ⟨m, kx1, -, h3, -⟩ := prev_correct s.tree .null x ho hx
        obtain ⟨q1, h4, -⟩ := next_sim hp s.tree .null hs.fake c ho hc hl x n q fuel hloc h2
          hfuel
        obtain ⟨q2, h5, -⟩ := prev_sim hp s.tree .null hs.fake c ho hc hl x m q fuel hloc h3
          hfuel
        obtain ⟨xl, xr, xv, rfl⟩ := mem_nodes_is_node hx
        simp only [basic_node.get_value, Option.some.injEq] at h1
        subst h1
        have hk : xv ∈ s.tree.keys := mem_keys_of_mem_nodes hx
        obtain ⟨n3, h6⟩ := next_loop_defined xv s.tree s.fake ho hk
        obtain ⟨n4, h7⟩ := prev_loop_defined xv s.tree s.fake ho hk
        obtain ⟨q3, h8, -⟩ := next_loop_sim hp xv s.tree c.left fuel _ n3 hs.fake hl h6 hfuel
        obtain ⟨q4, h9, -⟩ := prev_loop_sim hp xv s.tree c.left fuel _ n4 hs.fake hl h7 hfuel
        obtain ⟨t1, h10, -⟩ := erase_impl_spec s.tree ho xl xr xv hx
        obtain ⟨hp1, a, h11, -⟩ := erase_impl_sim s.tree hp c.left q fuel _ t1 ho hl hloc h10
          hfuel
        obtain ⟨hp2, s1, S1, h12, -⟩ := erase_sim hp hs s fuel h hsh hfuel _ .null q hs.fake c
          hc hloc
        exact ⟨⟨q1, h4⟩, ⟨q2, h5⟩, ⟨xv, rfl, ⟨q3, h8⟩, ⟨q4, h9⟩⟩, ⟨_, h11⟩, ⟨_, h12⟩⟩

/-- Witness of `operations_total`: the set built by `insert(1); insert(2)`, also as it lies on
the heap after these two calls, where the node holding 1 is at address 6. -/
theorem operations_total_witness :
    set_12.wf ∧
    ((∀ k, ∃ it, set_12.find k = some it) ∧
    (∀ k, ∃ s1 it b, set_12.insert k = some (s1, it, b)) ∧
    (∀ x ∈ set_12.tree.nodes, ∃ kx, x.get_value = some kx ∧
      (∃ n, x.next set_12.fake = some n) ∧ (∃ n, x.prev set_12.fake = some n) ∧
      (∃ n, next_loop kx set_12.tree set_12.fake = some n) ∧
      (∃ n, prev_loop kx set_12.tree set_12.fake = some n) ∧
      (∃ t1, erase_impl set_12.tree x = some t1) ∧
      (∃ s1, set_12.erase ⟨x, set_12.fake⟩ = some s1)) ∧
    (∀ (hp : heap_model.heap Nat) (hs : heap_model.persistent_set) (fuel : Nat),
      set_holds hp hs set_12 → set_12.tree.depth < fuel →
      (∀ k, ∃ r, hs.find hp k fuel = some r) ∧
      (∀ k, ∃ r, hs.insert hp k fuel = some r) ∧
      (∀ x q c, heap_model.read hp hs.fake = some c → located hp set_12.tree c.left x q →
        (∃ n, heap_model.next hp q hs.fake fuel = some n) ∧
        (∃ n, heap_model.prev hp q hs.fake fuel = some n) ∧
        (∃ kx, x.get_value = some kx ∧
          (∃ n, heap_model.next_loop hp kx fuel c.left hs.fake = some n) ∧
          (∃ n, heap_model.prev_loop hp kx fuel c.left hs.fake = some n)) ∧
        (∃ r, heap_model.erase_impl fuel hp c.left q = some r) ∧
        (∃ r, hs.erase hp ⟨q, hs.fake⟩ fuel = some r)))) ∧
    set_holds heap_model.world_12.mem heap_model.world_12.a set_12 ∧
    set_12.tree.depth < 3 ∧
    heap_model.next heap_model.world_12.mem 6 4 3 = some 5 ∧
    heap_model.next heap_model.world_12.mem 5 4 3 = some 4 ∧
    heap_model.prev heap_model.world_12.mem 6 4 3 = some 4 ∧
    heap_model.prev heap_model.world_12.mem 4 4 3 = some 5 :=
  ⟨by decide, operations_total set_12 (by decide),
    ⟨rfl, _, rfl, rfl, ⟨_, rfl, rfl, rfl, ⟨_, rfl, rfl, rfl, rfl⟩⟩, rfl⟩,
    by decide, by decide, by decide, by decide, by decide⟩

/-- C18: inserting a key that is not stored and then erasing the position that `insert`
returned gives back a tree under the sentinel that is identical to the tree before the insert,
with the same number of elements and the same stored counter: `insert` adds the key as a new
leaf, `erase` removes exactly that leaf. -/
theorem insert_erase_identity (s : persistent_set α) (k : α) (h : s.wf) (hk : k ∉ s.keys) :
    ∃ s1 it s2, s.insert k = some (s1, it, true) ∧ s1.erase it = some s2 ∧
      it.node_ = .node .null .null k ∧ it.node_ ∈ s1.tree.nodes ∧
      s1.keys.Perm (k :: s.keys) ∧ s1.count = s.count + 1 ∧
      s2.tree = s.tree ∧ s2.fake = .base s.tree .null ∧ s2.keys = s.keys ∧
      s2.count = s.count ∧ s2.wf ∧
      s2.size_ = s.size_ % SIZE_MOD ∧ (s.size_ < SIZE_MOD → s2.size_ = s.size_) ∧
      (s.fake ≠ .null → s.size_ < SIZE_MOD → s2 = s) := by
  obtain ⟨t1, hi, ho1, hc, hp, hins⟩ := insert_absent_shape s k h hk
  have he := erase_impl_insert_impl k s.tree t1 hk hi
  have hmem : basic_node.node .null .null k ∈ t1.nodes := by
    obtain ⟨t2, hi2, -, -, -, hn, -⟩ := insert_impl_spec k s.tree (by
      obtain ⟨l, -, hl, hol⟩ := create_fake_spec s h
      rw [← hl]; exact hol) hk
    rw [hi] at hi2
    cases hi2
    exact hn
  have ht1 : t1.is_null = false := by
    cases t1 with
    | null => simp [basic_node.nodes] at hmem
    | base _ _ => rfl
    | node _ _ _ => rfl
  have hwf2 : (⟨.base s.tree .null, s.size_ % SIZE_MOD⟩ : persistent_set α).wf := by
    obtain ⟨l, -, hl, hol⟩ := create_fake_spec s h
    rw [← hl]
    exact ⟨hol, rfl⟩
  refine ⟨_, _, ⟨.base s.tree .null, s.size_ % SIZE_MOD⟩, hins, ?_, rfl, hmem, hp, hc, rfl,
    rfl, rfl, rfl, hwf2, rfl, ?_, ?_⟩
  · simp [persistent_set.erase, basic_node.left, ht1, he, size_inc_dec]
  · intro hlt
    exact Nat.mod_eq_of_lt hlt
  · intro hne hlt
    obtain ⟨fake, sz⟩ := s
    cases fake with
    | null => exact absurd rfl hne
    | node l r v => exact absurd h (by simp [persistent_set.wf])
    | base l r =>
      obtain ⟨-, hr⟩ := h
      rw [is_null_iff] at hr
      subst hr
      simp only [persistent_set.tree, persistent_set.mk.injEq, true_and]
      exact Nat.mod_eq_of_lt hlt

/-- Witness of `insert_erase_identity`: inserting 4 into the set holding 1, 3 and 5 and erasing
it again. -/
theorem insert_erase_identity_witness :
    set_135.wf ∧ 4 ∉ set_135.keys ∧
    ∃ s1 it s2, set_135.insert 4 = some (s1, it, true) ∧ s1.erase it = some s2 ∧
      it.node_ = .node .null .null 4 ∧ it.node_ ∈ s1.tree.nodes ∧
      s1.keys.Perm (4 :: set_135.keys) ∧ s1.count = set_135.count + 1 ∧
      s2.tree = set_135.tree ∧ s2.fake = .base set_135.tree .null ∧ s2.keys = set_135.keys ∧
      s2.count = set_135.count ∧ s2.wf ∧
      s2.size_ = set_135.size_ % SIZE_MOD ∧ (set_135.size_ < SIZE_MOD → s2.size_ = set_135.size_) ∧
      (set_135.fake ≠ .null → set_135.size_ < SIZE_MOD → s2 = set_135) :=
  ⟨by decide, by decide, insert_erase_identity set_135 4 (by decide) (by decide)⟩

/-- C19: in a well-formed snapshot that stores an element, `prev (next x) = x` for every stored
value node `x` (also for the one with the largest key, whose `next` is the sentinel), and
`next (prev p) = p` for the sentinel and for every stored value node that does not hold the
smallest key. -/
theorem next_prev_inverse (s : persistent_set α) (h : s.wf) (hne : s.keys ≠ []) :
    (∀ x ∈ s.tree.nodes, ∃ n, x.next s.fake = some n ∧ n.prev s.fake = some x ∧
      ((iterator.incr ⟨x, s.fake⟩).bind iterator.decr = some ⟨x, s.fake⟩)) ∧
    (∃ m, s.fake.prev s.fake = some m ∧ m.next s.fake = some s.fake ∧
      ((iterator.decr s.end_).bind iterator.incr = some s.end_)) ∧
    (∀ p ∈ s.tree.nodes, ∀ kp, p.get_value = some kp → (∃ k ∈ s.keys, k < kp) →
      ∃ m, p.prev s.fake = some m ∧ m.next s.fake = some p ∧
        ((iterator.decr ⟨p, s.fake⟩).bind iterator.incr = some ⟨p, s.fake⟩)) := by
  have hnn : s.tree.nodes ≠ [] := by
    intro h0
    apply hne
    rw [persistent_set.keys, keys_eq_nodes, h0]
    rfl
  obtain ⟨x0, xs, hx0⟩ := List.exists_cons_of_ne_nil hnn
  obtain ⟨hf, ho⟩ := wf_fake_of_mem s h x0 (by rw [hx0]; simp)
  have htn : s.tree ≠ .null := by
    intro h0
    rw [h0] at hnn
    exact hnn rfl
  refine ⟨?_, ?_, ?_⟩
  · intro x hx
    obtain ⟨n, h1, h2⟩ := prev_next_node s.tree .null x ho hx
    rw [← hf] at h1 h2
    exact ⟨n, h1, h2, by simp [iterator.incr, iterator.decr, h1, h2]⟩
  · obtain ⟨m, h1, -, h2, -⟩ := next_prev_sentinel s.tree .null ho htn
    rw [← hf] at h1 h2
    exact ⟨m, h1, h2, by simp [iterator.incr, iterator.decr, persistent_set.end_, h1, h2]⟩
  · intro p hp kp hkp ⟨k, hk, hlt⟩
    obtain ⟨pl, pr, kp1, rfl⟩ := mem_nodes_is_node hp
    simp only [basic_node.get_value, Option.some.injEq] at hkp
    subst hkp
    obtain ⟨pre, m, post, hsplit⟩ := split_not_first s.tree ho pl pr kp1 k hp hk hlt
    obtain ⟨h1, h2⟩ := next_prev_node s.tree .null _ ho pre post m hsplit
    rw [← hf] at h1 h2
    exact ⟨m, h1, h2, by simp [iterator.incr, iterator.decr, h1, h2]⟩

/-- Witness of `next_prev_inverse` on the set holding 1, 3 and 5. -/
theorem next_prev_inverse_witness :
    set_135.wf ∧ set_135.keys ≠ [] ∧
    ((∀ x ∈ set_135.tree.nodes, ∃ n, x.next set_135.fake = some n ∧
      n.prev set_135.fake = some x ∧
      ((iterator.incr ⟨x, set_135.fake⟩).bind iterator.decr = some ⟨x, set_135.fake⟩)) ∧
    (∃ m, set_135.fake.prev set_135.fake = some m ∧ m.next set_135.fake = some set_135.fake ∧
      ((iterator.decr set_135.end_).bind iterator.incr = some set_135.end_)) ∧
    (∀ p ∈ set_135.tree.nodes, ∀ kp, p.get_value = some kp → (∃ k ∈ set_135.keys, k < kp) →
      ∃ m, p.prev set_135.fake = some m ∧ m.next set_135.fake = some p ∧
        ((iterator.decr ⟨p, set_135.fake⟩).bind iterator.incr = some ⟨p, set_135.fake⟩))) :=
  ⟨by decide, by decide, next_prev_inverse set_135 (by decide) (by decide)⟩

end claims

end persistent_set_cpp
